import Mathlib

/-!
BaudEngine zone master: partition metadata, routing tree and heartbeat reconciler.

A shallow embedding of `master/partition.go`, `master/processor.go` and the
heartbeat loop of `zm/rpc_server.go`, with `util/common.go`, the directory listing of
`topo/etcd3topo`, the iterator of `engine/bleve/rocksdb` and the admin events of
`ps/server`.

* Identifiers (`uint64`) and slots (`uint32`) are natural numbers: the embedded
  code only compares them, it never does arithmetic on them.
* `time.Time` is an integer count of nanoseconds; `timeSub` saturates like
  Go's `time.Time.Sub` does.
* `google/btree` is modelled by the list of its items in ascending `Less` order.
* A Go run-time panic is the `Except.error` result; `make` with a capacity panics
  above 2^45 pointers and above the capacity the machine has the memory for, a
  parameter `capLimit`.
* A byte string is a list of natural numbers below 256; `SlotSplit` computes modulo
  2^32 and 2^64 as the source does.
* The gorocksdb iterator is a cursor over the key-sorted pairs; the partition stores of
  the partition server, which the sources use without defining, are parameters.
-/

namespace Baud

/-! ## metapb / masterpb records -/

/-! The identifier types `PartitionID`, `DBID`, `SpaceID`, `ReplicaID`, `NodeID`
(`uint64`) and `SlotID` (`uint32`) are all written `Nat` below. -/

/-- The record `metapb.ReplicaAddrs`. -/
structure ReplicaAddrs where
  HeartbeatAddr : String
  ReplicateAddr : String
  RpcAddr : String
  AdminAddr : String
deriving DecidableEq, Repr, Inhabited

/-- The record `metapb.Replica`. -/
structure Replica where
  ID : Nat
  NodeID : Nat
  ReplicaAddrs : ReplicaAddrs
deriving DecidableEq, Repr, Inhabited

/-- The record `metapb.PartitionEpoch`. -/
structure PartitionEpoch where
  ConfVersion : Nat
  Version : Nat
deriving DecidableEq, Repr, Inhabited

/-- The enumeration `metapb.PartitionStatus`; its zero value is `PA_INVALID`. -/
inductive PartitionStatus where
  | PA_INVALID
  | PA_READONLY
  | PA_READWRITE
deriving DecidableEq, Repr, Inhabited

/-- The persisted record `metapb.Partition`. -/
structure MetaPartition where
  ID : Nat
  DB : Nat
  Space : Nat
  StartSlot : Nat
  EndSlot : Nat
  Replicas : List Replica
  Epoch : PartitionEpoch
  Status : PartitionStatus
deriving DecidableEq, Repr, Inhabited

/-- One entry of `masterpb.RaftStatus.Followers`; it embeds a `metapb.Replica`. -/
structure RaftFollowerStatus where
  Replica : Replica
deriving DecidableEq, Repr, Inhabited

/-- The record `masterpb.RaftStatus`: the reporting replica and its followers. -/
structure RaftStatus where
  Replica : Replica
  Followers : List RaftFollowerStatus
deriving DecidableEq, Repr, Inhabited

/-- The record `masterpb.PartitionInfo` of a heartbeat; `RaftStatus` is a
pointer in the source and may be nil. -/
structure PartitionInfo where
  ID : Nat
  IsLeader : Bool
  Status : PartitionStatus
  Epoch : PartitionEpoch
  RaftStatus : Option RaftStatus
deriving DecidableEq, Repr, Inhabited

/-! ## time -/

/-! A `time.Time` is written `Int`: nanoseconds since the Unix epoch. -/

/-- The largest `time.Duration` (an `int64` count of nanoseconds). -/
def maxDuration : Int := 2 ^ 63 - 1

/-- The smallest `time.Duration`. -/
def minDuration : Int := -(2 ^ 63)

/-- The method `time.Time.Sub`: the difference `t - u`, saturated to the range
of `time.Duration`. -/
def timeSub (t u : Int) : Int :=
  if t - u > maxDuration then maxDuration
  else if t - u < minDuration then minDuration
  else t - u

/-- The constant `time.Second`, in nanoseconds. -/
def Second : Int := 1000000000

/-- The zero value `time.Time{}` (1 January of year 1, UTC), relative to the
Unix epoch. -/
def zeroTime : Int := -62135596800 * Second

/-! ## master.Partition -/

/-- The in-memory record `master.Partition`: the persisted record, the leader
pointer, the change-member task latch and the heartbeat stamp. -/
structure Partition where
  meta : MetaPartition
  Leader : Option Replica
  taskFlag : Bool
  taskTimeout : Int
  LastHeartbeat : Int
deriving DecidableEq, Repr

instance : Inhabited Partition :=
  ⟨{ meta := default, Leader := none, taskFlag := false,
     taskTimeout := zeroTime, LastHeartbeat := zeroTime }⟩

/-- The promoted field `p.StartSlot`. -/
abbrev Partition.StartSlot (p : Partition) : Nat := p.meta.StartSlot

/-- The promoted field `p.EndSlot`. -/
abbrev Partition.EndSlot (p : Partition) : Nat := p.meta.EndSlot

/-- The promoted field `p.ID`. -/
abbrev Partition.ID (p : Partition) : Nat := p.meta.ID

/-- The function `NewPartitionByMeta`. -/
def NewPartitionByMeta (metaPartition : MetaPartition) : Partition :=
  { meta := metaPartition, Leader := none, taskFlag := false,
    taskTimeout := zeroTime, LastHeartbeat := zeroTime }

/-! ## google/btree, as the ascending list of its items -/

/-- Visit the items of `seq` in order, threading an accumulator, until the
callback answers `false`: the iteration protocol of `btree.ItemIterator`. -/
def iterate {α σ : Type} (f : σ → α → σ × Bool) : σ → List α → σ
  | acc, [] => acc
  | acc, i :: rest =>
    match f acc i with
    | (acc', true) => iterate f acc' rest
    | (acc', false) => acc'

/-- The items that `AscendGreaterOrEqual(pivot, _)` visits, in visiting order:
those not less than the pivot, ascending. -/
def btAscendGreaterOrEqual {α : Type} (less : α → α → Bool) (items : List α) (pivot : α) :
    List α :=
  items.filter (fun i => !less i pivot)

/-- The items that `DescendLessOrEqual(pivot, _)` visits, in visiting order:
those the pivot is not less than, descending. -/
def btDescendLessOrEqual {α : Type} (less : α → α → Bool) (items : List α) (pivot : α) :
    List α :=
  (items.filter (fun i => !less pivot i)).reverse

/-- The method `Delete(item)`: drop the item equal to `item` (neither is less). -/
def btDelete {α : Type} (less : α → α → Bool) (items : List α) (item : α) : List α :=
  items.filter (fun i => less i item || less item i)

/-- The method `ReplaceOrInsert(item)`: put `item` at its place, in place of
an equal item if there is one. -/
def btReplaceOrInsert {α : Type} (less : α → α → Bool) (items : List α) (item : α) : List α :=
  items.filter (fun i => less i item) ++ item :: items.filter (fun i => less item i)

/-! ## PartitionItem and PartitionTree -/

/-- The method `PartitionItem.Less`: the start slot is GREATER than the other's,
so the tree is sorted by start slot reversely. -/
def PartitionItem.Less (r other : Partition) : Bool :=
  decide (r.StartSlot > other.StartSlot)

/-- The method `PartitionItem.Contains`. -/
def PartitionItem.Contains (r : Partition) (slot : Nat) : Bool :=
  decide (slot ≥ r.StartSlot) && decide (slot < r.EndSlot)

/-- The type `PartitionTree`: the items of its btree, ascending in `Less`. -/
structure PartitionTree where
  items : List Partition
deriving DecidableEq, Repr

/-- The function `NewPartitionTree`. -/
def NewPartitionTree : PartitionTree := ⟨[]⟩

/-- The representation invariant of the btree: items strictly ascending in `Less`. -/
def PartitionTree.ordered (t : PartitionTree) : Prop :=
  t.items.Pairwise (fun a b => PartitionItem.Less a b = true)

/-- The method `PartitionTree.length`. -/
def PartitionTree.length (t : PartitionTree) : Nat := t.items.length

/-- The method `PartitionTree.find`: the first item visited ascending from the
probe, when it contains the probe's start slot. -/
def PartitionTree.find (t : PartitionTree) (rng : Partition) : Option Partition :=
  let result : Option Partition :=
    iterate (fun _ i => (some i, false)) none
      (btAscendGreaterOrEqual PartitionItem.Less t.items rng)
  match result with
  | none => none
  | some r => if PartitionItem.Contains r rng.StartSlot then some r else none

/-- The probe `&Partition{Partition: &metapb.Partition{StartSlot: slot}}`. -/
def slotProbe (slot : Nat) : Partition :=
  NewPartitionByMeta { (default : MetaPartition) with StartSlot := slot }

/-- The method `PartitionTree.search`. -/
def PartitionTree.search (t : PartitionTree) (slot : Nat) : Option Partition :=
  t.find (slotProbe slot)

/-- The largest capacity `makeslice` of the Go runtime accepts for a slice of pointers:
it refuses more than `maxAlloc` = 2^48 bytes, at 8 bytes a pointer on a 64-bit platform
(on other platforms it accepts less). -/
def maxSliceCap : Nat := 2 ^ 45

/-- The capacity check of `make([]*T, 0, num)` for a Go `int` `num`: the call panics
when `num` is negative, when it is above `maxSliceCap`, and when it is above `capLimit`,
the largest capacity for which the machine at hand has the memory. -/
def makePanics (capLimit : Nat) (num : Int) : Bool :=
  decide (num < 0 ∨ (maxSliceCap : Int) < num ∨ (capLimit : Int) < num)

/-- The method `PartitionTree.ascendScan`; `num` is a Go `int`, and `make` panics on a
capacity it cannot allocate. -/
def PartitionTree.ascendScan (t : PartitionTree) (capLimit : Nat) (rng : Partition)
    (num : Int) : Except String (List Partition) :=
  match t.find rng with
  | none => .ok []
  | some result =>
    if makePanics capLimit num then .error "makeslice: cap out of range"
    else
      .ok (iterate
        (fun (acc : List Partition × Int) i =>
          let results := acc.1 ++ [i]
          let count := acc.2 + 1
          ((results, count), !decide (count = num)))
        ([], 0)
        (btDescendLessOrEqual PartitionItem.Less t.items result)).1

/-- The loop of `multipleSearch` over the scanned items: keep an item while it
is the first or starts at the previous end slot. -/
def contiguousLoop : List Partition → Nat → Bool → List Partition → List Partition
  | ranges, _, _, [] => ranges
  | ranges, endSlot, isFound, r :: rest =>
    if isFound && decide (r.StartSlot ≠ endSlot) then ranges
    else contiguousLoop (ranges ++ [r]) r.EndSlot true rest

/-- The method `PartitionTree.multipleSearch`; its own `make` comes after the scan. -/
def PartitionTree.multipleSearch (t : PartitionTree) (capLimit : Nat) (slot : Nat)
    (num : Int) : Except String (List Partition) :=
  match t.ascendScan capLimit (slotProbe slot) num with
  | .error e => .error e
  | .ok results =>
    if makePanics capLimit num then .error "makeslice: cap out of range"
    else .ok (contiguousLoop [] 0 false results)

/-- The overlap scan of `update`: collect visited items until one starts at or
after the end slot of `rng`. -/
def overlapScan (rng : Partition) (seq : List Partition) : List Partition × Nat :=
  iterate
    (fun (acc : List Partition × Nat) over =>
      if rng.EndSlot ≤ over.StartSlot then (acc, false)
      else ((acc.1 ++ [over], acc.2 + 1), true))
    ([], 0) seq

/-- The method `PartitionTree.update`. -/
def PartitionTree.update (t : PartitionTree) (rng : Partition) : PartitionTree :=
  let item := rng
  let result := match t.find rng with
    | none => item
    | some r => r
  let overlaps := (overlapScan rng (btDescendLessOrEqual PartitionItem.Less t.items result)).1
  let tree := overlaps.foldl (btDelete PartitionItem.Less) t.items
  ⟨btReplaceOrInsert PartitionItem.Less tree item⟩

/-- The method `PartitionTree.remove`. -/
def PartitionTree.remove (t : PartitionTree) (rng : Partition) : PartitionTree :=
  match t.find rng with
  | none => t
  | some result =>
    if result.ID ≠ rng.ID then t
    else ⟨btDelete PartitionItem.Less t.items result⟩

/-- The slot intervals `[StartSlot, EndSlot)` of `a` and `b` share a slot: the
larger start lies below the smaller end (see `overlaps_iff`). -/
def Partition.overlaps (a b : Partition) : Prop :=
  max a.StartSlot b.StartSlot < min a.EndSlot b.EndSlot

instance (a b : Partition) : Decidable (a.overlaps b) := by
  unfold Partition.overlaps; infer_instance

/-- The partitions of the tree have non-empty slot intervals. -/
def PartitionTree.nonEmpty (t : PartitionTree) : Prop :=
  ∀ p ∈ t.items, p.StartSlot < p.EndSlot

/-- The partitions of the tree have pairwise-disjoint slot intervals. -/
def PartitionTree.disjoint (t : PartitionTree) : Prop :=
  ∀ a ∈ t.items, ∀ b ∈ t.items, a ≠ b → ¬ a.overlaps b

/-- The longest prefix of `seq` in which every item starts at the end slot of
the one before it; `prev` is the end slot the first item has to start at, if any.
It is what the loop of `multipleSearch` computes (`contiguousLoop_eq`). -/
def contigPrefix : Option Nat → List Partition → List Partition
  | _, [] => []
  | none, r :: rest => r :: contigPrefix (some r.EndSlot) rest
  | some e, r :: rest =>
    if r.StartSlot ≠ e then [] else r :: contigPrefix (some r.EndSlot) rest

/-- The end slot the next item has to start at, after the items of `l`. -/
def lastEnd : Option Nat → List Partition → Option Nat
  | o, [] => o
  | _, x :: xs => lastEnd (some x.EndSlot) xs

/-- The item `update` starts its overlap scan from: the item found for the
start slot of `rng`, else `rng` itself. -/
def scanStart (t : PartitionTree) (rng : Partition) : Partition :=
  match t.find rng with
  | none => rng
  | some r => r

/-- Of two partitions of the tree, the one that starts first ends at or before
the start of the other. -/
def PartitionTree.separated (t : PartitionTree) : Prop :=
  ∀ a ∈ t.items, ∀ b ∈ t.items, a.StartSlot < b.StartSlot → a.EndSlot ≤ b.StartSlot

/-- A call of `update` or of `remove` on a partition tree. -/
inductive TreeOp where
  | update (rng : Partition)
  | remove (rng : Partition)
deriving DecidableEq, Repr

/-- Run one call on the tree. -/
def applyOp (t : PartitionTree) : TreeOp → PartitionTree
  | .update rng => t.update rng
  | .remove rng => t.remove rng

/-- Run a sequence of calls on the tree, in order. -/
def applyOps (t : PartitionTree) (ops : List TreeOp) : PartitionTree :=
  ops.foldl applyOp t

/-! ## GetRoute -/

/-- The fields of `metapb.Node` that the routing code hands out. -/
structure Node where
  ID : Nat
  ReplicaAddrs : ReplicaAddrs
deriving DecidableEq, Repr, Inhabited

/-- The record `masterpb.Route`. -/
structure Route where
  Partition : MetaPartition
  Leader : Nat
  Nodes : List Node
deriving DecidableEq, Repr

/-- The response codes `GetRoute` answers with. -/
inductive RouteCode where
  | ErrSuc
  | ErrDbNotExists
  | ErrSpaceNotExists
  | ErrRouteNotFound
deriving DecidableEq, Repr

/-- The record `masterpb.GetRouteResponse`. -/
structure GetRouteResponse where
  code : RouteCode
  Routes : List Route
deriving DecidableEq, Repr

/-- The method `Partition.pickLeaderNodeId`. -/
def Partition.pickLeaderNodeId (p : Partition) : Nat :=
  match p.Leader with
  | some l => l.NodeID
  | none => 0

/-- The method `RpcServer.GetRoute`. The caches are lookup functions:
`findDbById db` is the space cache of the database, which maps a space to its
search tree; `findServerById` is `PsCache.FindServerById` followed by `.Node`;
`capLimit` is the largest slice capacity `make` allocates. -/
def GetRoute (capLimit : Nat) (findDbById : Nat → Option (Nat → Option PartitionTree))
    (findServerById : Nat → Option Node) (db space slot : Nat) :
    Except String GetRouteResponse :=
  match findDbById db with
  | none => .ok ⟨.ErrDbNotExists, []⟩
  | some spaceCache =>
    match spaceCache space with
    | none => .ok ⟨.ErrSpaceNotExists, []⟩
    | some searchTree =>
      match searchTree.multipleSearch capLimit slot 10 with
      | .error e => .error e
      | .ok partitions =>
        if partitions.length = 0 then .ok ⟨.ErrRouteNotFound, []⟩
        else
          .ok ⟨.ErrSuc, partitions.map (fun partition =>
            { Partition := partition.meta
              Leader := partition.pickLeaderNodeId
              Nodes := partition.meta.Replicas.filterMap (fun replica =>
                findServerById replica.NodeID) })⟩

/-- Example partition with the given identity and slot interval. -/
def mkPart (id : Nat) (s e : Nat) : Partition :=
  NewPartitionByMeta { (default : MetaPartition) with ID := id, StartSlot := s, EndSlot := e }

/-- The tree of the routing example: A = [0,100), B = [100,250), C = [300,500). -/
def treeABC : PartitionTree :=
  ((NewPartitionTree.update (mkPart 1 0 100)).update (mkPart 2 100 250)).update (mkPart 3 300 500)

/-! ## The topology store and the partition metadata writer -/

/-- The constant `PREFIX_PARTITION`. -/
def PREFIX_PARTITION : String := "schema partition "

/-- The constant `FIXED_REPLICA_NUM`. -/
def FIXED_REPLICA_NUM : Nat := 1

/-- The `Store` the master persists into, seen through `Put`: the key/value pairs
written so far, the latest first. -/
structure Store where
  puts : List (String × List Nat)
deriving DecidableEq, Repr

/-- The method `Store.Put`; `ok` is whether the store accepts the write. A refused
write leaves the store as it was and is an error (`none`). -/
def Store.Put (store : Store) (key : String) (val : List Nat) (ok : Bool) : Option Store :=
  if ok then some ⟨(key, val) :: store.puts⟩ else none

/-- The function `doMetaMarshal`; `marshal` is `proto.Marshal` on a
`metapb.Partition`, `none` being its error. -/
def doMetaMarshal (marshal : MetaPartition → Option (List Nat)) (p : MetaPartition) :
    Option (String × List Nat) :=
  match marshal p with
  | none => none
  | some val => some (PREFIX_PARTITION ++ toString p.ID, val)

/-- The method `Partition.countReplicas`. -/
def Partition.countReplicas (p : Partition) : Nat := p.meta.Replicas.length

/-- The method `Partition.takeChangeMemberTask`, at the clock reading `now`: the
partition afterwards and the answer. -/
def Partition.takeChangeMemberTask (p : Partition) (now : Int) : Partition × Bool :=
  if p.taskFlag = false ∨ timeSub now p.taskTimeout ≥ 30 * Second then
    ({ p with taskFlag := true, taskTimeout := now }, true)
  else
    (p, false)

/-- What `UpdateReplicaGroupByCond` leaves behind and returns. -/
structure UpdateResult where
  partition : Partition
  store : Store
  verExpired : Bool
  updateOk : Bool
deriving DecidableEq, Repr

/-- The method `Partition.UpdateReplicaGroupByCond`, at the clock reading `now`;
`putOk` is whether the store accepts a write. -/
def Partition.UpdateReplicaGroupByCond (marshal : MetaPartition → Option (List Nat))
    (p : Partition) (store : Store) (putOk : Bool) (now : Int) (info : PartitionInfo)
    (leaderReplica : Option Replica) : Except String UpdateResult :=
  if info.Epoch.ConfVersion < p.meta.Epoch.ConfVersion ∨
      (info.Epoch.ConfVersion = p.meta.Epoch.ConfVersion ∧ p.Leader ≠ none) then
    .ok ⟨p, store, true, false⟩
  else
    match info.RaftStatus with
    | none => .error "nil pointer dereference"
    | some raftStatus =>
      let copy : MetaPartition :=
        { p.meta with
          Epoch := info.Epoch
          Status := info.Status
          Replicas := raftStatus.Replica ::
            raftStatus.Followers.map (fun follower => follower.Replica) }
      match doMetaMarshal marshal copy with
      | none => .ok ⟨p, store, false, false⟩
      | some (key, val) =>
        match store.Put key val putOk with
        | none => .ok ⟨p, store, false, false⟩
        | some store' =>
          .ok ⟨{ meta := copy, taskFlag := false, taskTimeout := zeroTime,
                 LastHeartbeat := now, Leader := leaderReplica }, store', false, true⟩

/-- What `ValidateAndUpdateLeaderByCond` leaves behind and returns. -/
structure ValidateResult where
  partition : Partition
  verExpired : Bool
  illegal : Bool
  updateOk : Bool
deriving DecidableEq, Repr

/-- The method `Partition.ValidateAndUpdateLeaderByCond`, at the clock reading `now`.
A nil `leaderReplica` is dereferenced as soon as the loop over the replicas runs. -/
def Partition.ValidateAndUpdateLeaderByCond (p : Partition) (now : Int) (info : PartitionInfo)
    (leaderReplica : Option Replica) : Except String ValidateResult :=
  if info.Epoch.ConfVersion ≠ p.meta.Epoch.ConfVersion then
    .ok ⟨p, true, false, false⟩
  else if p.Leader = none then
    .ok ⟨p, false, false, false⟩
  else
    match leaderReplica with
    | none =>
      if p.meta.Replicas = [] then .ok ⟨p, false, true, false⟩
      else .error "nil pointer dereference"
    | some leader =>
      let leaderExists := p.meta.Replicas.any (fun replica => replica.ID == leader.ID)
      if !leaderExists then
        .ok ⟨p, false, true, false⟩
      else
        .ok ⟨{ p with LastHeartbeat := now, Leader := some leader }, false, false, true⟩

/-! ## The partition processor's queue -/

/-- The constant `PARTITION_CHANNEL_LIMIT`. -/
def PARTITION_CHANNEL_LIMIT : Nat := 1000

/-- The constant `EVENT_TYPE_INVALID`. -/
def EVENT_TYPE_INVALID : Int := 0

/-- The constant `EVENT_TYPE_PARTITION_CREATE`. -/
def EVENT_TYPE_PARTITION_CREATE : Int := 1

/-- The constant `EVENT_TYPE_PARTITION_DELETE`. -/
def EVENT_TYPE_PARTITION_DELETE : Int := 2

/-- The constant `EVENT_TYPE_FORCE_PARTITION_DELETE`. -/
def EVENT_TYPE_FORCE_PARTITION_DELETE : Int := 3

/-- The record `PartitionDeleteBody`. -/
structure PartitionDeleteBody where
  partitionId : Nat
  leaderNodeId : Nat
  replicaRpcAddr : String
  replica : Option Replica
deriving DecidableEq, Repr

/-- The `body interface{}` of an event: a partition or a delete body. -/
inductive EventBody where
  | partition (p : Partition)
  | deleteBody (b : PartitionDeleteBody)
deriving DecidableEq, Repr

/-- The record `ProcessorEvent`. -/
structure ProcessorEvent where
  typ : Int
  body : EventBody
deriving DecidableEq, Repr

/-- The function `NewPartitionCreateEvent`. -/
def NewPartitionCreateEvent (partition : Partition) : ProcessorEvent :=
  { typ := EVENT_TYPE_PARTITION_CREATE, body := .partition partition }

/-- The function `NewPartitionDeleteEvent`. -/
def NewPartitionDeleteEvent (partitionId leaderNodeId : Nat) (replica : Option Replica) :
    ProcessorEvent :=
  { typ := EVENT_TYPE_PARTITION_DELETE
    body := .deleteBody
      { partitionId := partitionId, leaderNodeId := leaderNodeId,
        replicaRpcAddr := "", replica := replica } }

/-- The function `NewForcePartitionDeleteEvent`. -/
def NewForcePartitionDeleteEvent (partitionId : Nat) (replicaRpcAddr : String)
    (replica : Option Replica) : ProcessorEvent :=
  { typ := EVENT_TYPE_FORCE_PARTITION_DELETE
    body := .deleteBody
      { partitionId := partitionId, leaderNodeId := 0,
        replicaRpcAddr := replicaRpcAddr, replica := replica } }

/-- The errors `PushEvent` returns. -/
inductive PushError where
  | ErrInternalError
  | ErrSysBusy
deriving DecidableEq, Repr

/-- The `ProcessorManager` with its processor's event channel: the queued events,
the oldest first. -/
structure ProcessorManager where
  isStarted : Bool
  eventCh : List ProcessorEvent
deriving DecidableEq, Repr

/-- The method `ProcessorManager.PushEvent`: the manager afterwards and the error
returned, if any. -/
def ProcessorManager.PushEvent (pm : ProcessorManager) (event : Option ProcessorEvent) :
    ProcessorManager × Option PushError :=
  match event with
  | none => (pm, some .ErrInternalError)
  | some event =>
    if !pm.isStarted then (pm, some .ErrInternalError)
    else if event.typ = EVENT_TYPE_PARTITION_CREATE ∨
        event.typ = EVENT_TYPE_PARTITION_DELETE ∨
        event.typ = EVENT_TYPE_FORCE_PARTITION_DELETE then
      if pm.eventCh.length ≥ PARTITION_CHANNEL_LIMIT * 9 / 10 then
        (pm, some .ErrSysBusy)
      else
        ({ pm with eventCh := pm.eventCh ++ [event] }, none)
    else
      (pm, some .ErrInternalError)

/-! ## The heartbeat reconciler -/

/-- The function `pickLeaderReplica`. -/
def pickLeaderReplica (info : Option PartitionInfo) : Except String (Option Replica) :=
  match info with
  | none => .ok none
  | some info =>
    if !info.IsLeader then .ok none
    else
      match info.RaftStatus with
      | none => .error "nil pointer dereference"
      | some raftStatus => .ok (some raftStatus.Replica)

/-- The function `pickReplicaToDelete`: first a follower, then the leader. -/
def pickReplicaToDelete (info : Option PartitionInfo) : Except String (Option Replica) :=
  match info with
  | none => .ok none
  | some info =>
    match info.RaftStatus with
    | none => .ok none
    | some raftStatus =>
      let followers := raftStatus.Followers
      if !info.IsLeader then
        match followers with
        | [] => .error "index out of range"
        | follower :: _ => .ok (some follower.Replica)
      else
        let leaderReplica := raftStatus.Replica
        match followers.find? (fun follower => !(follower.Replica.ID == leaderReplica.ID)) with
        | some follower => .ok (some follower.Replica)
        | none => .ok (some leaderReplica)

/-- The state one heartbeat partition info is processed against: the partition the
master knows under the reported ID, the store and the processor manager. -/
structure HbState where
  partition : Partition
  store : Store
  pm : ProcessorManager
deriving DecidableEq, Repr

/-- The state after processing one partition info, and whether the processing ended
in a run-time panic (the state is then the one reached when it panicked). -/
structure HbOutcome where
  state : HbState
  panicked : Bool
deriving DecidableEq, Repr

/-- The tail of a loop round of `PSHeartbeat` shared by its branches: take the
change-member task, pick the replica to delete and push a delete event for it,
addressed to the node `leaderNodeId` computes once the task is taken. -/
def pushDelete (s : HbState) (info : PartitionInfo) (now : Int)
    (leaderNodeId : Partition → Nat) : HbOutcome :=
  match s.partition.takeChangeMemberTask now with
  | (p1, false) => ⟨{ s with partition := p1 }, false⟩
  | (p1, true) =>
    match pickReplicaToDelete (some info) with
    | .error _ => ⟨{ s with partition := p1 }, true⟩
    | .ok none => ⟨{ s with partition := p1 }, false⟩
    | .ok (some replicaToDelete) =>
      ⟨{ s with
          partition := p1
          pm := (s.pm.PushEvent
            (some (NewPartitionDeleteEvent info.ID (leaderNodeId p1) (some replicaToDelete)))).1 },
        false⟩

/-- The replica-count check at the end of a loop round of `PSHeartbeat`
(`needToCheckingReplicasCount`). -/
def checkReplicasCount (s : HbState) (info : PartitionInfo) (now : Int) : HbOutcome :=
  let replicaCount := s.partition.countReplicas
  if replicaCount > FIXED_REPLICA_NUM then
    pushDelete s info now (fun p => p.pickLeaderNodeId)
  else if replicaCount < FIXED_REPLICA_NUM then
    match s.partition.takeChangeMemberTask now with
    | (p1, false) => ⟨{ s with partition := p1 }, false⟩
    | (p1, true) =>
      ⟨{ s with
          partition := p1
          pm := (s.pm.PushEvent (some (NewPartitionCreateEvent p1))).1 }, false⟩
  else
    ⟨s, false⟩

/-- The call of `UpdateReplicaGroupByCond` in `PSHeartbeat` and what follows it. -/
def updateGroupThenCheck (marshal : MetaPartition → Option (List Nat)) (s : HbState)
    (info : PartitionInfo) (now : Int) (putOk : Bool) (leaderReplicaHb : Replica) : HbOutcome :=
  match s.partition.UpdateReplicaGroupByCond marshal s.store putOk now info
      (some leaderReplicaHb) with
  | .error _ => ⟨s, true⟩
  | .ok r =>
    if r.verExpired || !r.updateOk then
      ⟨{ s with partition := r.partition, store := r.store }, false⟩
    else
      checkReplicasCount { s with partition := r.partition, store := r.store } info now

/-- One round of the partition loop of `RpcServer.PSHeartbeat` for a partition info
whose partition the master knows (`partitionMS` is `s.partition`), at the clock reading
`now`; `putOk` is whether the store accepts a write in this round. -/
def heartbeatKnown (marshal : MetaPartition → Option (List Nat)) (s : HbState)
    (info : PartitionInfo) (now : Int) (putOk : Bool) : HbOutcome :=
  let confVerMS := s.partition.meta.Epoch.ConfVersion
  let confVerHb := info.Epoch.ConfVersion
  if confVerHb < confVerMS then
    pushDelete s info now (fun p => p.pickLeaderNodeId)
  else if confVerHb > confVerMS then
    match pickLeaderReplica (some info) with
    | .error _ => ⟨s, true⟩
    | .ok none => ⟨s, false⟩
    | .ok (some leaderReplicaHb) => updateGroupThenCheck marshal s info now putOk leaderReplicaHb
  else
    match pickLeaderReplica (some info) with
    | .error _ => ⟨s, true⟩
    | .ok none => ⟨s, false⟩
    | .ok (some leaderReplicaHb) =>
      match s.partition.ValidateAndUpdateLeaderByCond now info (some leaderReplicaHb) with
      | .error _ => ⟨s, true⟩
      | .ok v =>
        if v.verExpired then ⟨{ s with partition := v.partition }, false⟩
        else if v.illegal then
          pushDelete { s with partition := v.partition } info now
            (fun _ => leaderReplicaHb.NodeID)
        else if !v.updateOk then
          updateGroupThenCheck marshal { s with partition := v.partition } info now putOk
            leaderReplicaHb
        else
          checkReplicasCount { s with partition := v.partition } info now

/-- One heartbeat partition info together with the clock reading and the store's
answer of the round that processes it. -/
structure HbRound where
  info : PartitionInfo
  now : Int
  putOk : Bool
deriving DecidableEq, Repr

/-- The states a partition goes through while `PSHeartbeat` processes a sequence of
partition infos for it: the state before, then the state after each round. A round that
panics leaves the state it had reached, and the trace goes on from there. -/
def heartbeatTrace (marshal : MetaPartition → Option (List Nat)) :
    HbState → List HbRound → List HbState
  | s, [] => [s]
  | s, r :: rest =>
    s :: heartbeatTrace marshal (heartbeatKnown marshal s r.info r.now r.putOk).state rest

/-- The partition's leader is unknown or is one of its replicas, by replica ID. -/
def Partition.leaderAmongReplicas (p : Partition) : Prop :=
  ∀ l, p.Leader = some l → l.ID ∈ p.meta.Replicas.map (fun r => r.ID)

/-- The two facts every heartbeat round keeps: the configuration version does not
decrease, and a leader that is among the replicas stays so. -/
def roundKeeps (s : HbState) (o : HbOutcome) : Prop :=
  s.partition.meta.Epoch.ConfVersion ≤ o.state.partition.meta.Epoch.ConfVersion ∧
  (s.partition.leaderAmongReplicas → o.state.partition.leaderAmongReplicas)

/-- Example replica with the given ID on the node of the same number. -/
def mkReplica (id : Nat) : Replica :=
  { ID := id, NodeID := id, ReplicaAddrs := default }

/-- Example encoder standing for `proto.Marshal`: it never fails. -/
def exampleMarshal (m : MetaPartition) : Option (List Nat) :=
  some (m.ID :: m.Epoch.ConfVersion :: m.Epoch.Version :: m.Replicas.map (fun r => r.ID))

/-- Example known partition: ID 7, epoch 4, replicas R1 and R2, leader R1. -/
def examplePartition : Partition :=
  { meta :=
      { ID := 7, DB := 1, Space := 2, StartSlot := 0, EndSlot := 100,
        Replicas := [mkReplica 1, mkReplica 2],
        Epoch := { ConfVersion := 4, Version := 1 }, Status := .PA_READWRITE }
    Leader := some (mkReplica 1)
    taskFlag := true
    taskTimeout := 5 * Second
    LastHeartbeat := 5 * Second }

/-- Example heartbeat info for partition 7: epoch 5, reported by the leader R2 with the
follower R3. -/
def exampleInfo : PartitionInfo :=
  { ID := 7, IsLeader := true, Status := .PA_READONLY,
    Epoch := { ConfVersion := 5, Version := 1 },
    RaftStatus := some { Replica := mkReplica 2, Followers := [⟨mkReplica 3⟩] } }

/-- Example state: the example partition, an empty store and a started processor
manager with an empty queue. -/
def exampleState : HbState :=
  { partition := examplePartition, store := ⟨[]⟩, pm := ⟨true, []⟩ }

/-! ## addReplica and deleteReplica -/

/-- The error a metadata write returns: from `doMetaMarshal` or from `store.Put`. -/
inductive MetaError where
  | marshalFailed
  | putFailed
deriving DecidableEq, Repr

/-- What `addReplica` and `deleteReplica` leave behind and return; `panicked` tells
that the call ended in a run-time panic instead of returning. -/
structure ReplicaOpResult where
  partition : Partition
  store : Store
  err : Option MetaError
  panicked : Bool
deriving DecidableEq, Repr

/-- The tail shared by `addReplica` and `deleteReplica`: encode the copy, put it into
the store, and only then install it as the partition's record. -/
def persistCopy (marshal : MetaPartition → Option (List Nat)) (p : Partition) (store : Store)
    (putOk : Bool) (copy : MetaPartition) : ReplicaOpResult :=
  match doMetaMarshal marshal copy with
  | none => ⟨p, store, some .marshalFailed, false⟩
  | some (key, val) =>
    match store.Put key val putOk with
    | none => ⟨p, store, some .putFailed, false⟩
    | some store' => ⟨{ p with meta := copy }, store', none, false⟩

/-- The method `Partition.addReplica`; the replicas passed are non-nil pointers. -/
def Partition.addReplica (marshal : MetaPartition → Option (List Nat)) (p : Partition)
    (store : Store) (putOk : Bool) (metaReplicas : List Replica) : ReplicaOpResult :=
  let copy : MetaPartition := { p.meta with Replicas := p.meta.Replicas ++ metaReplicas }
  persistCopy marshal p store putOk copy

/-- The inner loop of `deleteReplica` at index `i`: for each replica passed, compare
`copy.Replicas[i]` with it and cut index `i` out on a match. The index is read again
for every replica passed, also after a cut. -/
def deleteInner (i : Nat) : List Replica → List Replica → Except String (List Replica)
  | replicas, [] => .ok replicas
  | replicas, metaReplica :: rest =>
    match replicas[i]? with
    | none => .error "index out of range"
    | some r =>
      if r.ID = metaReplica.ID then deleteInner i (replicas.eraseIdx i) rest
      else deleteInner i replicas rest

/-- The outer loop of `deleteReplica`, `for i := n - 1; i >= 0; i--`. -/
def deleteOuter : Nat → List Replica → List Replica → Except String (List Replica)
  | 0, replicas, _ => .ok replicas
  | i + 1, replicas, metaReplicas =>
    match deleteInner i replicas metaReplicas with
    | .error e => .error e
    | .ok replicas' => deleteOuter i replicas' metaReplicas

/-- The method `Partition.deleteReplica`; the replicas passed are non-nil pointers. -/
def Partition.deleteReplica (marshal : MetaPartition → Option (List Nat)) (p : Partition)
    (store : Store) (putOk : Bool) (metaReplicas : List Replica) : ReplicaOpResult :=
  match deleteOuter p.meta.Replicas.length p.meta.Replicas metaReplicas with
  | .error _ => ⟨p, store, none, true⟩
  | .ok replicas =>
    let copy : MetaPartition := { p.meta with Replicas := replicas }
    persistCopy marshal p store putOk copy

/-! ## The partition cache and the whole heartbeat -/

/-- The type `PartitionCache`: the map from partition ID to partition, as the list of
its entries. -/
structure PartitionCache where
  partitions : List (Nat × Partition)
deriving DecidableEq, Repr

/-- The method `PartitionCache.FindPartitionById`. -/
def PartitionCache.FindPartitionById (c : PartitionCache) (partitionId : Nat) :
    Option Partition :=
  (c.partitions.find? (fun e => e.1 == partitionId)).map (fun e => e.2)

/-- The method `PartitionCache.AddPartition`: `c.partitions[partition.ID] = partition`. -/
def PartitionCache.AddPartition (c : PartitionCache) (partition : Partition) : PartitionCache :=
  ⟨(partition.ID, partition) :: c.partitions.filter (fun e => !(e.1 == partition.ID))⟩

/-- The cached partition under `partitionId` has been changed in place to `partition`
(the cache holds pointers; the methods of `Partition` write through them). -/
def PartitionCache.written (c : PartitionCache) (partitionId : Nat) (partition : Partition) :
    PartitionCache :=
  ⟨c.partitions.map (fun e => if e.1 == partitionId then (e.1, partition) else e)⟩

/-- What `PSHeartbeat` uses of the `PartitionServer` it finds for the reporting
node: the answer of `getRpcAddr()`. -/
structure PartitionServer where
  ID : Nat
  rpcAddr : String
deriving DecidableEq, Repr

/-- The method `PartitionServer.getRpcAddr`. -/
def PartitionServer.getRpcAddr (ps : PartitionServer) : String := ps.rpcAddr

/-- The state of the zone master a heartbeat works on. -/
structure ZMState where
  PartitionCache : PartitionCache
  store : Store
  pm : ProcessorManager
deriving DecidableEq, Repr

/-- The state after (part of) a heartbeat, and whether it ended in a run-time panic. -/
structure ZMOutcome where
  state : ZMState
  panicked : Bool
deriving DecidableEq, Repr

/-- One round of the partition loop of `RpcServer.PSHeartbeat`: look the reported
partition up; force the deletion of a partition the master does not know, else
reconcile the known one. `rpcAddr` is `ps.getRpcAddr()` of the reporting server. -/
def heartbeatInfo (marshal : MetaPartition → Option (List Nat)) (rpcAddr : String)
    (z : ZMState) (r : HbRound) : ZMOutcome :=
  let partitionId := r.info.ID
  match z.PartitionCache.FindPartitionById partitionId with
  | none =>
    match pickReplicaToDelete (some r.info) with
    | .error _ => ⟨z, true⟩
    | .ok none => ⟨z, false⟩
    | .ok (some replicaToDelete) =>
      ⟨{ z with
          pm := (z.pm.PushEvent
            (some (NewForcePartitionDeleteEvent partitionId rpcAddr (some replicaToDelete)))).1 },
        false⟩
  | some partitionMS =>
    let o := heartbeatKnown marshal ⟨partitionMS, z.store, z.pm⟩ r.info r.now r.putOk
    ⟨{ PartitionCache := z.PartitionCache.written partitionId o.state.partition
       store := o.state.store
       pm := o.state.pm }, o.panicked⟩

/-- The partition loop of `RpcServer.PSHeartbeat`; a panic ends it. -/
def heartbeatLoop (marshal : MetaPartition → Option (List Nat)) (rpcAddr : String) :
    ZMState → List HbRound → ZMOutcome
  | z, [] => ⟨z, false⟩
  | z, r :: rest =>
    match heartbeatInfo marshal rpcAddr z r with
    | ⟨z', true⟩ => ⟨z', true⟩
    | ⟨z', false⟩ => heartbeatLoop marshal rpcAddr z' rest

/-- The response codes `PSHeartbeat` answers with. -/
inductive HeartbeatCode where
  | ErrSuc
  | MASTER_RESP_CODE_NOT_LEADER
  | ErrPSNotExists
deriving DecidableEq, Repr

/-- The method `RpcServer.PSHeartbeat`. `mineIsLeader` is the global `MineIsLeader`,
`findServerById` is `PsCache.FindServerById`; `partitions` is `req.Partitions` (nil or
a list), each info paired with the clock reading and the store's answer of its round.
`ps.updateHb()` stamps the server record only, which is not part of this state. -/
def PSHeartbeat (marshal : MetaPartition → Option (List Nat)) (mineIsLeader : Bool)
    (findServerById : Nat → Option PartitionServer) (z : ZMState) (nodeID : Nat)
    (partitions : Option (List HbRound)) : ZMOutcome × HeartbeatCode :=
  if !mineIsLeader then (⟨z, false⟩, .MASTER_RESP_CODE_NOT_LEADER)
  else
    match findServerById nodeID with
    | none => (⟨z, false⟩, .ErrPSNotExists)
    | some ps =>
      match partitions with
      | none => (⟨z, false⟩, .ErrSuc)
      | some partitionInfos => (heartbeatLoop marshal ps.getRpcAddr z partitionInfos, .ErrSuc)

/-- The replica `pickReplicaToDelete` picks for a leader-reported info: the first
follower whose replica ID differs from the reporting replica's, else the reporting
replica itself. -/
def firstOtherFollower (rs : RaftStatus) : Replica :=
  match rs.Followers.find? (fun follower => !(follower.Replica.ID == rs.Replica.ID)) with
  | some follower => follower.Replica
  | none => rs.Replica

/-- Example known partition of the over-count scenario: ID 7, epoch 4, replicas R1 and
R2, leader R1, task latch free. -/
def twoReplicaPartition : Partition :=
  { examplePartition with taskFlag := false, taskTimeout := zeroTime }

/-- Example heartbeat info of epoch 4 for partition 7, reported by the leader `l` with
the followers `fs`. -/
def sameEpochInfo (l : Replica) (fs : List Replica) : PartitionInfo :=
  { ID := 7, IsLeader := true, Status := .PA_READWRITE,
    Epoch := { ConfVersion := 4, Version := 1 },
    RaftStatus := some { Replica := l, Followers := fs.map (fun r => ⟨r⟩) } }

/-- Example state of the over-count scenario: the two-replica partition, an empty
store and a started processor manager with an empty queue. -/
def twoReplicaState : HbState :=
  { partition := twoReplicaPartition, store := ⟨[]⟩, pm := ⟨true, []⟩ }

/-- Example state with one replica: partition 7, epoch 4, replica R1, leader R1, task
latch free, an empty store and a started processor manager with an empty queue. -/
def oneReplicaState : HbState :=
  { partition :=
      { twoReplicaPartition with
        meta := { twoReplicaPartition.meta with Replicas := [mkReplica 1] } }
    store := ⟨[]⟩
    pm := ⟨true, []⟩ }

/-- Example state whose known leader R9 is not among the replicas: as `oneReplicaState`
with the leader R9, which `deleteReplica` of the leader's replica can leave behind. -/
def strayLeaderState : HbState :=
  { oneReplicaState with
    partition := { oneReplicaState.partition with Leader := some (mkReplica 9) } }

/-- Example state of the stale-epoch scenario: as `oneReplicaState`, at epoch 5. -/
def epoch5State : HbState :=
  { oneReplicaState with
    partition :=
      { oneReplicaState.partition with
        meta := { oneReplicaState.partition.meta with
          Epoch := { ConfVersion := 5, Version := 1 } } } }

/-- Example heartbeat info of the stale-epoch scenario: epoch 3 for partition 7,
reported by R7 alone. -/
def staleInfo : PartitionInfo :=
  { ID := 7, IsLeader := true, Status := .PA_READWRITE,
    Epoch := { ConfVersion := 3, Version := 1 },
    RaftStatus := some { Replica := mkReplica 7, Followers := [] } }

/-- Example heartbeat round: the example info at 10 s, the store accepting writes. -/
def exampleRound : HbRound :=
  { info := exampleInfo, now := 10 * Second, putOk := true }

/-- Example zone-master state that knows no partition: empty cache, empty store, a
started processor manager with an empty queue. -/
def emptyZM : ZMState :=
  { PartitionCache := ⟨[]⟩, store := ⟨[]⟩, pm := ⟨true, []⟩ }

/-- A replica is kept by `deleteReplica` when its ID is the ID of none of the replicas
passed. -/
def keptBy (metaReplicas : List Replica) (r : Replica) : Bool :=
  metaReplicas.all (fun m => !(r.ID == m.ID))

/-- The replica IDs of the partition are pairwise distinct. -/
def Partition.distinctReplicaIDs (p : Partition) : Prop :=
  (p.meta.Replicas.map (fun r => r.ID)).Nodup

/-- `PushEvent` has been called exactly once, with `ev`, taking the manager from `pm`
to `pm2`; on a started manager with fewer than 900 queued events that call appends
`ev` at the tail of the queue. -/
def pushedOnce (pm pm2 : ProcessorManager) (ev : ProcessorEvent) : Prop :=
  pm2 = (pm.PushEvent (some ev)).1 ∧
  (pm.isStarted = true → pm.eventCh.length < 900 → pm2.eventCh = pm.eventCh ++ [ev])

/-- The partition once `takeChangeMemberTask` has answered true at `now`. -/
def Partition.latched (p : Partition) (now : Int) : Partition :=
  { p with taskFlag := true, taskTimeout := now }

/-! ## util: SlotSplit -/

/-- The `uint32` subtraction `a - b`, which wraps around. -/
def sub32 (a b : Nat) : Nat := (a + 2 ^ 32 - b) % 2 ^ 32

/-- The function `util.SlotSplit`; `stop` is its parameter `end`. `start` and `stop`
are `uint32`, `n` is `uint64`; `nil` is `none`, and a division by zero is a panic. The
sums and products are the wrapping ones of `uint32` and `uint64`. -/
def SlotSplit (start stop n : Nat) : Except String (Option (List Nat)) :=
  if n ≤ 0 then .ok none
  else if (sub32 stop start + 1) % 2 ^ 64 < n then .ok none
  else
    let min := if start ≤ stop then start else stop
    let max := if start ≤ stop then stop else start
    if n = 1 then .ok (some [min])
    else if n = 2 then .ok (some [min, max])
    else
      let divisor := (n - 1) % 2 ^ 32
      if divisor = 0 then .error "integer divide by zero"
      else
        let step := sub32 max min / divisor
        .ok (some (min ::
          ((List.range (n - 2)).map
            (fun j => (min + ((j + 1) % 2 ^ 32 * step) % 2 ^ 32) % 2 ^ 32)) ++ [max]))

/-! ## Byte strings -/

/-! A `[]byte`, and a Go `string` seen as its bytes, is written `List Nat`. -/

/-- The function `bytes.Compare`: −1, 0 or 1 by bytewise lexicographic order. -/
def bytesCompare : List Nat → List Nat → Int
  | [], [] => 0
  | [], _ :: _ => -1
  | _ :: _, [] => 1
  | a :: as, b :: bs =>
    if a < b then -1 else if b < a then 1 else bytesCompare as bs

/-- The functions `bytes.HasPrefix` and `strings.HasPrefix`. -/
def bytesHasPrefix (s pre : List Nat) : Bool := pre.isPrefixOf s

/-- The bytes of a string of ASCII characters. -/
def asciiBytes (s : String) : List Nat := s.toList.map (fun c => c.toNat)

/-- All the elements are bytes. -/
def allBytes (k : List Nat) : Prop := ∀ b ∈ k, b < 256

instance (k : List Nat) : Decidable (allBytes k) := by
  unfold allBytes
  infer_instance

/-! ## etcd3topo: ListDir -/

/-- The errors `ListDir` returns on an etcd response. -/
inductive ListDirError where
  | ErrNoNode
  | ErrBadResponse
deriving DecidableEq, Repr

/-- The byte of the path separator "/". -/
def slashByte : Nat := 47

/-- The loop of `ListDir` over the keys of the response: cut the directory path off,
keep the part before the first "/", and add it unless it is the last one added. -/
def listDirLoop (nodePath : List Nat) :
    List (List Nat) → List (List Nat) → Except ListDirError (List (List Nat))
  | result, [] => .ok result
  | result, key :: rest =>
    if !bytesHasPrefix key nodePath then .error .ErrBadResponse
    else
      let p := key.drop nodePath.length
      let p := match p.findIdx? (fun c => c == slashByte) with
        | some i => p.take i
        | none => p
      if result.length = 0 ∨ result.getLast? ≠ some p then
        listDirLoop nodePath (result ++ [p]) rest
      else
        listDirLoop nodePath result rest

/-- The method `Server.ListDir` from the response on: `nodePath` is the directory path
with its closing "/", `kvs` the keys of `resp.Kvs`. The version returned along is the
revision of the response. -/
def ListDir (nodePath : List Nat) (kvs : List (List Nat)) :
    Except ListDirError (List (List Nat)) :=
  if kvs.length = 0 then .error .ErrNoNode
  else listDirLoop nodePath [] kvs

/-! ## util: BytesPrefix -/

/-- The loop of `BytesPrefix` from index `i - 1` down to 0: at the first byte below
0xff from the right, the limit is the prefix cut after that byte, with the byte
increased by one; when the loop runs out the limit stays nil. -/
def bytesPrefixLimit (pre : List Nat) : Nat → List Nat
  | 0 => []
  | i + 1 =>
    let c := pre.getD i 0
    if c < 0xff then (pre.take (i + 1)).set i (c + 1)
    else bytesPrefixLimit pre i

/-- The function `util.BytesPrefix`: the prefix itself and the limit. -/
def BytesPrefix (pre : List Nat) : List Nat × List Nat :=
  (pre, bytesPrefixLimit pre pre.length)

/-- The key lies in the scanned range: `start ≤ k` in bytewise order, and `k < limit`
unless the limit is empty, which stands for no upper bound. -/
def keyInRange (start limit k : List Nat) : Prop :=
  bytesCompare start k ≤ 0 ∧ (limit = [] ∨ bytesCompare k limit < 0)

instance (start limit k : List Nat) : Decidable (keyInRange start limit k) := by
  unfold keyInRange
  infer_instance

/-- The key under which a partition is persisted: `fmt.Sprintf("%s%d", PREFIX_PARTITION,
p.ID)`. -/
def partitionKey (id : Nat) : List Nat := asciiBytes (PREFIX_PARTITION ++ toString id)

/-- The range `PartitionCache.Recovery` scans: `BytesPrefix([]byte(PREFIX_PARTITION))`. -/
def recoveryRange : List Nat × List Nat := BytesPrefix (asciiBytes PREFIX_PARTITION)

/-! ## engine/bleve/rocksdb: Iterator and RangeIterator -/

/-! The gorocksdb iterator under `Iterator.iter` is a cursor over the list of the pairs
of the store in ascending key order. A nil `[]byte` field is `none`; where a nil slice is
passed to `bytes.Compare` or to the cursor it acts as the empty byte string. The fields
`prefix` and `end` of the source are written `pre` and `stop`. -/

/-- The cursor: the pairs of the store and the position in them. -/
structure Cursor where
  content : List (List Nat × List Nat)
  pos : Nat
deriving DecidableEq, Repr

/-- The cursor moved to the first pair whose key is at least `k`. -/
def Cursor.Seek (c : Cursor) (k : List Nat) : Cursor :=
  { c with pos := c.content.findIdx (fun kv => decide (bytesCompare k kv.1 ≤ 0)) }

/-- The cursor moved to the next pair. -/
def Cursor.Next (c : Cursor) : Cursor := { c with pos := c.pos + 1 }

/-- The cursor stands on a pair. -/
def Cursor.Valid (c : Cursor) : Bool := decide (c.pos < c.content.length)

/-- The key of the pair the cursor stands on. -/
def Cursor.Key (c : Cursor) : List Nat := (c.content.getD c.pos ([], [])).1

/-- The value of the pair the cursor stands on. -/
def Cursor.Value (c : Cursor) : List Nat := (c.content.getD c.pos ([], [])).2

/-- The struct `Iterator`. -/
structure Iterator where
  iter : Cursor
  pre : Option (List Nat)
  start : Option (List Nat)
  stop : Option (List Nat)
  valid : Bool
  key : Option (List Nat)
  val : Option (List Nat)
deriving DecidableEq, Repr

/-- The method `Iterator.updateValid`. -/
def Iterator.updateValid (i : Iterator) : Iterator :=
  match i.key with
  | none => { i with valid := false }
  | some key =>
    match i.pre with
    | some p => { i with valid := bytesHasPrefix key p }
    | none =>
      match i.stop with
      | some e => { i with valid := decide (bytesCompare key e < 0) }
      | none => { i with valid := true }

/-- The common end of `Seek` and `Next`: read key and value off the cursor when it is
valid, set them to nil when not, then `updateValid`. -/
def Iterator.readCurrent (i : Iterator) : Iterator :=
  (if i.iter.Valid then { i with key := some i.iter.Key, val := some i.iter.Value }
   else { i with key := none, val := none }).updateValid

/-- The method `Iterator.Seek`. -/
def Iterator.Seek (i : Iterator) (k : List Nat) : Iterator :=
  let k := match i.start with
    | some s => if bytesCompare k s < 0 then s else k
    | none => k
  match i.pre with
  | some p =>
    if !bytesHasPrefix k p then
      if bytesCompare k p < 0 then ({ i with iter := i.iter.Seek p }).readCurrent
      else { i with valid := false }
    else ({ i with iter := i.iter.Seek k }).readCurrent
  | none => ({ i with iter := i.iter.Seek k }).readCurrent

/-- The method `Iterator.Next`. -/
def Iterator.Next (i : Iterator) : Iterator :=
  ({ i with iter := i.iter.Next }).readCurrent

/-- The method `Reader.RangeIterator` on a store with the pairs `content`: a fresh
cursor, not yet on a pair, then `Seek(start)`. -/
def RangeIterator (content : List (List Nat × List Nat)) (start stop : Option (List Nat)) :
    Iterator :=
  let rv : Iterator :=
    { iter := ⟨content, content.length⟩, pre := none, start := start, stop := stop,
      valid := false, key := none, val := none }
  rv.Seek (start.getD [])

/-- The pairs read by stepping the iterator with `Next` while it is `Valid`, for at most
`fuel` steps. -/
def visit : Nat → Iterator → List (List Nat × List Nat)
  | 0, _ => []
  | fuel + 1, i =>
    if i.valid then (i.key.getD [], i.val.getD []) :: visit fuel i.Next
    else []

/-- The keys of the pairs ascend strictly. -/
def sortedKeys (content : List (List Nat × List Nat)) : Prop :=
  content.Pairwise (fun a b => bytesCompare a.1 b.1 < 0)

/-- The key is at least the start bound, a nil bound being the empty byte string. -/
def aboveStart (start : Option (List Nat)) (k : List Nat) : Bool :=
  decide (bytesCompare (start.getD []) k ≤ 0)

/-- The key is below the end bound; a nil end bounds nothing. -/
def belowStop (stop : Option (List Nat)) (k : List Nat) : Bool :=
  match stop with
  | some e => decide (bytesCompare k e < 0)
  | none => true

/-- The iterator of the range on the pair at position `p`, or past the last pair. -/
def iterAt (content : List (List Nat × List Nat)) (start stop : Option (List Nat))
    (p : Nat) : Iterator :=
  match content[p]? with
  | some kv =>
    { iter := ⟨content, p⟩, pre := none, start := start, stop := stop,
      valid := belowStop stop kv.1, key := some kv.1, val := some kv.2 }
  | none =>
    { iter := ⟨content, p⟩, pre := none, start := start, stop := stop,
      valid := false, key := none, val := none }

/-- The larger of `k` and the start bound: the key `Seek(k)` moves the cursor to. -/
def seekTarget (start : Option (List Nat)) (k : List Nat) : List Nat :=
  if bytesCompare k (start.getD []) < 0 then start.getD [] else k

/-- Three pairs with the keys "a", "b", "c". -/
def abcContent : List (List Nat × List Nat) := [([97], [1]), ([98], [2]), ([99], [3])]

/-! ## ps/server: admin events -/

/-- The interface `PartitionStore` with its constructor `BuildPartitionStore`, which the
server calls and the sources at hand do not define: a store is a value of `σ`, which
`Start` and `Close` change. The error `BuildPartitionStore` returns along is dropped by
its caller. -/
structure PartitionStoreOps (σ : Type) where
  build : MetaPartition → σ
  GetMeta : σ → MetaPartition
  Start : σ → σ
  Close : σ → σ

/-- A call made on `Server.RaftResolver`. -/
inductive ResolverCall where
  | AddNode (id : Nat) (addrs : ReplicaAddrs)
  | DeleteNode (id : Nat)
deriving DecidableEq, Repr

/-- The partition server `Server`, as far as admin events touch it: the flag
`stopping`, the map `partitions` from partition ID to store, the calls made on the
resolver, the stores `Close` and `Start` were called on, the number of
`MasterHeartbeat.Trigger` calls and the IDs passed to `meta.clear`. -/
structure Server (σ : Type) where
  stopping : Bool
  partitions : List (Nat × σ)
  resolverCalls : List ResolverCall
  closeCalls : List σ
  startCalls : List σ
  heartbeatTriggers : Nat
  metaCleared : List Nat

/-- The method `sync.Map.Load`. -/
def mapLoad {σ : Type} (m : List (Nat × σ)) (id : Nat) : Option σ :=
  (m.find? (fun e => e.1 == id)).map (fun e => e.2)

/-- The method `sync.Map.Delete`. -/
def mapDelete {σ : Type} (m : List (Nat × σ)) (id : Nat) : List (Nat × σ) :=
  m.filter (fun e => e.1 != id)

/-- The method `sync.Map.Store`. -/
def mapStore {σ : Type} (m : List (Nat × σ)) (id : Nat) (v : σ) : List (Nat × σ) :=
  (id, v) :: mapDelete m id

/-- The method `Server.doPartitionCreate`: build the store; when `LoadOrStore` finds
the ID taken, close the new store; else the new store is in the map, the nodes of the
replicas are added to the resolver and the store is started. -/
def doPartitionCreate {σ : Type} (ops : PartitionStoreOps σ) (s : Server σ)
    (p : MetaPartition) : Server σ :=
  let partition := ops.build p
  match mapLoad s.partitions p.ID with
  | some _ => { s with closeCalls := s.closeCalls ++ [partition] }
  | none =>
    { s with
      partitions := mapStore s.partitions p.ID (ops.Start partition)
      resolverCalls := s.resolverCalls ++
        p.Replicas.map (fun r => ResolverCall.AddNode r.NodeID r.ReplicaAddrs)
      startCalls := s.startCalls ++ [partition] }

/-- The method `Server.doPartitionDelete`. -/
def doPartitionDelete {σ : Type} (ops : PartitionStoreOps σ) (s : Server σ) (id : Nat) :
    Server σ :=
  let s1 : Server σ :=
    match mapLoad s.partitions id with
    | some p =>
      { s with
        partitions := mapDelete s.partitions id
        closeCalls := s.closeCalls ++ [p]
        resolverCalls := s.resolverCalls ++
          (ops.GetMeta (ops.Close p)).Replicas.map (fun r => ResolverCall.DeleteNode r.NodeID) }
    | none => s
  { s1 with metaCleared := s1.metaCleared ++ [id] }

/-- The admin events `doAdminEvent` switches on; any other message is `other`. -/
inductive AdminEvent where
  | CreatePartitionRequest (Partition : MetaPartition)
  | DeletePartitionRequest (ID : Nat)
  | other
deriving DecidableEq, Repr

/-- The method `Server.doAdminEvent`. -/
def doAdminEvent {σ : Type} (ops : PartitionStoreOps σ) (s : Server σ) (event : AdminEvent) :
    Server σ :=
  if s.stopping then s
  else
    match event with
    | .CreatePartitionRequest partition =>
      let cleared : Option (Server σ) :=
        match mapLoad s.partitions partition.ID with
        | some p =>
          if (ops.GetMeta p).Status ≠ PartitionStatus.PA_INVALID then none
          else some { s with
            closeCalls := s.closeCalls ++ [p]
            partitions := mapDelete s.partitions partition.ID }
        | none => some s
      match cleared with
      | none => s
      | some s1 =>
        let s2 := doPartitionCreate ops s1 partition
        { s2 with heartbeatTriggers := s2.heartbeatTriggers + 1 }
    | .DeletePartitionRequest id =>
      let s2 := doPartitionDelete ops s id
      { s2 with heartbeatTriggers := s2.heartbeatTriggers + 1 }
    | .other => s

/-- A store that is nothing but the meta it was built from. -/
def metaOps : PartitionStoreOps MetaPartition :=
  { build := fun p => p, GetMeta := fun p => p, Start := fun p => p, Close := fun p => p }

/-- A running server that hosts no partition. -/
def emptyServer : Server MetaPartition :=
  { stopping := false, partitions := [], resolverCalls := [], closeCalls := [],
    startCalls := [], heartbeatTriggers := 0, metaCleared := [] }

/-! ## The events a heartbeat pushes -/

/-- The manager after `PushEvent` has been called with each of `evs`, in order. -/
def pushAll (pm : ProcessorManager) (evs : List ProcessorEvent) : ProcessorManager :=
  evs.foldl (fun pm ev => (pm.PushEvent (some ev)).1) pm

/-- The event is a Delete or a ForceDelete event. -/
def isDeleteEvent (ev : ProcessorEvent) : Prop :=
  ev.typ = EVENT_TYPE_PARTITION_DELETE ∨ ev.typ = EVENT_TYPE_FORCE_PARTITION_DELETE

/-- Whatever the processor manager `f` starts from, it ends in the same partition, store
and panic flag and calls `PushEvent` with the same events, all of them delete events. -/
def pushesDeletesOnly (f : ProcessorManager → HbOutcome) : Prop :=
  ∃ (p2 : Partition) (st2 : Store) (b : Bool) (evs : List ProcessorEvent),
    (∀ ev ∈ evs, isDeleteEvent ev) ∧ ∀ pm, f pm = ⟨⟨p2, st2, pushAll pm evs⟩, b⟩

/-- The same for a step of the whole heartbeat on the zone master's state. -/
def zmPushesDeletesOnly (f : ProcessorManager → ZMOutcome) : Prop :=
  ∃ (c2 : PartitionCache) (st2 : Store) (b : Bool) (evs : List ProcessorEvent),
    (∀ ev ∈ evs, isDeleteEvent ev) ∧ ∀ pm, f pm = ⟨⟨c2, st2, pushAll pm evs⟩, b⟩

/-! ## Further examples -/

/-- The number of 32-bit slots: a `SlotID` is a `uint32`, below this bound. -/
def slotCount : Nat := 2 ^ 32

/-- The partition has 32-bit slot bounds, as `metapb.SlotID` demands. -/
def Partition.slots32 (p : Partition) : Prop :=
  p.StartSlot < slotCount ∧ p.EndSlot < slotCount

/-- Example partition with the widest 32-bit interval: from slot 0 to the largest
`uint32` end slot. -/
def widestPartition : Partition := mkPart 1 0 (slotCount - 1)

/-- Example heartbeat info from a replica that is not the leader and reports no
followers: partition 7, epoch 3, replica R2. -/
def followerInfo : PartitionInfo :=
  { ID := 7, IsLeader := false, Status := .PA_READWRITE,
    Epoch := { ConfVersion := 3, Version := 1 },
    RaftStatus := some { Replica := mkReplica 2, Followers := [] } }

/-! ## Facts about the btree model -/

theorem iterate_first {α : Type} (seq : List α) :
    iterate (fun (_ : Option α) i => (some i, false)) none seq = seq.head? := by
  cases seq <;> rfl

theorem less_iff (a b : Partition) : PartitionItem.Less a b = true ↔ b.StartSlot < a.StartSlot := by
  simp [PartitionItem.Less]

theorem contains_iff (r : Partition) (s : Nat) :
    PartitionItem.Contains r s = true ↔ r.StartSlot ≤ s ∧ s < r.EndSlot := by
  simp [PartitionItem.Contains]

theorem overlaps_iff (a b : Partition) :
    a.overlaps b ↔
      ∃ s : Nat, PartitionItem.Contains a s = true ∧ PartitionItem.Contains b s = true := by
  unfold Partition.overlaps
  simp only [contains_iff]
  constructor
  · intro h
    simp only [lt_min_iff, max_lt_iff] at h
    refine ⟨max a.StartSlot b.StartSlot, ⟨le_max_left _ _, ?_⟩, le_max_right _ _, ?_⟩
    · simp only [max_lt_iff]; omega
    · simp only [max_lt_iff]; omega
  · rintro ⟨s, ⟨h1, h2⟩, h3, h4⟩
    simp only [lt_min_iff, max_lt_iff]
    omega

theorem overlaps_def (a b : Partition) :
    a.overlaps b ↔ (a.StartSlot < a.EndSlot ∧ b.StartSlot < a.EndSlot) ∧
      a.StartSlot < b.EndSlot ∧ b.StartSlot < b.EndSlot := by
  unfold Partition.overlaps
  simp only [lt_min_iff, max_lt_iff]

/-- What `find` answers: the first item not less than the probe, if it
contains the probe's start slot. -/
theorem find_eq_some_iff (t : PartitionTree) (rng r : Partition) :
    t.find rng = some r ↔
      (t.items.filter (fun i => !PartitionItem.Less i rng)).head? = some r ∧
        PartitionItem.Contains r rng.StartSlot = true := by
  unfold PartitionTree.find
  simp only [iterate_first, btAscendGreaterOrEqual]
  cases h : (t.items.filter (fun i => !PartitionItem.Less i rng)).head? with
  | none => simp
  | some x =>
    by_cases hc : PartitionItem.Contains x rng.StartSlot = true
    · simp only [hc, if_true, Option.some.injEq]
      constructor
      · intro e; subst e; exact ⟨rfl, hc⟩
      · intro e; exact e.1
    · simp only [hc, Option.some.injEq]
      constructor
      · intro e; simp at e
      · rintro ⟨e, hr⟩; subst e; exact absurd hr hc

theorem find_mem (t : PartitionTree) (rng r : Partition) (h : t.find rng = some r) :
    r ∈ t.items ∧ r.StartSlot ≤ rng.StartSlot ∧ rng.StartSlot < r.EndSlot := by
  obtain ⟨h1, h2⟩ := (find_eq_some_iff t rng r).1 h
  have hm : r ∈ t.items.filter (fun i => !PartitionItem.Less i rng) := List.mem_of_mem_head? h1
  have := (contains_iff r rng.StartSlot).1 h2
  exact ⟨(List.mem_filter.1 hm).1, this.1, this.2⟩

/-- In an ordered tree with non-empty disjoint intervals, `find` answers the
item that contains the probe's start slot. -/
theorem find_of_contains (t : PartitionTree) (ho : t.ordered) (hne : t.nonEmpty)
    (hd : t.disjoint) (rng p : Partition) (hp : p ∈ t.items)
    (hc : PartitionItem.Contains p rng.StartSlot = true) : t.find rng = some p := by
  rw [find_eq_some_iff]
  refine ⟨?_, hc⟩
  have hcp := (contains_iff p rng.StartSlot).1 hc
  have hpf : p ∈ t.items.filter (fun i => !PartitionItem.Less i rng) := by
    rw [List.mem_filter]
    refine ⟨hp, ?_⟩
    simp [PartitionItem.Less]; omega
  have hpw : (t.items.filter (fun i => !PartitionItem.Less i rng)).Pairwise
      (fun a b => PartitionItem.Less a b = true) := List.Pairwise.filter _ ho
  cases hl : t.items.filter (fun i => !PartitionItem.Less i rng) with
  | nil => rw [hl] at hpf; cases hpf
  | cons r rest =>
    rw [hl] at hpf hpw
    simp only [List.head?_cons, Option.some.injEq]
    rcases List.mem_cons.1 hpf with e | hrest
    · exact e.symm
    · exfalso
      have hlt : p.StartSlot < r.StartSlot := (less_iff r p).1 ((List.pairwise_cons.1 hpw).1 p hrest)
      have hrm : r ∈ t.items.filter (fun i => !PartitionItem.Less i rng) := by
        rw [hl]; exact List.mem_cons_self _ _
      obtain ⟨hrt, hrl⟩ := List.mem_filter.1 hrm
      have hrle : r.StartSlot ≤ rng.StartSlot := by
        simp [PartitionItem.Less] at hrl; omega
      have hrne := hne r hrt
      have hne2 : r ≠ p := by
        intro e; subst e; omega
      apply hd r hrt p hp hne2
      rw [overlaps_def]
      omega

/-- The scan of `ascendScan` with a positive bound stops after `num` items. -/
theorem iterate_scan_take (num : Int) (seq : List Partition) :
    ∀ (acc : List Partition) (c : Int), c < num →
      (iterate (fun (acc : List Partition × Int) i =>
          ((acc.1 ++ [i], acc.2 + 1), !decide (acc.2 + 1 = num))) (acc, c) seq).1
        = acc ++ seq.take (num - c).toNat := by
  induction seq with
  | nil => intro acc c _; simp [iterate]
  | cons i rest ih =>
    intro acc c hc
    have h1 : (num - c).toNat = (num - (c + 1)).toNat + 1 := by omega
    by_cases hstop : c + 1 = num
    · simp only [iterate, hstop, decide_True, Bool.not_true]
      have : (num - c).toNat = 1 := by omega
      simp [this]
    · simp only [iterate, hstop, decide_False, Bool.not_false]
      rw [ih (acc ++ [i]) (c + 1) (by omega), h1]
      simp

/-- With the bound 0 the counter never equals it: the scan visits every item. -/
theorem iterate_scan_all (num : Int) (seq : List Partition) :
    ∀ (acc : List Partition) (c : Int), num ≤ c →
      (iterate (fun (acc : List Partition × Int) i =>
          ((acc.1 ++ [i], acc.2 + 1), !decide (acc.2 + 1 = num))) (acc, c) seq).1
        = acc ++ seq := by
  induction seq with
  | nil => intro acc c _; simp [iterate]
  | cons i rest ih =>
    intro acc c hc
    have hstop : ¬ (c + 1 = num) := by omega
    simp only [iterate, hstop, decide_False, Bool.not_false]
    rw [ih (acc ++ [i]) (c + 1) (by omega)]
    simp

theorem contiguousLoop_eq (seq : List Partition) :
    ∀ (acc : List Partition) (e : Nat) (b : Bool),
      contiguousLoop acc e b seq = acc ++ contigPrefix (if b then some e else none) seq := by
  induction seq with
  | nil => intro acc e b; cases b <;> simp [contiguousLoop, contigPrefix]
  | cons r rest ih =>
    intro acc e b
    cases b with
    | false =>
      simp only [contiguousLoop, Bool.false_and, contigPrefix, ih]
      simp
    | true =>
      by_cases h : r.StartSlot = e
      · simp [contiguousLoop, contigPrefix, h, ih]
      · simp [contiguousLoop, contigPrefix, h]

theorem contigPrefix_initial (seq : List Partition) :
    ∀ o, contigPrefix o seq <+: seq := by
  induction seq with
  | nil => intro o; cases o <;> simp [contigPrefix]
  | cons r rest ih =>
    intro o
    cases o with
    | none =>
      simp only [contigPrefix]
      exact (List.prefix_cons_inj r).2 (ih _)
    | some e =>
      simp only [contigPrefix]
      split
      · exact List.nil_prefix
      · exact (List.prefix_cons_inj r).2 (ih _)

theorem contigPrefix_head_none (r : Partition) (rest : List Partition) :
    (contigPrefix none (r :: rest)).head? = some r := by
  simp [contigPrefix]

theorem contigPrefix_chain (seq : List Partition) :
    ∀ o, (contigPrefix o seq).Chain' (fun a b => b.StartSlot = a.EndSlot) ∧
      ∀ e, o = some e → ∀ x, (contigPrefix o seq).head? = some x → x.StartSlot = e := by
  induction seq with
  | nil => intro o; cases o <;> simp [contigPrefix]
  | cons r rest ih =>
    intro o
    have hr := ih (some r.EndSlot)
    have hcons : (r :: contigPrefix (some r.EndSlot) rest).Chain'
        (fun a b => b.StartSlot = a.EndSlot) := by
      rw [List.chain'_cons']
      refine ⟨?_, hr.1⟩
      intro y hy
      exact hr.2 _ rfl y hy
    cases o with
    | none =>
      simp only [contigPrefix]
      exact ⟨hcons, by intro e he; cases he⟩
    | some e =>
      simp only [contigPrefix]
      by_cases h : r.StartSlot = e
      · simp only [h, ne_eq, not_true_eq_false, if_false]
        refine ⟨hcons, ?_⟩
        intro e2 he2 x hx
        simp at he2 hx
        subst hx; subst he2; exact h
      · simp [h]

theorem lastEnd_append (l : List Partition) :
    ∀ o (r : Partition), lastEnd o (l ++ [r]) = some r.EndSlot := by
  induction l with
  | nil => intro o r; simp [lastEnd]
  | cons x xs ih => intro o r; simp [lastEnd, ih]

theorem lastEnd_getLast (l : List Partition) (o : Option Nat) (last : Partition)
    (h : l.getLast? = some last) : lastEnd o l = some last.EndSlot := by
  obtain ⟨ys, rfl⟩ : ∃ ys, l = ys ++ [last] := by
    rcases List.eq_nil_or_concat l with hnil | ⟨ys, y, hy⟩
    · subst hnil; simp at h
    · subst hy; simp at h; subst h; exact ⟨ys, by simp⟩
  exact lastEnd_append ys o last

/-- The prefix is the longest one: the item right after it does not start at the end
slot reached. -/
theorem contigPrefix_maximal (seq : List Partition) :
    ∀ o (r : Partition) (rest : List Partition), seq = contigPrefix o seq ++ r :: rest →
      ∀ e, lastEnd o (contigPrefix o seq) = some e → r.StartSlot ≠ e := by
  induction seq with
  | nil => intro o r rest h; cases o <;> simp [contigPrefix] at h
  | cons x xs ih =>
    intro o r rest h e he
    have hstep : xs = contigPrefix (some x.EndSlot) xs ++ r :: rest →
        lastEnd (some x.EndSlot) (contigPrefix (some x.EndSlot) xs) = some e →
        r.StartSlot ≠ e := fun h1 h2 => ih (some x.EndSlot) r rest h1 e h2
    cases o with
    | none =>
      simp only [contigPrefix, List.cons_append, List.cons.injEq, true_and] at h
      simp only [contigPrefix, lastEnd] at he
      exact hstep h he
    | some e0 =>
      by_cases hx : x.StartSlot = e0
      · simp only [contigPrefix, hx, ne_eq, not_true_eq_false, if_false, List.cons_append,
          List.cons.injEq, true_and] at h
        simp only [contigPrefix, hx, ne_eq, not_true_eq_false, if_false, lastEnd] at he
        exact hstep h he
      · simp only [contigPrefix, hx, ne_eq, not_false_eq_true, if_true, List.nil_append,
          List.cons.injEq] at h
        simp only [contigPrefix, hx, ne_eq, not_false_eq_true, if_true, lastEnd,
          Option.some.injEq] at he
        rw [← h.1, ← he]
        exact hx

theorem mem_descend (items : List Partition) (f x : Partition) :
    x ∈ btDescendLessOrEqual PartitionItem.Less items f ↔ x ∈ items ∧ f.StartSlot ≤ x.StartSlot := by
  simp [btDescendLessOrEqual, PartitionItem.Less]

theorem descend_pairwise (t : PartitionTree) (ho : t.ordered) (f : Partition) :
    (btDescendLessOrEqual PartitionItem.Less t.items f).Pairwise
      (fun a b => a.StartSlot < b.StartSlot) := by
  unfold btDescendLessOrEqual
  rw [List.pairwise_reverse]
  have h := List.Pairwise.filter (fun i => !PartitionItem.Less f i) ho
  exact h.imp (fun {a b} hab => (less_iff a b).1 hab)

/-- The descent from an item of the tree starts with that item. -/
theorem descend_head (t : PartitionTree) (ho : t.ordered) (f : Partition) (hf : f ∈ t.items) :
    ∃ tl, btDescendLessOrEqual PartitionItem.Less t.items f = f :: tl := by
  have hpw := descend_pairwise t ho f
  have hmem : f ∈ btDescendLessOrEqual PartitionItem.Less t.items f :=
    (mem_descend t.items f f).2 ⟨hf, le_refl _⟩
  cases hD : btDescendLessOrEqual PartitionItem.Less t.items f with
  | nil => rw [hD] at hmem; cases hmem
  | cons h tl =>
    rw [hD] at hmem hpw
    rcases List.mem_cons.1 hmem with e | htl
    · exact ⟨tl, by rw [e]⟩
    · exfalso
      have h1 : h.StartSlot < f.StartSlot := (List.pairwise_cons.1 hpw).1 f htl
      have h2 : h ∈ btDescendLessOrEqual PartitionItem.Less t.items f := by
        rw [hD]; exact List.mem_cons_self _ _
      have h3 := ((mem_descend t.items f h).1 h2).2
      omega

/-- What `multipleSearch` computes for a positive count. -/
theorem multipleSearch_pos (t : PartitionTree) (capLimit : Nat) (q : Nat) (n : Int)
    (hn : 1 ≤ n) (hmax : n ≤ 2 ^ 45) (hcap : n ≤ capLimit) :
    t.multipleSearch capLimit q n = .ok
      (match t.find (slotProbe q) with
       | none => []
       | some f =>
         contigPrefix none ((btDescendLessOrEqual PartitionItem.Less t.items f).take n.toNat)) := by
  have hneg : makePanics capLimit n = false := by
    unfold makePanics maxSliceCap
    rw [decide_eq_false_iff_not]
    push_cast
    omega
  unfold PartitionTree.multipleSearch PartitionTree.ascendScan
  cases hfind : t.find (slotProbe q) with
  | none => simp [hneg, contiguousLoop]
  | some f =>
    simp only [hneg, Bool.false_eq_true, if_false]
    rw [iterate_scan_take n _ [] 0 (by omega), contiguousLoop_eq]
    simp

/-- With a count that `make` refuses, `multipleSearch` panics whatever the tree. -/
theorem multipleSearch_panics (t : PartitionTree) (capLimit : Nat) (q : Nat) (n : Int)
    (hp : makePanics capLimit n = true) :
    t.multipleSearch capLimit q n = .error "makeslice: cap out of range" := by
  unfold PartitionTree.multipleSearch PartitionTree.ascendScan
  cases t.find (slotProbe q) with
  | none => simp only [hp, if_true]
  | some f => simp only [hp, if_true]

/-- What `multipleSearch` computes for the count 0: the scan is not bounded. -/
theorem multipleSearch_zero (t : PartitionTree) (capLimit : Nat) (q : Nat) :
    t.multipleSearch capLimit q 0 = .ok
      (match t.find (slotProbe q) with
       | none => []
       | some f => contigPrefix none (btDescendLessOrEqual PartitionItem.Less t.items f)) := by
  have hneg : makePanics capLimit 0 = false := by
    unfold makePanics maxSliceCap
    rw [decide_eq_false_iff_not]
    have h1 : ¬ ((capLimit : Int) < 0) := by omega
    have h2 : ¬ (((2 ^ 45 : Nat) : Int) < 0) := by omega
    rintro (h | h | h)
    · exact absurd h (lt_irrefl _)
    · exact h2 h
    · exact h1 h
  unfold PartitionTree.multipleSearch PartitionTree.ascendScan
  cases hfind : t.find (slotProbe q) with
  | none => simp [hneg, contiguousLoop]
  | some f =>
    simp only [hneg, Bool.false_eq_true, if_false]
    rw [iterate_scan_all 0 _ [] 0 (le_refl _), contiguousLoop_eq]
    simp

/-- After a contiguous run that is a maximal prefix of the ascending descent, no item of
the tree starts at the end slot of the run's last item. -/
theorem no_successor (t : PartitionTree) (ho : t.ordered) (hne : t.nonEmpty) (hd : t.disjoint)
    (f : Partition) (l suf : List Partition) (last : Partition)
    (hD : btDescendLessOrEqual PartitionItem.Less t.items f = l ++ suf)
    (hlast : l.getLast? = some last)
    (hsuf : ∀ r rest, suf = r :: rest → r.StartSlot ≠ last.EndSlot) :
    ¬ ∃ x ∈ t.items, x.StartSlot = last.EndSlot := by
  rintro ⟨x, hx, hxs⟩
  have hpw := descend_pairwise t ho f
  obtain ⟨ys, rfl⟩ : ∃ ys, l = ys ++ [last] := by
    rcases List.eq_nil_or_concat l with hnil | ⟨ys, y, hy⟩
    · subst hnil; simp at hlast
    · subst hy; simp at hlast; subst hlast; exact ⟨ys, by simp⟩
  have hlastD : last ∈ btDescendLessOrEqual PartitionItem.Less t.items f := by
    rw [hD]; simp
  obtain ⟨hlast_t, hlast_f⟩ := (mem_descend t.items f last).1 hlastD
  have hlast_ne := hne last hlast_t
  have hxD : x ∈ btDescendLessOrEqual PartitionItem.Less t.items f :=
    (mem_descend t.items f x).2 ⟨hx, by omega⟩
  rw [hD] at hxD hpw
  rw [List.pairwise_append] at hpw
  obtain ⟨hpl, hps, hcross⟩ := hpw
  rw [List.pairwise_append] at hpl
  obtain ⟨_, _, hyl⟩ := hpl
  rcases List.mem_append.1 hxD with hxl | hxsuf
  · rcases List.mem_append.1 hxl with hxy | hxlast
    · have := hyl x hxy last (by simp)
      omega
    · simp at hxlast; subst hxlast; omega
  · cases suf with
    | nil => cases hxsuf
    | cons r rest =>
      have hr := hsuf r rest rfl
      have hlr : last.StartSlot < r.StartSlot := hcross last (by simp) r (by simp)
      rcases List.mem_cons.1 hxsuf with e | hxrest
      · subst e; exact hr hxs
      · have hrx : r.StartSlot < x.StartSlot := (List.pairwise_cons.1 hps).1 x hxrest
        have hrD : r ∈ btDescendLessOrEqual PartitionItem.Less t.items f := by
          rw [hD]; simp
        have hr_t := ((mem_descend t.items f r).1 hrD).1
        have hr_ne := hne r hr_t
        have hneq : last ≠ r := by intro e; subst e; omega
        apply hd last hlast_t r hr_t hneq
        rw [overlaps_def]
        omega

/-! ## Facts about `update` and `remove` -/

theorem overlapScan_acc (rng : Partition) (seq : List Partition) :
    ∀ (acc : List Partition) (c : Nat),
      (iterate (fun (acc : List Partition × Nat) over =>
          if rng.EndSlot ≤ over.StartSlot then (acc, false)
          else ((acc.1 ++ [over], acc.2 + 1), true)) (acc, c) seq).1
        = acc ++ seq.takeWhile (fun o => decide (o.StartSlot < rng.EndSlot)) := by
  induction seq with
  | nil => intro acc c; simp [iterate]
  | cons o rest ih =>
    intro acc c
    by_cases h : rng.EndSlot ≤ o.StartSlot
    · have h2 : ¬ (o.StartSlot < rng.EndSlot) := by omega
      simp [iterate, h, List.takeWhile_cons, h2]
    · have h2 : o.StartSlot < rng.EndSlot := by omega
      simp only [iterate, h, if_false, List.takeWhile_cons, h2, decide_True, if_true]
      rw [ih]
      simp

theorem overlapScan_eq (rng : Partition) (seq : List Partition) :
    (overlapScan rng seq).1 = seq.takeWhile (fun o => decide (o.StartSlot < rng.EndSlot)) := by
  unfold overlapScan
  rw [overlapScan_acc]
  simp

theorem mem_takeWhile_sorted (e : Nat) (l : List Partition)
    (hl : l.Pairwise (fun a b => a.StartSlot < b.StartSlot)) (x : Partition) :
    x ∈ l.takeWhile (fun o => decide (o.StartSlot < e)) ↔ x ∈ l ∧ x.StartSlot < e := by
  induction l with
  | nil => simp
  | cons a rest ih =>
    obtain ⟨ha, hrest⟩ := List.pairwise_cons.1 hl
    by_cases h : a.StartSlot < e
    · simp only [List.takeWhile_cons, h, decide_True, if_true, List.mem_cons, ih hrest]
      constructor
      · rintro (e1 | ⟨h1, h2⟩)
        · subst e1; exact ⟨Or.inl rfl, h⟩
        · exact ⟨Or.inr h1, h2⟩
      · rintro ⟨e1 | h1, h2⟩
        · exact Or.inl e1
        · exact Or.inr ⟨h1, h2⟩
    · simp only [List.takeWhile_cons, h, decide_False, List.mem_cons]
      constructor
      · intro hx; simp at hx
      · rintro ⟨e1 | h1, h2⟩
        · subst e1; exact absurd h2 h
        · have := ha x h1
          omega

theorem mem_foldl_delete (ov : List Partition) :
    ∀ (items : List Partition) (x : Partition),
      x ∈ ov.foldl (btDelete PartitionItem.Less) items ↔
        x ∈ items ∧ ∀ o ∈ ov, x.StartSlot ≠ o.StartSlot := by
  induction ov with
  | nil => intro items x; simp
  | cons o rest ih =>
    intro items x
    simp only [List.foldl_cons, ih, List.mem_cons, forall_eq_or_imp]
    simp only [btDelete, List.mem_filter, PartitionItem.Less, Bool.or_eq_true, decide_eq_true_eq]
    constructor
    · rintro ⟨⟨h1, h2⟩, h3⟩
      exact ⟨h1, by omega, h3⟩
    · rintro ⟨h1, h2, h3⟩
      exact ⟨⟨h1, by omega⟩, h3⟩

theorem foldl_delete_sublist (ov : List Partition) :
    ∀ (items : List Partition), (ov.foldl (btDelete PartitionItem.Less) items).Sublist items := by
  induction ov with
  | nil => intro items; exact List.Sublist.refl _
  | cons o rest ih =>
    intro items
    simp only [List.foldl_cons]
    exact (ih _).trans (List.filter_sublist _)

theorem mem_replaceOrInsert (T : List Partition) (p x : Partition) :
    x ∈ btReplaceOrInsert PartitionItem.Less T p ↔
      x = p ∨ (x ∈ T ∧ x.StartSlot ≠ p.StartSlot) := by
  simp only [btReplaceOrInsert, List.mem_append, List.mem_cons, List.mem_filter,
    PartitionItem.Less, decide_eq_true_eq]
  constructor
  · rintro (⟨h1, h2⟩ | e | ⟨h1, h2⟩)
    · exact Or.inr ⟨h1, by omega⟩
    · exact Or.inl e
    · exact Or.inr ⟨h1, by omega⟩
  · rintro (e | ⟨h1, h2⟩)
    · exact Or.inr (Or.inl e)
    · rcases Nat.lt_or_gt_of_ne h2 with h | h
      · exact Or.inr (Or.inr ⟨h1, h⟩)
      · exact Or.inl ⟨h1, h⟩

theorem ordered_replaceOrInsert (T : List Partition) (p : Partition)
    (hT : T.Pairwise (fun a b => PartitionItem.Less a b = true)) :
    (btReplaceOrInsert PartitionItem.Less T p).Pairwise
      (fun a b => PartitionItem.Less a b = true) := by
  unfold btReplaceOrInsert
  rw [List.pairwise_append]
  refine ⟨List.Pairwise.filter _ hT, ?_, ?_⟩
  · rw [List.pairwise_cons]
    refine ⟨?_, List.Pairwise.filter _ hT⟩
    intro b hb
    exact (List.mem_filter.1 hb).2
  · intro a ha b hb
    have h1 := (List.mem_filter.1 ha).2
    rw [less_iff] at h1 ⊢
    rcases List.mem_cons.1 hb with e | hb2
    · subst e; exact h1
    · have h2 := (List.mem_filter.1 hb2).2
      rw [less_iff] at h2
      omega

/-- Two items of an ordered tree with the same start slot are the same item. -/
theorem ordered_inj (l : List Partition)
    (hl : l.Pairwise (fun a b => PartitionItem.Less a b = true)) :
    ∀ x ∈ l, ∀ y ∈ l, x.StartSlot = y.StartSlot → x = y := by
  induction l with
  | nil => intro x hx; cases hx
  | cons a rest ih =>
    obtain ⟨ha, hrest⟩ := List.pairwise_cons.1 hl
    intro x hx y hy hxy
    rcases List.mem_cons.1 hx with e1 | h1 <;> rcases List.mem_cons.1 hy with e2 | h2
    · rw [e1, e2]
    · subst e1
      have := (less_iff _ _).1 (ha y h2); omega
    · subst e2
      have := (less_iff _ _).1 (ha x h1); omega
    · exact ih hrest x h1 y h2 hxy

theorem update_items (t : PartitionTree) (p : Partition) :
    (t.update p).items = btReplaceOrInsert PartitionItem.Less
      (((btDescendLessOrEqual PartitionItem.Less t.items (scanStart t p)).takeWhile
        (fun o => decide (o.StartSlot < p.EndSlot))).foldl (btDelete PartitionItem.Less) t.items)
      p := by
  unfold PartitionTree.update scanStart
  simp only [overlapScan_eq]

theorem update_ordered (t : PartitionTree) (ho : t.ordered) (p : Partition) :
    (t.update p).ordered := by
  unfold PartitionTree.ordered
  rw [update_items]
  exact ordered_replaceOrInsert _ _ (List.Pairwise.sublist (foldl_delete_sublist _ _) ho)

/-- The items of the tree after `update p`: `p`, and the old items that start
elsewhere and outside the scanned range. -/
theorem mem_update (t : PartitionTree) (ho : t.ordered) (p x : Partition) :
    x ∈ (t.update p).items ↔
      x = p ∨ (x ∈ t.items ∧ x.StartSlot ≠ p.StartSlot ∧
        ¬ ((scanStart t p).StartSlot ≤ x.StartSlot ∧ x.StartSlot < p.EndSlot)) := by
  rw [update_items, mem_replaceOrInsert, mem_foldl_delete]
  have hov : ∀ o, o ∈ (btDescendLessOrEqual PartitionItem.Less t.items (scanStart t p)).takeWhile
      (fun o => decide (o.StartSlot < p.EndSlot)) ↔
      (o ∈ t.items ∧ (scanStart t p).StartSlot ≤ o.StartSlot) ∧ o.StartSlot < p.EndSlot := by
    intro o
    rw [mem_takeWhile_sorted _ _ (descend_pairwise t ho _), mem_descend]
  constructor
  · rintro (e | ⟨⟨hx, hno⟩, hne⟩)
    · exact Or.inl e
    · refine Or.inr ⟨hx, hne, ?_⟩
      rintro ⟨h1, h2⟩
      exact hno x ((hov x).2 ⟨⟨hx, h1⟩, h2⟩) rfl
  · rintro (e | ⟨hx, hne, hno⟩)
    · exact Or.inl e
    · refine Or.inr ⟨⟨hx, ?_⟩, hne⟩
      intro o ho2 heq
      obtain ⟨⟨ho_t, h1⟩, h2⟩ := (hov o).1 ho2
      have := ordered_inj t.items ho x hx o ho_t heq
      subst this
      exact hno ⟨h1, h2⟩

theorem remove_sublist (t : PartitionTree) (p : Partition) :
    (t.remove p).items.Sublist t.items := by
  unfold PartitionTree.remove
  split
  · exact List.Sublist.refl _
  · split
    · exact List.Sublist.refl _
    · exact List.filter_sublist _

theorem separated_of_disjoint (t : PartitionTree) (hne : t.nonEmpty) (hd : t.disjoint) :
    t.separated := by
  intro a ha b hb hab
  by_contra hcon
  have hne2 : a ≠ b := by intro e; subst e; omega
  apply hd a ha b hb hne2
  rw [overlaps_def]
  have := hne a ha
  have := hne b hb
  omega

theorem disjoint_of_separated (t : PartitionTree) (ho : t.ordered) (hs : t.separated) :
    t.disjoint := by
  intro a ha b hb hab hov
  rw [overlaps_def] at hov
  have hstart : a.StartSlot ≠ b.StartSlot := fun e => hab (ordered_inj t.items ho a ha b hb e)
  rcases Nat.lt_or_gt_of_ne hstart with h | h
  · have := hs a ha b hb h; omega
  · have := hs b hb a ha h; omega

/-- In an ordered, separated tree `find` answers the item that contains the probe's
start slot. -/
theorem find_of_contains_sep (t : PartitionTree) (ho : t.ordered) (hs : t.separated)
    (rng p : Partition) (hp : p ∈ t.items)
    (hc : PartitionItem.Contains p rng.StartSlot = true) : t.find rng = some p := by
  rw [find_eq_some_iff]
  refine ⟨?_, hc⟩
  have hcp := (contains_iff p rng.StartSlot).1 hc
  have hpf : p ∈ t.items.filter (fun i => !PartitionItem.Less i rng) := by
    rw [List.mem_filter]
    refine ⟨hp, ?_⟩
    simp [PartitionItem.Less]; omega
  have hpw : (t.items.filter (fun i => !PartitionItem.Less i rng)).Pairwise
      (fun a b => PartitionItem.Less a b = true) := List.Pairwise.filter _ ho
  cases hl : t.items.filter (fun i => !PartitionItem.Less i rng) with
  | nil => rw [hl] at hpf; cases hpf
  | cons r rest =>
    rw [hl] at hpf hpw
    simp only [List.head?_cons, Option.some.injEq]
    rcases List.mem_cons.1 hpf with e | hrest
    · exact e.symm
    · exfalso
      have hlt : p.StartSlot < r.StartSlot := (less_iff r p).1 ((List.pairwise_cons.1 hpw).1 p hrest)
      have hrm : r ∈ t.items.filter (fun i => !PartitionItem.Less i rng) := by
        rw [hl]; exact List.mem_cons_self _ _
      obtain ⟨hrt, hrl⟩ := List.mem_filter.1 hrm
      have hrle : r.StartSlot ≤ rng.StartSlot := by
        simp [PartitionItem.Less] at hrl; omega
      have := hs p hp r hrt hlt
      omega

theorem scanStart_le (t : PartitionTree) (p : Partition) :
    (scanStart t p).StartSlot ≤ p.StartSlot := by
  unfold scanStart
  cases h : t.find p with
  | none => exact le_refl _
  | some r => exact (find_mem t p r h).2.1

/-- The separation invariant survives `update p` when `p.StartSlot ≤ p.EndSlot`. -/
theorem update_separated (t : PartitionTree) (ho : t.ordered) (hs : t.separated)
    (p : Partition) (hp : p.StartSlot ≤ p.EndSlot) : (t.update p).separated := by
  intro a ha b hb hab
  have hle := scanStart_le t p
  rcases (mem_update t ho p a).1 ha with ea | ⟨hat, hane, hakeep⟩ <;>
    rcases (mem_update t ho p b).1 hb with eb | ⟨hbt, hbne, hbkeep⟩
  · subst ea; subst eb; omega
  · subst ea; omega
  · subst eb
    by_contra hcon
    have hc : PartitionItem.Contains a b.StartSlot = true := by
      rw [contains_iff]; omega
    have hfind := find_of_contains_sep t ho hs b a hat hc
    have hss : scanStart t b = a := by unfold scanStart; rw [hfind]
    rw [hss] at hakeep
    omega
  · exact hs a hat b hbt hab

theorem remove_ordered (t : PartitionTree) (ho : t.ordered) (p : Partition) :
    (t.remove p).ordered :=
  List.Pairwise.sublist (remove_sublist t p) ho

theorem remove_separated (t : PartitionTree) (hs : t.separated) (p : Partition) :
    (t.remove p).separated := by
  intro a ha b hb hab
  exact hs a ((remove_sublist t p).subset ha) b ((remove_sublist t p).subset hb) hab

/-- Trees built from the empty tree by `remove` calls and by `update` calls on partitions
with `StartSlot ≤ EndSlot` are ordered and separated. -/
theorem applyOps_invariant (ops : List TreeOp) :
    ∀ (t : PartitionTree), t.ordered → t.separated →
      (∀ p, TreeOp.update p ∈ ops → p.StartSlot ≤ p.EndSlot) →
      (applyOps t ops).ordered ∧ (applyOps t ops).separated := by
  induction ops with
  | nil => intro t ho hs _; exact ⟨ho, hs⟩
  | cons op rest ih =>
    intro t ho hs hops
    have hrest : ∀ p, TreeOp.update p ∈ rest → p.StartSlot ≤ p.EndSlot :=
      fun p hp => hops p (List.mem_cons_of_mem _ hp)
    cases op with
    | update rng =>
      have hr := hops rng (List.mem_cons_self _ _)
      exact ih (t.update rng) (update_ordered t ho rng) (update_separated t ho hs rng hr) hrest
    | remove rng =>
      exact ih (t.remove rng) (remove_ordered t ho rng) (remove_separated t hs rng) hrest

/-! ## Facts about the partition methods and the heartbeat round -/

theorem timeSub_ge_iff (t u : Int) : timeSub t u ≥ 30 * Second ↔ t - u ≥ 30 * Second := by
  unfold timeSub maxDuration minDuration Second
  split
  · constructor <;> intro _ <;> omega
  · split
    · constructor <;> intro _ <;> omega
    · exact Iff.rfl

theorem take_meta (p : Partition) (now : Int) :
    (p.takeChangeMemberTask now).1.meta = p.meta ∧
    (p.takeChangeMemberTask now).1.Leader = p.Leader ∧
    (p.takeChangeMemberTask now).1.LastHeartbeat = p.LastHeartbeat := by
  unfold Partition.takeChangeMemberTask
  split <;> simp

/-- The delete tail of a heartbeat round changes neither the record nor the leader
nor the store. -/
theorem pushDelete_frame (s : HbState) (info : PartitionInfo) (now : Int)
    (leaderNodeId : Partition → Nat) :
    (pushDelete s info now leaderNodeId).state.partition.meta = s.partition.meta ∧
    (pushDelete s info now leaderNodeId).state.partition.Leader = s.partition.Leader ∧
    (pushDelete s info now leaderNodeId).state.store = s.store := by
  have hm := take_meta s.partition now
  unfold pushDelete
  split
  · next p1 h => rw [h] at hm; exact ⟨hm.1, hm.2.1, rfl⟩
  · next p1 h =>
    rw [h] at hm
    split <;> exact ⟨hm.1, hm.2.1, rfl⟩

/-- The replica-count check changes neither the record nor the leader nor the store. -/
theorem checkReplicasCount_frame (s : HbState) (info : PartitionInfo) (now : Int) :
    (checkReplicasCount s info now).state.partition.meta = s.partition.meta ∧
    (checkReplicasCount s info now).state.partition.Leader = s.partition.Leader ∧
    (checkReplicasCount s info now).state.store = s.store := by
  have hm := take_meta s.partition now
  unfold checkReplicasCount
  simp only
  split
  · exact pushDelete_frame s info now _
  · split
    · split
      · next p1 h => rw [h] at hm; exact ⟨hm.1, hm.2.1, rfl⟩
      · next p1 h => rw [h] at hm; exact ⟨hm.1, hm.2.1, rfl⟩
    · exact ⟨rfl, rfl, rfl⟩

/-- What `UpdateReplicaGroupByCond` answers when it returns: either the partition and
the store are untouched and `updateOk` is false, or the record is the rebuilt one. -/
theorem update_cases (marshal : MetaPartition → Option (List Nat)) (p : Partition)
    (store : Store) (putOk : Bool) (now : Int) (info : PartitionInfo)
    (leaderReplica : Option Replica) (r : UpdateResult)
    (h : p.UpdateReplicaGroupByCond marshal store putOk now info leaderReplica = .ok r) :
    (r.partition = p ∧ r.store = store ∧ r.updateOk = false) ∨
    (r.updateOk = true ∧ r.verExpired = false ∧
      p.meta.Epoch.ConfVersion ≤ info.Epoch.ConfVersion ∧
      r.partition.Leader = leaderReplica ∧
      r.partition.meta.Epoch = info.Epoch ∧
      ∃ rs, info.RaftStatus = some rs ∧
        r.partition.meta.Replicas = rs.Replica :: rs.Followers.map (fun f => f.Replica)) := by
  unfold Partition.UpdateReplicaGroupByCond at h
  split at h
  · cases h; exact Or.inl ⟨rfl, rfl, rfl⟩
  · next hc =>
    cases hrs : info.RaftStatus with
    | none => rw [hrs] at h; cases h
    | some rs =>
      rw [hrs] at h
      simp only at h
      split at h
      · cases h; exact Or.inl ⟨rfl, rfl, rfl⟩
      · split at h
        · cases h; exact Or.inl ⟨rfl, rfl, rfl⟩
        · cases h
          refine Or.inr ⟨rfl, rfl, ?_, rfl, rfl, rs, rfl, rfl⟩
          omega

/-- What `ValidateAndUpdateLeaderByCond` answers when it returns: the record is
untouched, and the leader changes only to a replica of the record. -/
theorem validate_cases (p : Partition) (now : Int) (info : PartitionInfo)
    (leader : Replica) (v : ValidateResult)
    (h : p.ValidateAndUpdateLeaderByCond now info (some leader) = .ok v) :
    v.partition.meta = p.meta ∧
    ((v.partition = p ∧ v.updateOk = false) ∨
      (v.updateOk = true ∧ v.partition.Leader = some leader ∧
        leader.ID ∈ p.meta.Replicas.map (fun r => r.ID))) := by
  unfold Partition.ValidateAndUpdateLeaderByCond at h
  split at h
  · cases h; exact ⟨rfl, Or.inl ⟨rfl, rfl⟩⟩
  · split at h
    · cases h; exact ⟨rfl, Or.inl ⟨rfl, rfl⟩⟩
    · simp only at h
      cases hex : p.meta.Replicas.any (fun replica => replica.ID == leader.ID) with
      | false =>
        rw [hex] at h
        cases h; exact ⟨rfl, Or.inl ⟨rfl, rfl⟩⟩
      | true =>
        rw [hex] at h
        cases h
        refine ⟨rfl, Or.inr ⟨rfl, rfl, ?_⟩⟩
        simp only [List.any_eq_true, beq_iff_eq] at hex
        obtain ⟨x, hx, hxe⟩ := hex
        exact List.mem_map.2 ⟨x, hx, hxe⟩

theorem pickLeaderReplica_some (info : PartitionInfo) (l : Replica)
    (h : pickLeaderReplica (some info) = .ok (some l)) :
    info.IsLeader = true ∧ ∃ rs, info.RaftStatus = some rs ∧ l = rs.Replica := by
  unfold pickLeaderReplica at h
  simp only at h
  split at h
  · cases h
  · next hl =>
    cases hrs : info.RaftStatus with
    | none => rw [hrs] at h; cases h
    | some rs =>
      rw [hrs] at h
      simp only [Except.ok.injEq, Option.some.injEq] at h
      exact ⟨by simpa using hl, rs, rfl, h.symm⟩

theorem roundKeeps_of_frame (s : HbState) (o : HbOutcome)
    (h1 : o.state.partition.meta = s.partition.meta)
    (h2 : o.state.partition.Leader = s.partition.Leader) : roundKeeps s o := by
  unfold roundKeeps Partition.leaderAmongReplicas
  rw [h1, h2]
  exact ⟨le_refl _, fun h => h⟩

theorem roundKeeps_trans (s m : HbState) (o : HbOutcome)
    (h1 : roundKeeps s ⟨m, false⟩) (h2 : roundKeeps m o) : roundKeeps s o :=
  ⟨le_trans h1.1 h2.1, fun h => h2.2 (h1.2 h)⟩

theorem updateGroupThenCheck_keeps (marshal : MetaPartition → Option (List Nat)) (s : HbState)
    (info : PartitionInfo) (now : Int) (putOk : Bool) (l : Replica)
    (hl : pickLeaderReplica (some info) = .ok (some l)) :
    roundKeeps s (updateGroupThenCheck marshal s info now putOk l) := by
  obtain ⟨_, rs, hrs, hlrs⟩ := pickLeaderReplica_some info l hl
  unfold updateGroupThenCheck
  cases hU : s.partition.UpdateReplicaGroupByCond marshal s.store putOk now info (some l) with
  | error e => exact roundKeeps_of_frame s _ rfl rfl
  | ok r =>
    have hmid : roundKeeps s ⟨{ s with partition := r.partition, store := r.store }, false⟩ := by
      rcases update_cases marshal s.partition s.store putOk now info (some l) r hU with
        ⟨h1, _, _⟩ | ⟨_, _, hle, hlead, hep, rs2, hrs2, hrep⟩
      · exact roundKeeps_of_frame s _ (by rw [h1]) (by rw [h1])
      · refine ⟨?_, fun _ => ?_⟩
        · show _ ≤ r.partition.meta.Epoch.ConfVersion
          rw [hep]; exact hle
        · intro l2 hl2
          show l2.ID ∈ r.partition.meta.Replicas.map (fun r => r.ID)
          have hl2b : r.partition.Leader = some l2 := hl2
          rw [hlead] at hl2b
          cases hl2b
          rw [hrep]
          rw [hrs] at hrs2
          cases hrs2
          rw [hlrs]
          simp
    dsimp only
    split
    · exact hmid
    · refine roundKeeps_trans s _ _ hmid ?_
      have hf := checkReplicasCount_frame { s with partition := r.partition, store := r.store }
        info now
      exact roundKeeps_of_frame _ _ hf.1 hf.2.1

theorem heartbeatKnown_keeps (marshal : MetaPartition → Option (List Nat)) (s : HbState)
    (info : PartitionInfo) (now : Int) (putOk : Bool) :
    roundKeeps s (heartbeatKnown marshal s info now putOk) := by
  unfold heartbeatKnown
  dsimp only
  split
  · have hf := pushDelete_frame s info now (fun p => p.pickLeaderNodeId)
    exact roundKeeps_of_frame s _ hf.1 hf.2.1
  · split
    · cases hl : pickLeaderReplica (some info) with
      | error e => exact roundKeeps_of_frame s _ rfl rfl
      | ok o =>
        cases o with
        | none => exact roundKeeps_of_frame s _ rfl rfl
        | some l => exact updateGroupThenCheck_keeps marshal s info now putOk l hl
    · cases hl : pickLeaderReplica (some info) with
      | error e => exact roundKeeps_of_frame s _ rfl rfl
      | ok o =>
        cases o with
        | none => exact roundKeeps_of_frame s _ rfl rfl
        | some l =>
          dsimp only
          cases hV : s.partition.ValidateAndUpdateLeaderByCond now info (some l) with
          | error e => exact roundKeeps_of_frame s _ rfl rfl
          | ok v =>
            obtain ⟨hvm, hv⟩ := validate_cases s.partition now info l v hV
            have hmid : roundKeeps s ⟨{ s with partition := v.partition }, false⟩ := by
              rcases hv with ⟨h1, _⟩ | ⟨_, hlead, hmem⟩
              · exact roundKeeps_of_frame s _ (by rw [h1]) (by rw [h1])
              · refine ⟨?_, fun _ => ?_⟩
                · show _ ≤ v.partition.meta.Epoch.ConfVersion
                  rw [hvm]
                · intro l2 hl2
                  show l2.ID ∈ v.partition.meta.Replicas.map (fun r => r.ID)
                  have hl2b : v.partition.Leader = some l2 := hl2
                  rw [hlead] at hl2b
                  cases hl2b
                  rw [hvm]; exact hmem
            dsimp only
            split
            · exact hmid
            · split
              · refine roundKeeps_trans s _ _ hmid ?_
                have hf := pushDelete_frame { s with partition := v.partition } info now
                  (fun _ => l.NodeID)
                exact roundKeeps_of_frame _ _ hf.1 hf.2.1
              · split
                · exact roundKeeps_trans s _ _ hmid
                    (updateGroupThenCheck_keeps marshal _ info now putOk l hl)
                · refine roundKeeps_trans s _ _ hmid ?_
                  have hf := checkReplicasCount_frame { s with partition := v.partition } info now
                  exact roundKeeps_of_frame _ _ hf.1 hf.2.1

/-! ## Facts about the branches of a heartbeat round -/

/-- What `ValidateAndUpdateLeaderByCond` returns for a non-nil reported leader. -/
theorem validate_eq (p : Partition) (now : Int) (info : PartitionInfo) (leader : Replica) :
    p.ValidateAndUpdateLeaderByCond now info (some leader) = .ok
      (if info.Epoch.ConfVersion ≠ p.meta.Epoch.ConfVersion then ⟨p, true, false, false⟩
       else if p.Leader = none then ⟨p, false, false, false⟩
       else if leader.ID ∈ p.meta.Replicas.map (fun r => r.ID) then
         ⟨{ p with LastHeartbeat := now, Leader := some leader }, false, false, true⟩
       else ⟨p, false, true, false⟩) := by
  unfold Partition.ValidateAndUpdateLeaderByCond
  by_cases h1 : info.Epoch.ConfVersion ≠ p.meta.Epoch.ConfVersion
  · rw [if_pos h1, if_pos h1]
  · rw [if_neg h1, if_neg h1]
    by_cases h2 : p.Leader = none
    · rw [if_pos h2, if_pos h2]
    · rw [if_neg h2, if_neg h2]
      dsimp only
      cases hex : p.meta.Replicas.any (fun replica => replica.ID == leader.ID) with
      | false =>
        have hnot : ¬ leader.ID ∈ p.meta.Replicas.map (fun r => r.ID) := by
          intro hm
          obtain ⟨x, hx, hxe⟩ := List.mem_map.1 hm
          have : p.meta.Replicas.any (fun replica => replica.ID == leader.ID) = true :=
            List.any_eq_true.2 ⟨x, hx, by simpa using hxe⟩
          rw [hex] at this; cases this
        rw [if_neg hnot]; rfl
      | true =>
        have hin : leader.ID ∈ p.meta.Replicas.map (fun r => r.ID) := by
          obtain ⟨x, hx, hxe⟩ := List.any_eq_true.1 hex
          exact List.mem_map.2 ⟨x, hx, by simpa using hxe⟩
        rw [if_pos hin]; rfl

theorem pickLeaderReplica_leader (info : PartitionInfo) (rs : RaftStatus)
    (hl : info.IsLeader = true) (hrs : info.RaftStatus = some rs) :
    pickLeaderReplica (some info) = .ok (some rs.Replica) := by
  unfold pickLeaderReplica
  simp [hl, hrs]

theorem pickReplicaToDelete_leader (info : PartitionInfo) (rs : RaftStatus)
    (hl : info.IsLeader = true) (hrs : info.RaftStatus = some rs) :
    pickReplicaToDelete (some info) = .ok (some (firstOtherFollower rs)) := by
  unfold pickReplicaToDelete firstOtherFollower
  simp only [hrs, hl, Bool.not_true, Bool.false_eq_true, if_false]
  cases rs.Followers.find? (fun follower => !(follower.Replica.ID == rs.Replica.ID)) <;> rfl

/-- The delete tail when the task latch is not acquired: nothing changes. -/
theorem pushDelete_not_taken (s : HbState) (info : PartitionInfo) (now : Int)
    (leaderNodeId : Partition → Nat) (h : (s.partition.takeChangeMemberTask now).2 = false) :
    pushDelete s info now leaderNodeId = ⟨s, false⟩ := by
  have h1 : (s.partition.takeChangeMemberTask now).1 = s.partition := by
    unfold Partition.takeChangeMemberTask at h ⊢
    split
    · next hc => rw [if_pos hc] at h; cases h
    · rfl
  unfold pushDelete
  split
  · next p1 heq =>
    have : p1 = s.partition := by rw [← h1, heq]
    rw [this]
  · next p1 heq => rw [heq] at h; cases h

/-- The delete tail when the task latch is acquired and a replica is picked: the latch
is set and `PushEvent` is called once, with the delete event for that replica. -/
theorem pushDelete_taken (s : HbState) (info : PartitionInfo) (now : Int)
    (leaderNodeId : Partition → Nat) (r : Replica)
    (h : (s.partition.takeChangeMemberTask now).2 = true)
    (hr : pickReplicaToDelete (some info) = .ok (some r)) :
    pushDelete s info now leaderNodeId =
      ⟨{ s with
          partition := { s.partition with taskFlag := true, taskTimeout := now }
          pm := (s.pm.PushEvent (some (NewPartitionDeleteEvent info.ID
            (leaderNodeId { s.partition with taskFlag := true, taskTimeout := now })
            (some r)))).1 }, false⟩ := by
  have h1 : (s.partition.takeChangeMemberTask now).1 =
      { s.partition with taskFlag := true, taskTimeout := now } := by
    unfold Partition.takeChangeMemberTask at h ⊢
    split
    · rfl
    · next hc => rw [if_neg hc] at h; cases h
  unfold pushDelete
  split
  · next p1 heq => rw [heq] at h; cases h
  · next p1 heq =>
    have : p1 = { s.partition with taskFlag := true, taskTimeout := now } := by
      rw [← h1, heq]
    rw [this, hr]

theorem heartbeatKnown_stale (marshal : MetaPartition → Option (List Nat)) (s : HbState)
    (info : PartitionInfo) (now : Int) (putOk : Bool)
    (h : info.Epoch.ConfVersion < s.partition.meta.Epoch.ConfVersion) :
    heartbeatKnown marshal s info now putOk =
      pushDelete s info now (fun p => p.pickLeaderNodeId) := by
  unfold heartbeatKnown
  dsimp only
  rw [if_pos h]

theorem heartbeatKnown_newer (marshal : MetaPartition → Option (List Nat)) (s : HbState)
    (info : PartitionInfo) (now : Int) (putOk : Bool) (l : Replica)
    (h : info.Epoch.ConfVersion > s.partition.meta.Epoch.ConfVersion)
    (hl : pickLeaderReplica (some info) = .ok (some l)) :
    heartbeatKnown marshal s info now putOk =
      updateGroupThenCheck marshal s info now putOk l := by
  unfold heartbeatKnown
  dsimp only
  rw [if_neg (by omega), if_pos h, hl]

/-- The round for a leader-reported info of the master's own configuration version. -/
theorem heartbeatKnown_equal (marshal : MetaPartition → Option (List Nat)) (s : HbState)
    (info : PartitionInfo) (now : Int) (putOk : Bool) (l : Replica)
    (h : info.Epoch.ConfVersion = s.partition.meta.Epoch.ConfVersion)
    (hl : pickLeaderReplica (some info) = .ok (some l)) :
    heartbeatKnown marshal s info now putOk =
      if s.partition.Leader = none then updateGroupThenCheck marshal s info now putOk l
      else if l.ID ∈ s.partition.meta.Replicas.map (fun r => r.ID) then
        checkReplicasCount
          { s with partition := { s.partition with LastHeartbeat := now, Leader := some l } }
          info now
      else pushDelete s info now (fun _ => l.NodeID) := by
  unfold heartbeatKnown
  dsimp only
  rw [if_neg (by omega), if_neg (by omega), hl]
  dsimp only
  rw [validate_eq, if_neg (by simp [h])]
  dsimp only
  by_cases h2 : s.partition.Leader = none
  · rw [if_pos h2, if_pos h2]
    simp
  · rw [if_neg h2, if_neg h2]
    by_cases h3 : l.ID ∈ s.partition.meta.Replicas.map (fun r => r.ID)
    · rw [if_pos h3, if_pos h3]
      simp
    · rw [if_neg h3, if_neg h3]
      simp

theorem pushEvent_room (pm : ProcessorManager) (ev : ProcessorEvent)
    (htyp : ev.typ = EVENT_TYPE_PARTITION_CREATE ∨ ev.typ = EVENT_TYPE_PARTITION_DELETE ∨
      ev.typ = EVENT_TYPE_FORCE_PARTITION_DELETE)
    (hs : pm.isStarted = true) (hlen : pm.eventCh.length < 900) :
    (pm.PushEvent (some ev)).1.eventCh = pm.eventCh ++ [ev] := by
  unfold ProcessorManager.PushEvent
  have h9 : ¬ (pm.eventCh.length ≥ PARTITION_CHANNEL_LIMIT * 9 / 10) := by
    unfold PARTITION_CHANNEL_LIMIT; omega
  simp only [hs, Bool.not_true, Bool.false_eq_true, if_false, htyp, if_true, h9]

/-- The node `pickLeaderNodeId` answers: the node of the known leader, 0 without one. -/
theorem pickLeaderNodeId_eq (p : Partition) :
    p.pickLeaderNodeId = (p.Leader.map (fun l => l.NodeID)).getD 0 := by
  unfold Partition.pickLeaderNodeId
  cases p.Leader <;> rfl

theorem pushedOnce_delete (pm : ProcessorManager) (partitionId leaderNodeId : Nat)
    (r : Option Replica) :
    pushedOnce pm (pm.PushEvent (some (NewPartitionDeleteEvent partitionId leaderNodeId r))).1
      (NewPartitionDeleteEvent partitionId leaderNodeId r) :=
  ⟨rfl, pushEvent_room pm _ (Or.inr (Or.inl rfl))⟩

theorem pushedOnce_create (pm : ProcessorManager) (p : Partition) :
    pushedOnce pm (pm.PushEvent (some (NewPartitionCreateEvent p))).1
      (NewPartitionCreateEvent p) :=
  ⟨rfl, pushEvent_room pm _ (Or.inl rfl)⟩

theorem pushedOnce_force (pm : ProcessorManager) (partitionId : Nat) (addr : String)
    (r : Option Replica) :
    pushedOnce pm (pm.PushEvent (some (NewForcePartitionDeleteEvent partitionId addr r))).1
      (NewForcePartitionDeleteEvent partitionId addr r) :=
  ⟨rfl, pushEvent_room pm _ (Or.inr (Or.inr rfl))⟩

theorem take_latched (p : Partition) (now : Int) (h : (p.takeChangeMemberTask now).2 = true) :
    (p.takeChangeMemberTask now).1 = p.latched now := by
  unfold Partition.takeChangeMemberTask at h ⊢
  split
  · rfl
  · next hc => rw [if_neg hc] at h; cases h

theorem take_same (p : Partition) (now : Int) (h : (p.takeChangeMemberTask now).2 = false) :
    (p.takeChangeMemberTask now).1 = p := by
  unfold Partition.takeChangeMemberTask at h ⊢
  split
  · next hc => rw [if_pos hc] at h; cases h
  · rfl

theorem check_eq (s : HbState) (info : PartitionInfo) (now : Int)
    (h : s.partition.countReplicas = FIXED_REPLICA_NUM) :
    checkReplicasCount s info now = ⟨s, false⟩ := by
  unfold checkReplicasCount
  dsimp only
  rw [if_neg (by omega), if_neg (by omega)]

theorem check_gt (s : HbState) (info : PartitionInfo) (now : Int)
    (h : s.partition.countReplicas > FIXED_REPLICA_NUM) :
    checkReplicasCount s info now = pushDelete s info now (fun p => p.pickLeaderNodeId) := by
  unfold checkReplicasCount
  dsimp only
  rw [if_pos h]

theorem check_lt (s : HbState) (info : PartitionInfo) (now : Int)
    (h : s.partition.countReplicas < FIXED_REPLICA_NUM) :
    checkReplicasCount s info now =
      if (s.partition.takeChangeMemberTask now).2 = true then
        ⟨{ s with
            partition := s.partition.latched now
            pm := (s.pm.PushEvent (some (NewPartitionCreateEvent (s.partition.latched now)))).1 },
          false⟩
      else ⟨s, false⟩ := by
  unfold checkReplicasCount
  dsimp only
  rw [if_neg (by omega), if_pos h]
  cases ht : (s.partition.takeChangeMemberTask now).2 with
  | true =>
    have h1 := take_latched s.partition now ht
    rw [if_pos rfl]
    split
    · next p1 heq => rw [heq] at ht; cases ht
    · next p1 heq =>
      have : p1 = s.partition.latched now := by rw [← h1, heq]
      rw [this]
  | false =>
    have h1 := take_same s.partition now ht
    rw [if_neg (by simp)]
    split
    · next p1 heq =>
      have : p1 = s.partition := by rw [← h1, heq]
      rw [this]
    · next p1 heq => rw [heq] at ht; cases ht

/-- After a successful `UpdateReplicaGroupByCond` the round goes on with the replica
count check on the updated partition. -/
theorem updateGroupThenCheck_ok (marshal : MetaPartition → Option (List Nat)) (s : HbState)
    (info : PartitionInfo) (now : Int) (putOk : Bool) (l : Replica) (r : UpdateResult)
    (hU : s.partition.UpdateReplicaGroupByCond marshal s.store putOk now info (some l) = .ok r)
    (hok : r.updateOk = true) :
    updateGroupThenCheck marshal s info now putOk l =
      checkReplicasCount { s with partition := r.partition, store := r.store } info now := by
  have hexp : r.verExpired = false := by
    rcases update_cases marshal s.partition s.store putOk now info (some l) r hU with
      ⟨_, _, h3⟩ | ⟨_, h2, _⟩
    · rw [h3] at hok; cases hok
    · exact h2
  unfold updateGroupThenCheck
  rw [hU]
  dsimp only
  rw [if_neg (by simp [hexp, hok])]

theorem take_indep (p : Partition) (now hb : Int) (l : Option Replica) :
    (({ p with LastHeartbeat := hb, Leader := l } : Partition).takeChangeMemberTask now).2
      = (p.takeChangeMemberTask now).2 := by
  unfold Partition.takeChangeMemberTask
  dsimp only
  split <;> rfl

/-- The round for a leader-reported info of the master's configuration version whose
leader is among the replicas of a partition with a known leader. -/
theorem heartbeatKnown_valid (marshal : MetaPartition → Option (List Nat)) (s : HbState)
    (info : PartitionInfo) (now : Int) (putOk : Bool) (rs : RaftStatus)
    (hl : info.IsLeader = true) (hrs : info.RaftStatus = some rs)
    (heq : info.Epoch.ConfVersion = s.partition.meta.Epoch.ConfVersion)
    (hknown : s.partition.Leader ≠ none)
    (hmem : rs.Replica.ID ∈ s.partition.meta.Replicas.map (fun r => r.ID)) :
    heartbeatKnown marshal s info now putOk =
      checkReplicasCount
        { s with
          partition := { s.partition with LastHeartbeat := now, Leader := some rs.Replica } }
        info now := by
  rw [heartbeatKnown_equal marshal s info now putOk rs.Replica heq
    (pickLeaderReplica_leader info rs hl hrs), if_neg hknown, if_pos hmem]

/-- The replica count check for a leader-reported info on a partition that has at least
one replica: it does not panic, and it pushes a Delete event exactly when the count is
not the target and the task latch is acquired. -/
theorem check_with_replicas (u : HbState) (info : PartitionInfo) (now : Int) (rs : RaftStatus)
    (hl : info.IsLeader = true) (hrs : info.RaftStatus = some rs)
    (hpos : 1 ≤ u.partition.countReplicas) :
    (checkReplicasCount u info now).panicked = false ∧
    ((u.partition.countReplicas = FIXED_REPLICA_NUM ∨
        (u.partition.takeChangeMemberTask now).2 = false) →
      checkReplicasCount u info now = ⟨u, false⟩) ∧
    (u.partition.countReplicas ≠ FIXED_REPLICA_NUM →
      (u.partition.takeChangeMemberTask now).2 = true →
      (checkReplicasCount u info now).state.partition = u.partition.latched now ∧
      pushedOnce u.pm (checkReplicasCount u info now).state.pm
        (NewPartitionDeleteEvent info.ID u.partition.pickLeaderNodeId
          (some (firstOtherFollower rs)))) := by
  have hpd := pickReplicaToDelete_leader info rs hl hrs
  have hgt : u.partition.countReplicas ≠ FIXED_REPLICA_NUM →
      u.partition.countReplicas > FIXED_REPLICA_NUM := by
    intro hc; unfold FIXED_REPLICA_NUM at hc ⊢; omega
  refine ⟨?_, ?_, ?_⟩
  · by_cases hc : u.partition.countReplicas = FIXED_REPLICA_NUM
    · rw [check_eq u info now hc]
    · rw [check_gt u info now (hgt hc)]
      cases ht : (u.partition.takeChangeMemberTask now).2 with
      | false => rw [pushDelete_not_taken u info now _ ht]
      | true => rw [pushDelete_taken u info now _ _ ht hpd]
  · rintro (hc | ht)
    · exact check_eq u info now hc
    · by_cases hc : u.partition.countReplicas = FIXED_REPLICA_NUM
      · exact check_eq u info now hc
      · rw [check_gt u info now (hgt hc)]
        exact pushDelete_not_taken u info now _ ht
  · intro hc ht
    rw [check_gt u info now (hgt hc), pushDelete_taken u info now _ _ ht hpd]
    exact ⟨rfl, pushedOnce_delete u.pm _ _ _⟩

theorem firstOtherFollower_alone (rs : RaftStatus)
    (h : ∀ f ∈ rs.Followers, f.Replica.ID = rs.Replica.ID) :
    firstOtherFollower rs = rs.Replica := by
  unfold firstOtherFollower
  have : rs.Followers.find? (fun follower => !(follower.Replica.ID == rs.Replica.ID)) = none := by
    rw [List.find?_eq_none]
    intro f hf
    simp [h f hf]
  rw [this]

theorem heartbeatLoop_single (marshal : MetaPartition → Option (List Nat)) (rpcAddr : String)
    (z : ZMState) (r : HbRound) :
    heartbeatLoop marshal rpcAddr z [r] = heartbeatInfo marshal rpcAddr z r := by
  unfold heartbeatLoop
  rcases hinfo : heartbeatInfo marshal rpcAddr z r with ⟨z2, b⟩
  cases b
  · simp [heartbeatLoop]
  · rfl

/-- A stale heartbeat is rejected at once: nothing is copied, written or changed. -/
theorem update_stale (marshal : MetaPartition → Option (List Nat)) (p : Partition)
    (store : Store) (putOk : Bool) (now : Int) (info : PartitionInfo)
    (leaderReplica : Option Replica)
    (hc : info.Epoch.ConfVersion < p.meta.Epoch.ConfVersion ∨
      (info.Epoch.ConfVersion = p.meta.Epoch.ConfVersion ∧ p.Leader ≠ none)) :
    p.UpdateReplicaGroupByCond marshal store putOk now info leaderReplica
      = .ok ⟨p, store, true, false⟩ := by
  unfold Partition.UpdateReplicaGroupByCond
  rw [if_pos hc]

/-! ## Facts about `addReplica` and `deleteReplica` -/

theorem persistCopy_fail (marshal : MetaPartition → Option (List Nat)) (p : Partition)
    (store : Store) (copy : MetaPartition) :
    persistCopy marshal p store false copy =
      ⟨p, store, some (if (marshal copy).isSome then .putFailed else .marshalFailed), false⟩ := by
  unfold persistCopy doMetaMarshal
  cases marshal copy <;> simp [Store.Put]

/-- What the shared tail does when it returns no error: the copy is the new record and
nothing else of the partition changes. -/
theorem persistCopy_ok (marshal : MetaPartition → Option (List Nat)) (p : Partition)
    (store : Store) (putOk : Bool) (copy : MetaPartition)
    (h : (persistCopy marshal p store putOk copy).err = none) :
    (persistCopy marshal p store putOk copy).partition = { p with meta := copy } := by
  unfold persistCopy doMetaMarshal at h ⊢
  cases hm : marshal copy with
  | none => rw [hm] at h; simp at h
  | some val =>
    rw [hm] at h
    cases putOk with
    | false => simp [Store.Put] at h
    | true => simp [Store.Put]

theorem persistCopy_unchanged_or (marshal : MetaPartition → Option (List Nat)) (p : Partition)
    (store : Store) (putOk : Bool) (copy : MetaPartition) :
    (persistCopy marshal p store putOk copy).panicked = false ∧
    (persistCopy marshal p store putOk copy).partition.Leader = p.Leader := by
  unfold persistCopy doMetaMarshal
  cases marshal copy with
  | none => simp
  | some val => cases putOk <;> simp [Store.Put]

/-- The inner loop changes nothing when the replica at the index, if there is one, has
the ID of none of the replicas passed. -/
theorem deleteInner_no_match (i : Nat) (metas : List Replica) :
    ∀ (replicas out : List Replica),
      (∀ r, replicas[i]? = some r → ∀ m ∈ metas, r.ID ≠ m.ID) →
      deleteInner i replicas metas = .ok out → out = replicas := by
  induction metas with
  | nil => intro replicas out _ h; simp [deleteInner] at h; exact h.symm
  | cons m rest ih =>
    intro replicas out hno h
    unfold deleteInner at h
    cases hr : replicas[i]? with
    | none => rw [hr] at h; cases h
    | some r =>
      rw [hr] at h
      have hne : r.ID ≠ m.ID := hno r hr m (List.mem_cons_self _ _)
      simp only [hne, if_false] at h
      exact ih replicas out (fun r2 hr2 m2 hm2 => hno r2 hr2 m2 (List.mem_cons_of_mem _ hm2)) h

theorem getElem?_front (front back : List Replica) (e : Replica) :
    (front ++ e :: back)[front.length]? = some e := by
  rw [List.getElem?_append_right (le_refl _)]
  simp

/-- The inner loop at the last unvisited index: the replica there goes iff its ID is the
ID of one of the replicas passed; the replicas behind it, which match none, stay. -/
theorem deleteInner_at (metas : List Replica) :
    ∀ (front back : List Replica) (e : Replica) (out : List Replica),
      (∀ b ∈ back, ∀ m ∈ metas, b.ID ≠ m.ID) →
      deleteInner front.length (front ++ e :: back) metas = .ok out →
      out = front ++ (if keptBy metas e then e :: back else back) := by
  induction metas with
  | nil => intro front back e out _ h; simp [deleteInner] at h; simp [keptBy, h]
  | cons m rest ih =>
    intro front back e out hback h
    unfold deleteInner at h
    rw [getElem?_front] at h
    dsimp only at h
    have hback2 : ∀ b ∈ back, ∀ m2 ∈ rest, b.ID ≠ m2.ID :=
      fun b hb m2 hm2 => hback b hb m2 (List.mem_cons_of_mem _ hm2)
    by_cases hem : e.ID = m.ID
    · rw [if_pos hem] at h
      have herase : (front ++ e :: back).eraseIdx front.length = front ++ back := by
        rw [List.eraseIdx_append_of_length_le (le_refl _)]
        simp
      rw [herase] at h
      have hout := deleteInner_no_match front.length rest (front ++ back) out (by
        intro r hr m2 hm2
        cases back with
        | nil => simp at hr
        | cons b bs =>
          rw [getElem?_front] at hr
          cases hr
          exact hback2 _ (List.mem_cons_self _ _) m2 hm2) h
      have hk : keptBy (m :: rest) e = false := by
        simp [keptBy, hem]
      rw [hout, hk]
      simp
    · rw [if_neg hem] at h
      have := ih front back e out hback2 h
      have hk : keptBy (m :: rest) e = keptBy rest e := by
        simp [keptBy, hem]
      rw [this, hk]

theorem keptBy_iff (metas : List Replica) (r : Replica) :
    keptBy metas r = true ↔ ∀ m ∈ metas, r.ID ≠ m.ID := by
  simp [keptBy]

/-- The outer loop, when it does not panic, leaves the replicas whose ID is the ID of
none of the replicas passed, in their order. -/
theorem deleteOuter_filter (metas : List Replica) :
    ∀ (n : Nat) (front back out : List Replica), front.length = n →
      (∀ b ∈ back, ∀ m ∈ metas, b.ID ≠ m.ID) →
      deleteOuter n (front ++ back) metas = .ok out →
      out = front.filter (keptBy metas) ++ back := by
  intro n
  induction n with
  | zero =>
    intro front back out hlen _ h
    have : front = [] := List.length_eq_zero.1 hlen
    subst this
    simp [deleteOuter] at h
    simp [h]
  | succ n ih =>
    intro front back out hlen hback h
    rcases List.eq_nil_or_concat front with hnil | ⟨f2, e, hfe⟩
    · subst hnil; simp at hlen
    · subst hfe
      simp only [List.concat_eq_append] at h hlen ⊢
      have hlen2 : f2.length = n := by simpa using hlen
      have hrepl : f2 ++ [e] ++ back = f2 ++ e :: back := by simp
      rw [hrepl] at h
      unfold deleteOuter at h
      cases hin : deleteInner n (f2 ++ e :: back) metas with
      | error err => rw [hin] at h; cases h
      | ok mid =>
        rw [hin] at h
        dsimp only at h
        rw [← hlen2] at hin
        have hmid := deleteInner_at metas f2 back e mid hback hin
        rw [hmid] at h
        by_cases hk : keptBy metas e = true
        · rw [if_pos hk] at h
          have := ih f2 (e :: back) out hlen2 (by
            intro b hb m hm
            rcases List.mem_cons.1 hb with rfl | hb2
            · exact (keptBy_iff metas b).1 hk m hm
            · exact hback b hb2 m hm) h
          rw [this, List.filter_append]
          simp [hk]
        · rw [if_neg hk] at h
          have := ih f2 back out hlen2 hback h
          rw [this, List.filter_append]
          simp [hk]

/-- A successful `deleteReplica` leaves exactly the replicas whose ID is not passed, and
touches nothing else of the partition. -/
theorem deleteReplica_ok (marshal : MetaPartition → Option (List Nat)) (p : Partition)
    (store : Store) (putOk : Bool) (metas : List Replica)
    (herr : (p.deleteReplica marshal store putOk metas).err = none)
    (hpan : (p.deleteReplica marshal store putOk metas).panicked = false) :
    (p.deleteReplica marshal store putOk metas).partition =
      { p with meta := { p.meta with Replicas := p.meta.Replicas.filter (keptBy metas) } } := by
  unfold Partition.deleteReplica at herr hpan ⊢
  cases hout : deleteOuter p.meta.Replicas.length p.meta.Replicas metas with
  | error e => rw [hout] at hpan; cases hpan
  | ok replicas =>
    rw [hout] at herr
    dsimp only at herr ⊢
    have hf := deleteOuter_filter metas p.meta.Replicas.length p.meta.Replicas [] replicas rfl
      (by intro b hb; cases hb) (by simpa using hout)
    rw [List.append_nil] at hf
    rw [persistCopy_ok marshal p store putOk _ herr, hf]

/-- A successful `addReplica` appends the replicas passed, and touches nothing else of
the partition. -/
theorem addReplica_ok (marshal : MetaPartition → Option (List Nat)) (p : Partition)
    (store : Store) (putOk : Bool) (metas : List Replica)
    (herr : (p.addReplica marshal store putOk metas).err = none) :
    (p.addReplica marshal store putOk metas).partition =
      { p with meta := { p.meta with Replicas := p.meta.Replicas ++ metas } } := by
  unfold Partition.addReplica at herr ⊢
  exact persistCopy_ok marshal p store putOk _ herr

/-! ## Facts about `SlotSplit` -/

theorem sub32_of_le (a b : Nat) (h : b ≤ a) (ha : a < 2 ^ 32) : sub32 a b = a - b := by
  unfold sub32; omega

theorem mul_step_le (k m d : Nat) (hk : k ≤ m) : k * (d / m) ≤ d :=
  le_trans (Nat.mul_le_mul_right _ hk) (Nat.mul_div_le d m)

theorem mul_step_lt (k m d : Nat) (hk : k < m) (hm : m ≤ d) : k * (d / m) < d := by
  have hstep : 1 ≤ d / m := by
    have hmpos : 0 < m := by omega
    exact (Nat.le_div_iff_mul_le hmpos).2 (by omega)
  have h1 : (k + 1) * (d / m) ≤ d := mul_step_le (k + 1) m d hk
  have h2 : (k + 1) * (d / m) = k * (d / m) + d / m := by ring
  omega

/-- What `SlotSplit` returns for three or more slots out of a range that holds them:
the unwrapped values `start + i * step`, closed by `stop`. -/
theorem slotSplit_many (start stop n : Nat) (hle : start ≤ stop) (hs : stop < 2 ^ 32)
    (hn : 3 ≤ n) (hfit : n ≤ stop - start + 1) :
    SlotSplit start stop n = .ok (some (start ::
      ((List.range (n - 2)).map (fun j => start + (j + 1) * ((stop - start) / (n - 1))))
        ++ [stop])) := by
  have hsub := sub32_of_le stop start hle hs
  have hdiv : (n - 1) % 2 ^ 32 = n - 1 := by omega
  unfold SlotSplit
  rw [if_neg (by omega), hsub, if_neg (by omega)]
  simp only [if_pos hle, hsub]
  rw [if_neg (by omega), if_neg (by omega), hdiv, if_neg (by omega)]
  have hmap : (List.range (n - 2)).map
      (fun j => (start + ((j + 1) % 2 ^ 32 * ((stop - start) / (n - 1))) % 2 ^ 32) % 2 ^ 32)
      = (List.range (n - 2)).map (fun j => start + (j + 1) * ((stop - start) / (n - 1))) := by
    apply List.map_congr_left
    intro j hj
    have hj2 : j < n - 2 := List.mem_range.1 hj
    have hk : (j + 1) * ((stop - start) / (n - 1)) ≤ stop - start :=
      mul_step_le (j + 1) (n - 1) (stop - start) (by omega)
    have h1 : (j + 1) % 2 ^ 32 = j + 1 := by omega
    rw [h1]
    omega
  rw [hmap]

/-! ## Facts about the events of a heartbeat -/

theorem shape_const (p : Partition) (st : Store) (b : Bool) :
    pushesDeletesOnly (fun pm => ⟨⟨p, st, pm⟩, b⟩) :=
  ⟨p, st, b, [], (by intro ev h; cases h), fun _ => rfl⟩

theorem pushDelete_shape (p : Partition) (st : Store) (info : PartitionInfo) (now : Int)
    (leaderNodeId : Partition → Nat) :
    pushesDeletesOnly (fun pm => pushDelete ⟨p, st, pm⟩ info now leaderNodeId) := by
  cases ht : (p.takeChangeMemberTask now).2 with
  | false =>
    refine ⟨p, st, false, [], (by intro ev h; cases h), ?_⟩
    intro pm
    beta_reduce
    exact pushDelete_not_taken ⟨p, st, pm⟩ info now leaderNodeId ht
  | true =>
    have h1 := take_latched p now ht
    have hpair : p.takeChangeMemberTask now = (p.latched now, true) := by
      rw [← h1, ← ht]
    cases hr : pickReplicaToDelete (some info) with
    | error e =>
      refine ⟨p.latched now, st, true, [], (by intro ev h; cases h), ?_⟩
      intro pm
      beta_reduce
      unfold pushDelete
      simp only [hpair, hr]
      rfl
    | ok o =>
      cases o with
      | none =>
        refine ⟨p.latched now, st, false, [], (by intro ev h; cases h), ?_⟩
        intro pm
        beta_reduce
        unfold pushDelete
        simp only [hpair, hr]
        rfl
      | some r =>
        refine ⟨p.latched now, st, false,
          [NewPartitionDeleteEvent info.ID (leaderNodeId (p.latched now)) (some r)], ?_, ?_⟩
        · intro ev h
          simp only [List.mem_singleton] at h
          subst h
          exact Or.inl rfl
        · intro pm
          beta_reduce
          rw [pushDelete_taken ⟨p, st, pm⟩ info now leaderNodeId r ht hr]
          rfl

/-- The replica count check on a partition that has a replica pushes delete events
only. -/
theorem check_shape (p : Partition) (st : Store) (info : PartitionInfo) (now : Int)
    (hpos : 1 ≤ p.countReplicas) :
    pushesDeletesOnly (fun pm => checkReplicasCount ⟨p, st, pm⟩ info now) := by
  by_cases hc : p.countReplicas = FIXED_REPLICA_NUM
  · refine ⟨p, st, false, [], (by intro ev h; cases h), ?_⟩
    intro pm
    beta_reduce
    exact check_eq ⟨p, st, pm⟩ info now hc
  · have hgt : p.countReplicas > FIXED_REPLICA_NUM := by
      unfold FIXED_REPLICA_NUM at hc ⊢; omega
    obtain ⟨p2, st2, b, evs, hev, hf⟩ := pushDelete_shape p st info now (fun q => q.pickLeaderNodeId)
    beta_reduce at hf
    refine ⟨p2, st2, b, evs, hev, ?_⟩
    intro pm
    beta_reduce
    rw [check_gt ⟨p, st, pm⟩ info now hgt]
    exact hf pm

theorem updateGroupThenCheck_shape (marshal : MetaPartition → Option (List Nat))
    (p : Partition) (st : Store) (info : PartitionInfo) (now : Int) (putOk : Bool)
    (l : Replica) :
    pushesDeletesOnly (fun pm => updateGroupThenCheck marshal ⟨p, st, pm⟩ info now putOk l) := by
  cases hU : p.UpdateReplicaGroupByCond marshal st putOk now info (some l) with
  | error e =>
    refine ⟨p, st, true, [], (by intro ev h; cases h), ?_⟩
    intro pm
    beta_reduce
    unfold updateGroupThenCheck
    simp only [hU]
    rfl
  | ok r =>
    by_cases hcond : (r.verExpired || !r.updateOk) = true
    · refine ⟨r.partition, r.store, false, [], (by intro ev h; cases h), ?_⟩
      intro pm
      beta_reduce
      unfold updateGroupThenCheck
      simp only [hU, hcond, if_true]
      rfl
    · have hok : r.updateOk = true := by
        cases h : r.updateOk with
        | true => rfl
        | false => rw [h] at hcond; simp at hcond
      have hpos : 1 ≤ r.partition.countReplicas := by
        rcases update_cases marshal p st putOk now info (some l) r hU with
          ⟨_, _, h3⟩ | ⟨_, _, _, _, _, rs, _, hrep⟩
        · rw [h3] at hok; cases hok
        · unfold Partition.countReplicas
          rw [hrep]
          simp
      obtain ⟨p2, st2, b, evs, hev, hf⟩ := check_shape r.partition r.store info now hpos
      beta_reduce at hf
      refine ⟨p2, st2, b, evs, hev, ?_⟩
      intro pm
      beta_reduce
      rw [updateGroupThenCheck_ok marshal ⟨p, st, pm⟩ info now putOk l r hU hok]
      exact hf pm

/-- A heartbeat round for a known partition pushes delete events only, whatever the
state, the info, the clock and the store's answer. -/
theorem heartbeatKnown_shape (marshal : MetaPartition → Option (List Nat))
    (p : Partition) (st : Store) (info : PartitionInfo) (now : Int) (putOk : Bool) :
    pushesDeletesOnly (fun pm => heartbeatKnown marshal ⟨p, st, pm⟩ info now putOk) := by
  by_cases hlt : info.Epoch.ConfVersion < p.meta.Epoch.ConfVersion
  · obtain ⟨p2, st2, b, evs, hev, hf⟩ := pushDelete_shape p st info now (fun q => q.pickLeaderNodeId)
    refine ⟨p2, st2, b, evs, hev, ?_⟩
    intro pm
    beta_reduce
    rw [heartbeatKnown_stale marshal ⟨p, st, pm⟩ info now putOk hlt]
    exact hf pm
  · cases hl : pickLeaderReplica (some info) with
    | error e =>
      refine ⟨p, st, true, [], (by intro ev h; cases h), ?_⟩
      intro pm
      beta_reduce
      unfold heartbeatKnown
      simp only [hlt, if_false, hl]
      split <;> rfl
    | ok o =>
      cases o with
      | none =>
        refine ⟨p, st, false, [], (by intro ev h; cases h), ?_⟩
        intro pm
        beta_reduce
        unfold heartbeatKnown
        simp only [hlt, if_false, hl]
        split <;> rfl
      | some l =>
        by_cases hgt : info.Epoch.ConfVersion > p.meta.Epoch.ConfVersion
        · obtain ⟨p2, st2, b, evs, hev, hf⟩ :=
            updateGroupThenCheck_shape marshal p st info now putOk l
          refine ⟨p2, st2, b, evs, hev, ?_⟩
          intro pm
          beta_reduce
          rw [heartbeatKnown_newer marshal ⟨p, st, pm⟩ info now putOk l hgt hl]
          exact hf pm
        · have heq : info.Epoch.ConfVersion = p.meta.Epoch.ConfVersion := by omega
          by_cases hnone : p.Leader = none
          · obtain ⟨p2, st2, b, evs, hev, hf⟩ :=
              updateGroupThenCheck_shape marshal p st info now putOk l
            refine ⟨p2, st2, b, evs, hev, ?_⟩
            intro pm
            beta_reduce
            rw [heartbeatKnown_equal marshal ⟨p, st, pm⟩ info now putOk l heq hl, if_pos hnone]
            exact hf pm
          · by_cases hmem : l.ID ∈ p.meta.Replicas.map (fun r => r.ID)
            · have hpos : 1 ≤ ({ p with LastHeartbeat := now, Leader := some l } :
                  Partition).countReplicas := by
                unfold Partition.countReplicas
                obtain ⟨x, hx, _⟩ := List.mem_map.1 hmem
                exact List.length_pos_of_mem hx
              obtain ⟨p2, st2, b, evs, hev, hf⟩ :=
                check_shape { p with LastHeartbeat := now, Leader := some l } st info now hpos
              beta_reduce at hf
              refine ⟨p2, st2, b, evs, hev, ?_⟩
              intro pm
              beta_reduce
              rw [heartbeatKnown_equal marshal ⟨p, st, pm⟩ info now putOk l heq hl,
                if_neg hnone, if_pos hmem]
              exact hf pm
            · obtain ⟨p2, st2, b, evs, hev, hf⟩ :=
                pushDelete_shape p st info now (fun _ => l.NodeID)
              refine ⟨p2, st2, b, evs, hev, ?_⟩
              intro pm
              beta_reduce
              rw [heartbeatKnown_equal marshal ⟨p, st, pm⟩ info now putOk l heq hl,
                if_neg hnone, if_neg hmem]
              exact hf pm

theorem pushAll_append (pm : ProcessorManager) (a b : List ProcessorEvent) :
    pushAll (pushAll pm a) b = pushAll pm (a ++ b) := by
  unfold pushAll
  rw [List.foldl_append]

theorem heartbeatInfo_shape (marshal : MetaPartition → Option (List Nat)) (rpcAddr : String)
    (c : PartitionCache) (st : Store) (r : HbRound) :
    zmPushesDeletesOnly (fun pm => heartbeatInfo marshal rpcAddr ⟨c, st, pm⟩ r) := by
  cases hfind : c.FindPartitionById r.info.ID with
  | none =>
    cases hr : pickReplicaToDelete (some r.info) with
    | error e =>
      refine ⟨c, st, true, [], (by intro ev h; cases h), ?_⟩
      intro pm
      beta_reduce
      unfold heartbeatInfo
      simp only [hfind, hr]
      rfl
    | ok o =>
      cases o with
      | none =>
        refine ⟨c, st, false, [], (by intro ev h; cases h), ?_⟩
        intro pm
        beta_reduce
        unfold heartbeatInfo
        simp only [hfind, hr]
        rfl
      | some replica =>
        refine ⟨c, st, false,
          [NewForcePartitionDeleteEvent r.info.ID rpcAddr (some replica)], ?_, ?_⟩
        · intro ev h
          simp only [List.mem_singleton] at h
          subst h
          exact Or.inr rfl
        · intro pm
          beta_reduce
          unfold heartbeatInfo
          simp only [hfind, hr]
          rfl
  | some partitionMS =>
    obtain ⟨p2, st2, b, evs, hev, hf⟩ :=
      heartbeatKnown_shape marshal partitionMS st r.info r.now r.putOk
    beta_reduce at hf
    refine ⟨c.written r.info.ID p2, st2, b, evs, hev, ?_⟩
    intro pm
    beta_reduce
    unfold heartbeatInfo
    simp only [hfind]
    rw [hf pm]

theorem heartbeatLoop_shape (marshal : MetaPartition → Option (List Nat)) (rpcAddr : String)
    (rounds : List HbRound) :
    ∀ (c : PartitionCache) (st : Store),
      zmPushesDeletesOnly (fun pm => heartbeatLoop marshal rpcAddr ⟨c, st, pm⟩ rounds) := by
  induction rounds with
  | nil =>
    intro c st
    exact ⟨c, st, false, [], (by intro ev h; cases h), fun _ => rfl⟩
  | cons r rest ih =>
    intro c st
    obtain ⟨c1, st1, b1, evs1, hev1, hf1⟩ := heartbeatInfo_shape marshal rpcAddr c st r
    beta_reduce at hf1
    cases b1 with
    | true =>
      refine ⟨c1, st1, true, evs1, hev1, ?_⟩
      intro pm
      beta_reduce
      unfold heartbeatLoop
      rw [hf1 pm]
    | false =>
      obtain ⟨c2, st2, b2, evs2, hev2, hf2⟩ := ih c1 st1
      beta_reduce at hf2
      refine ⟨c2, st2, b2, evs1 ++ evs2, ?_, ?_⟩
      · intro ev h
        rcases List.mem_append.1 h with h | h
        · exact hev1 ev h
        · exact hev2 ev h
      · intro pm
        beta_reduce
        unfold heartbeatLoop
        rw [hf1 pm]
        dsimp only
        rw [hf2 (pushAll pm evs1), pushAll_append]

/-! ## Facts about byte strings and BytesPrefix -/

theorem bytesCompare_cons (a b : Nat) (x y : List Nat) :
    bytesCompare (a :: x) (b :: y)
      = if a < b then -1 else if b < a then 1 else bytesCompare x y := rfl

theorem bytesCompare_append_le (p t : List Nat) : bytesCompare p (p ++ t) ≤ 0 := by
  induction p with
  | nil => cases t <;> simp [bytesCompare]
  | cons x p ih =>
    rw [List.cons_append, bytesCompare_cons, if_neg (lt_irrefl x), if_neg (lt_irrefl x)]
    exact ih

theorem bytesCompare_succ_lt (a : List Nat) (c : Nat) (t : List Nat) :
    bytesCompare (a ++ c :: t) (a ++ [c + 1]) < 0 := by
  induction a with
  | nil =>
    rw [List.nil_append, List.nil_append, bytesCompare_cons, if_pos (Nat.lt_succ_self c)]
    decide
  | cons x a ih =>
    rw [List.cons_append, List.cons_append, bytesCompare_cons, if_neg (lt_irrefl x),
      if_neg (lt_irrefl x)]
    exact ih

/-- Below a string of 0xff bytes there are, among byte strings, only its extensions. -/
theorem bytesCompare_top (rest : List Nat) (hrest : ∀ b ∈ rest, b = 255) :
    ∀ t : List Nat, allBytes t → bytesCompare rest t ≤ 0 → ∃ u, t = rest ++ u := by
  induction rest with
  | nil => intro t _ _; exact ⟨t, rfl⟩
  | cons x r ih =>
    intro t ht hc
    have hx : x = 255 := hrest x (List.mem_cons_self _ _)
    cases t with
    | nil => simp [bytesCompare] at hc
    | cons d t2 =>
      have hd : d < 256 := ht d (List.mem_cons_self _ _)
      rw [bytesCompare_cons] at hc
      by_cases h1 : x < d
      · omega
      · rw [if_neg h1] at hc
        by_cases h2 : d < x
        · rw [if_pos h2] at hc
          omega
        · rw [if_neg h2] at hc
          have hxd : x = d := by omega
          obtain ⟨u, hu⟩ := ih (fun b hb => hrest b (List.mem_cons_of_mem _ hb)) t2
            (fun b hb => ht b (List.mem_cons_of_mem _ hb)) hc
          exact ⟨u, by rw [hu, hxd]; rfl⟩

theorem range_to_extension (a : List Nat) (c : Nat) (rest : List Nat)
    (hrest : ∀ b ∈ rest, b = 255) :
    ∀ k : List Nat, allBytes k → bytesCompare (a ++ c :: rest) k ≤ 0 →
      bytesCompare k (a ++ [c + 1]) < 0 → ∃ u, k = (a ++ c :: rest) ++ u := by
  induction a with
  | nil =>
    intro k hk h1 h2
    cases k with
    | nil => simp [bytesCompare] at h1
    | cons d t =>
      rw [List.nil_append, bytesCompare_cons] at h1 h2
      by_cases hcd : c < d
      · have : ¬ d < c + 1 := by omega
        rw [if_neg this] at h2
        by_cases h3 : c + 1 < d
        · rw [if_pos h3] at h2; omega
        · rw [if_neg h3] at h2
          cases t <;> simp [bytesCompare] at h2
      · rw [if_neg hcd] at h1
        by_cases hdc : d < c
        · rw [if_pos hdc] at h1; omega
        · rw [if_neg hdc] at h1
          have hxd : c = d := by omega
          obtain ⟨u, hu⟩ := bytesCompare_top rest hrest t
            (fun b hb => hk b (List.mem_cons_of_mem _ hb)) h1
          exact ⟨u, by rw [hu, hxd]; rfl⟩
  | cons x a ih =>
    intro k hk h1 h2
    cases k with
    | nil => simp [bytesCompare] at h1
    | cons d t =>
      rw [List.cons_append, bytesCompare_cons] at h1 h2
      by_cases hxd : x < d
      · have : ¬ d < x := by omega
        rw [if_neg this, if_pos hxd] at h2
        omega
      · rw [if_neg hxd] at h1
        by_cases hdx : d < x
        · rw [if_pos hdx] at h1; omega
        · rw [if_neg hdx] at h1
          rw [if_neg hdx, if_neg hxd] at h2
          have hxd : x = d := by omega
          obtain ⟨u, hu⟩ := ih t (fun b hb => hk b (List.mem_cons_of_mem _ hb)) h1 h2
          exact ⟨u, by rw [hu, hxd]; rfl⟩

theorem take_succ_set (x : Nat) : ∀ (pre : List Nat) (n : Nat), n < pre.length →
    (pre.take (n + 1)).set n x = pre.take n ++ [x] := by
  intro pre
  induction pre with
  | nil => intro n h; simp at h
  | cons y ys ih =>
    intro n h
    cases n with
    | zero => simp
    | succ m =>
      have hm : m < ys.length := by simpa using h
      simp [ih m hm]

/-- What the loop of `BytesPrefix` computes: the prefix is `a ++ c :: rest` with `c`
below 0xff and `rest` all 0xff and the limit is `a ++ [c + 1]`, or the prefix is all 0xff
and the limit is nil. -/
theorem bytesPrefixLimit_cases (pre : List Nat) (hpre : allBytes pre) :
    ∀ n : Nat, n ≤ pre.length → (∀ b ∈ pre.drop n, b = 255) →
      (∃ a c rest, pre = a ++ c :: rest ∧ c < 255 ∧ (∀ b ∈ rest, b = 255) ∧
        bytesPrefixLimit pre n = a ++ [c + 1]) ∨
      ((∀ b ∈ pre, b = 255) ∧ bytesPrefixLimit pre n = []) := by
  intro n
  induction n with
  | zero =>
    intro _ h
    exact Or.inr ⟨by simpa using h, rfl⟩
  | succ n ih =>
    intro hn h
    have hlt : n < pre.length := hn
    have hget : pre.getD n 0 = pre[n] := by
      rw [List.getD_eq_getElem?_getD, List.getElem?_eq_getElem hlt]
      rfl
    have hdrop : pre.drop n = pre[n] :: pre.drop (n + 1) := List.drop_eq_getElem_cons hlt
    unfold bytesPrefixLimit
    simp only [hget]
    by_cases hc : pre[n] < 255
    · rw [if_pos hc]
      refine Or.inl ⟨pre.take n, pre[n], pre.drop (n + 1), ?_, hc, h, take_succ_set _ pre n hlt⟩
      rw [← hdrop, List.take_append_drop]
    · rw [if_neg hc]
      have hb : pre[n] < 256 := hpre _ (List.getElem_mem _)
      apply ih (Nat.le_of_lt hlt)
      intro b hb2
      rw [hdrop] at hb2
      rcases List.mem_cons.1 hb2 with h3 | h3
      · rw [h3]; omega
      · exact h b h3

theorem bytesHasPrefix_iff (k pre : List Nat) :
    bytesHasPrefix k pre = true ↔ ∃ u, k = pre ++ u := by
  unfold bytesHasPrefix
  rw [List.isPrefixOf_iff_prefix]
  constructor
  · rintro ⟨u, hu⟩; exact ⟨u, hu.symm⟩
  · rintro ⟨u, hu⟩; exact ⟨u, hu.symm⟩

/-- The range of `BytesPrefix` holds the extensions of the prefix. -/
theorem keyInRange_of_extension (pre u : List Nat) (hpre : allBytes pre) :
    keyInRange (BytesPrefix pre).1 (BytesPrefix pre).2 (pre ++ u) := by
  refine ⟨bytesCompare_append_le pre u, ?_⟩
  rcases bytesPrefixLimit_cases pre hpre pre.length (le_refl _) (by simp) with
    ⟨a, c, rest, h1, _, _, h4⟩ | ⟨_, h2⟩
  · right
    show bytesCompare (pre ++ u) (bytesPrefixLimit pre pre.length) < 0
    rw [h4]
    have := bytesCompare_succ_lt a c (rest ++ u)
    rw [h1]
    simpa using this
  · left
    exact h2

/-- The range of `BytesPrefix` holds no byte string but the extensions of the prefix. -/
theorem extension_of_keyInRange (pre k : List Nat) (hpre : allBytes pre) (hk : allBytes k)
    (h : keyInRange (BytesPrefix pre).1 (BytesPrefix pre).2 k) : ∃ u, k = pre ++ u := by
  obtain ⟨hlow, hup⟩ := h
  change bytesCompare pre k ≤ 0 at hlow
  change bytesPrefixLimit pre pre.length = [] ∨
    bytesCompare k (bytesPrefixLimit pre pre.length) < 0 at hup
  rcases bytesPrefixLimit_cases pre hpre pre.length (le_refl _) (by simp) with
    ⟨a, c, rest, h1, _, h3, h4⟩ | ⟨h1, _⟩
  · rw [h4] at hup
    rcases hup with hup | hup
    · simp at hup
    · rw [h1] at hlow ⊢
      exact range_to_extension a c rest h3 k hk hlow hup
  · exact bytesCompare_top pre h1 k hk hlow

theorem asciiBytes_append (a b : String) :
    asciiBytes (a ++ b) = asciiBytes a ++ asciiBytes b := by
  unfold asciiBytes
  rw [String.toList, String.data_append, List.map_append]
  rfl

/-! ## Facts about the order of byte strings and the range iterator -/

theorem bytesCompare_nil_right (k : List Nat) : 0 ≤ bytesCompare k [] := by
  cases k <;> simp [bytesCompare]

theorem bytesCompare_self (k : List Nat) : bytesCompare k k = 0 := by
  induction k with
  | nil => rfl
  | cons x k ih => rw [bytesCompare_cons, if_neg (lt_irrefl x), if_neg (lt_irrefl x)]; exact ih

theorem bytesCompare_lt_trans : ∀ a b c : List Nat,
    bytesCompare a b < 0 → bytesCompare b c < 0 → bytesCompare a c < 0 := by
  intro a
  induction a with
  | nil =>
    intro b c h1 h2
    cases c with
    | nil =>
      cases b with
      | nil => simp [bytesCompare] at h1
      | cons y b => simp [bytesCompare] at h2
    | cons z c => simp [bytesCompare]
  | cons x a ih =>
    intro b c h1 h2
    cases b with
    | nil => simp [bytesCompare] at h1
    | cons y b =>
      cases c with
      | nil => simp [bytesCompare] at h2
      | cons z c =>
        rw [bytesCompare_cons] at h1 h2 ⊢
        split_ifs at h1 h2 ⊢ <;> first | omega | exact ih _ _ h1 h2

theorem bytesCompare_eq_zero : ∀ a b : List Nat, bytesCompare a b = 0 → a = b := by
  intro a
  induction a with
  | nil =>
    intro b h
    cases b with
    | nil => rfl
    | cons y b => simp [bytesCompare] at h
  | cons x a ih =>
    intro b h
    cases b with
    | nil => simp [bytesCompare] at h
    | cons y b =>
      rw [bytesCompare_cons] at h
      split_ifs at h with h1 h2
      · omega
      · have hxy : x = y := by omega
        rw [hxy, ih b h]

theorem bytesCompare_le_lt (a b c : List Nat) (h1 : bytesCompare a b ≤ 0)
    (h2 : bytesCompare b c < 0) : bytesCompare a c < 0 := by
  rcases lt_or_eq_of_le h1 with h | h
  · exact bytesCompare_lt_trans a b c h h2
  · rw [bytesCompare_eq_zero a b h]; exact h2

theorem bytesCompare_swap : ∀ a b : List Nat, ¬ bytesCompare a b ≤ 0 → bytesCompare b a < 0 := by
  intro a
  induction a with
  | nil =>
    intro b h
    cases b <;> simp [bytesCompare] at h
  | cons x a ih =>
    intro b h
    cases b with
    | nil => simp [bytesCompare]
    | cons y b =>
      rw [bytesCompare_cons] at h ⊢
      split_ifs at h ⊢ <;> first | omega | exact ih _ h

theorem filter_eq_takeWhile {α : Type} (P : α → Bool) (r : α → α → Prop)
    (hdown : ∀ a b, r a b → P b = true → P a = true) :
    ∀ l : List α, l.Pairwise r → l.filter P = l.takeWhile P := by
  intro l
  induction l with
  | nil => intro _; rfl
  | cons x xs ih =>
    intro hs
    rw [List.pairwise_cons] at hs
    cases hx : P x with
    | true =>
      rw [List.filter_cons_of_pos hx, List.takeWhile_cons_of_pos hx, ih hs.2]
    | false =>
      rw [List.filter_cons_of_neg (by simp [hx]), List.takeWhile_cons_of_neg (by simp [hx])]
      rw [List.filter_eq_nil_iff]
      intro y hy hPy
      have := hdown x y (hs.1 y hy) hPy
      rw [hx] at this
      cases this

theorem belowStop_down (stop : Option (List Nat)) (a b : List Nat)
    (h : bytesCompare a b < 0) (hb : belowStop stop b = true) : belowStop stop a = true := by
  cases stop with
  | none => rfl
  | some e =>
    unfold belowStop at hb ⊢
    simp only [decide_eq_true_eq] at hb ⊢
    exact bytesCompare_lt_trans a b e h hb

theorem iterAt_fields (c : List (List Nat × List Nat)) (s e : Option (List Nat)) (p : Nat) :
    (iterAt c s e p).iter = ⟨c, p⟩ ∧ (iterAt c s e p).pre = none ∧
    (iterAt c s e p).start = s ∧ (iterAt c s e p).stop = e := by
  unfold iterAt
  split <;> exact ⟨rfl, rfl, rfl, rfl⟩

theorem readCurrent_eq (i : Iterator) (h : i.pre = none) :
    i.readCurrent = iterAt i.iter.content i.start i.stop i.iter.pos := by
  obtain ⟨⟨c, p⟩, pre, s, e, v, k, vl⟩ := i
  simp only at h
  subst h
  unfold Iterator.readCurrent iterAt Cursor.Valid Cursor.Key Cursor.Value
  by_cases hp : p < c.length
  · simp only [hp, decide_True, if_true, List.getD_eq_getElem?_getD,
      List.getElem?_eq_getElem hp, Option.getD_some, Iterator.updateValid]
    cases e <;> rfl
  · simp only [hp, decide_False, Bool.false_eq_true, if_false,
      List.getElem?_eq_none (not_lt.1 hp), Iterator.updateValid]

theorem seekTarget_none (k : List Nat) : seekTarget none k = k := by
  unfold seekTarget
  rw [if_neg]
  have := bytesCompare_nil_right k
  simp only [Option.getD_none]
  omega

theorem seek_eq (i : Iterator) (h : i.pre = none) (k : List Nat) :
    i.Seek k = iterAt i.iter.content i.start i.stop
      (i.iter.content.findIdx (fun kv => decide (bytesCompare (seekTarget i.start k) kv.1 ≤ 0))) := by
  unfold Iterator.Seek
  simp only [h]
  rw [readCurrent_eq]
  · cases hs : i.start with
    | none => simp only [seekTarget_none]; rfl
    | some s => rfl
  · rfl

theorem next_eq (ct : List (List Nat × List Nat)) (s e : Option (List Nat)) (p : Nat) :
    (iterAt ct s e p).Next = iterAt ct s e (p + 1) := by
  obtain ⟨h1, h2, h3, h4⟩ := iterAt_fields ct s e p
  unfold Iterator.Next
  rw [readCurrent_eq]
  · simp only [h1, h3, h4, Cursor.Next]
  · exact h2

theorem visit_iterAt (ct : List (List Nat × List Nat)) (s e : Option (List Nat)) :
    ∀ (fuel p : Nat), ct.length < fuel + p →
      visit fuel (iterAt ct s e p) = (ct.drop p).takeWhile (fun kv => belowStop e kv.1) := by
  intro fuel
  induction fuel with
  | zero =>
    intro p hp
    rw [List.drop_eq_nil_of_le (by omega)]
    rfl
  | succ fuel ih =>
    intro p hp
    unfold visit
    by_cases hlt : p < ct.length
    · have hget : ct[p]? = some ct[p] := List.getElem?_eq_getElem hlt
      rw [List.drop_eq_getElem_cons hlt, next_eq, ih (p + 1) (by omega)]
      unfold iterAt
      simp only [hget]
      rw [List.takeWhile_cons]
      cases hb : belowStop e ct[p].1 with
      | true => rfl
      | false => rfl
    · rw [List.drop_eq_nil_of_le (by omega)]
      unfold iterAt
      simp only [List.getElem?_eq_none (not_lt.1 hlt)]
      rfl

theorem take_findIdx_false {α : Type} (P : α → Bool) :
    ∀ (l : List α) (x : α), x ∈ l.take (l.findIdx P) → P x = false := by
  intro l
  induction l with
  | nil => intro x hx; simp at hx
  | cons b l ih =>
    intro x hx
    rw [List.findIdx_cons] at hx
    cases hb : P b with
    | true => rw [hb] at hx; simp at hx
    | false =>
      rw [hb] at hx
      simp only [cond_false, List.take_succ_cons, List.mem_cons] at hx
      rcases hx with h | h
      · rw [h]; exact hb
      · exact ih x h

theorem drop_findIdx_true {α : Type} (P : α → Bool) (r : α → α → Prop)
    (hup : ∀ a b, r a b → P a = true → P b = true) :
    ∀ (l : List α), l.Pairwise r → ∀ x, x ∈ l.drop (l.findIdx P) → P x = true := by
  intro l
  induction l with
  | nil => intro _ x hx; simp at hx
  | cons b l ih =>
    intro hs x hx
    rw [List.pairwise_cons] at hs
    rw [List.findIdx_cons] at hx
    cases hb : P b with
    | true =>
      rw [hb] at hx
      simp only [cond_true, List.drop_zero, List.mem_cons] at hx
      rcases hx with h | h
      · rw [h]; exact hb
      · exact hup b x (hs.1 x h) hb
    | false =>
      rw [hb] at hx
      simp only [cond_false, List.drop_succ_cons] at hx
      exact ih hs.2 x hx

theorem aboveStart_up (start : Option (List Nat)) (a b : List Nat)
    (h : bytesCompare a b < 0) (ha : aboveStart start a = true) : aboveStart start b = true := by
  unfold aboveStart at ha ⊢
  simp only [decide_eq_true_eq] at ha ⊢
  exact le_of_lt (bytesCompare_le_lt _ a b ha h)

theorem seekTarget_start (start : Option (List Nat)) :
    seekTarget start (start.getD []) = start.getD [] := by
  unfold seekTarget
  rw [bytesCompare_self, if_neg (lt_irrefl _)]

theorem rangeIterator_eq (ct : List (List Nat × List Nat)) (start stop : Option (List Nat)) :
    RangeIterator ct start stop
      = iterAt ct start stop (ct.findIdx (fun kv => aboveStart start kv.1)) := by
  unfold RangeIterator
  simp only
  rw [seek_eq _ rfl]
  simp only [seekTarget_start]
  rfl

theorem rangeIterator_steps (ct : List (List Nat × List Nat)) (start stop : Option (List Nat))
    (hs : sortedKeys ct) (fuel : Nat) (hf : ct.length < fuel) :
    visit fuel (RangeIterator ct start stop)
      = ct.filter (fun kv => aboveStart start kv.1 && belowStop stop kv.1) := by
  rw [rangeIterator_eq, visit_iterAt ct start stop fuel _ (by omega)]
  have hsplit := List.take_append_drop (ct.findIdx (fun kv => aboveStart start kv.1)) ct
  generalize hp : ct.findIdx (fun kv => aboveStart start kv.1) = p0 at hsplit ⊢
  have hbefore : ∀ x ∈ ct.take p0, aboveStart start x.1 = false := by
    intro x hx
    rw [← hp] at hx
    exact take_findIdx_false (fun kv => aboveStart start kv.1) ct x hx
  have hafter : ∀ x ∈ ct.drop p0, aboveStart start x.1 = true := by
    intro x hx
    rw [← hp] at hx
    exact drop_findIdx_true (fun kv : List Nat × List Nat => aboveStart start kv.1)
      (fun a b : List Nat × List Nat => bytesCompare a.1 b.1 < 0)
      (fun a b hab ha => aboveStart_up start a.1 b.1 hab ha) ct hs x hx
  have hsorted : (ct.drop p0).Pairwise (fun a b => bytesCompare a.1 b.1 < 0) :=
    List.Pairwise.sublist (List.drop_sublist p0 ct) hs
  conv_rhs => rw [← hsplit]
  rw [List.filter_append]
  have h1 : (ct.take p0).filter (fun kv => aboveStart start kv.1 && belowStop stop kv.1) = [] := by
    rw [List.filter_eq_nil_iff]
    intro x hx
    rw [hbefore x hx]
    simp
  have h2 : (ct.drop p0).filter (fun kv => aboveStart start kv.1 && belowStop stop kv.1)
      = (ct.drop p0).filter (fun kv => belowStop stop kv.1) := by
    apply List.filter_congr
    intro x hx
    rw [hafter x hx]
    simp
  rw [h1, h2, List.nil_append]
  exact (filter_eq_takeWhile (fun kv : List Nat × List Nat => belowStop stop kv.1)
    (fun a b : List Nat × List Nat => bytesCompare a.1 b.1 < 0)
    (fun a b hab hb => belowStop_down stop a.1 b.1 hab hb) _ hsorted).symm

theorem rangeIterator_seek (ct : List (List Nat × List Nat)) (start stop : Option (List Nat))
    (k : List Nat) :
    (RangeIterator ct start stop).Seek k
      = iterAt ct start stop
          (ct.findIdx (fun kv => decide (bytesCompare (seekTarget start k) kv.1 ≤ 0))) := by
  obtain ⟨h1, h2, h3, h4⟩ :=
    iterAt_fields ct start stop (ct.findIdx (fun kv => aboveStart start kv.1))
  rw [rangeIterator_eq, seek_eq _ h2]
  simp only [h1, h3, h4]

/-! ## Facts about the partition map of the server -/

theorem mapLoad_delete {σ : Type} (m : List (Nat × σ)) (id : Nat) :
    mapLoad (mapDelete m id) id = none := by
  unfold mapLoad mapDelete
  rw [Option.map_eq_none', List.find?_eq_none]
  intro x hx
  have := (List.mem_filter.1 hx).2
  simpa using this

theorem mapLoad_store {σ : Type} (m : List (Nat × σ)) (id : Nat) (v : σ) :
    mapLoad (mapStore m id v) id = some v := by
  unfold mapLoad mapStore
  simp

/-- Creating a partition whose ID is free leaves the started store in the map and the
server running. -/
theorem doPartitionCreate_free {σ : Type} (ops : PartitionStoreOps σ) (s : Server σ)
    (p : MetaPartition) (h : mapLoad s.partitions p.ID = none) :
    mapLoad (doPartitionCreate ops s p).partitions p.ID = some (ops.Start (ops.build p)) ∧
    (doPartitionCreate ops s p).stopping = s.stopping := by
  unfold doPartitionCreate
  simp only [h]
  exact ⟨mapLoad_store _ _ _, trivial⟩

/-- A create request on a hosted store whose status is not INVALID changes nothing. -/
theorem doAdminEvent_hosted {σ : Type} (ops : PartitionStoreOps σ) (s : Server σ)
    (p : MetaPartition) (st : σ) (hload : mapLoad s.partitions p.ID = some st)
    (hstatus : (ops.GetMeta st).Status ≠ PartitionStatus.PA_INVALID) :
    doAdminEvent ops s (.CreatePartitionRequest p) = s := by
  unfold doAdminEvent
  split
  · rfl
  · simp only [hload, hstatus, ne_eq, not_false_eq_true, if_true]

/-! ## Claims -/

/-- C1: in a partition tree whose partitions have non-empty, pairwise-disjoint
slot intervals, `search q` returns a partition iff some partition of the tree
contains `q`, and the partition returned is exactly the one containing `q`. -/
theorem search_returns_containing (t : PartitionTree) (ho : t.ordered) (hne : t.nonEmpty)
    (hd : t.disjoint) (q : Nat) :
    ((∃ p, t.search q = some p) ↔ ∃ p ∈ t.items, PartitionItem.Contains p q = true) ∧
    (∀ p, t.search q = some p ↔ (p ∈ t.items ∧ PartitionItem.Contains p q = true)) := by
  have key : ∀ p, t.search q = some p ↔ (p ∈ t.items ∧ PartitionItem.Contains p q = true) := by
    intro p
    constructor
    · intro h
      have hm := find_mem t (slotProbe q) p h
      refine ⟨hm.1, ?_⟩
      rw [contains_iff]
      exact ⟨hm.2.1, hm.2.2⟩
    · rintro ⟨hp, hc⟩
      exact find_of_contains t ho hne hd (slotProbe q) p hp hc
  refine ⟨?_, key⟩
  constructor
  · rintro ⟨p, h⟩
    exact ⟨p, (key p).1 h⟩
  · rintro ⟨p, hp, hc⟩
    exact ⟨p, (key p).2 ⟨hp, hc⟩⟩

/-- C1 at the routing example A = [0,100), B = [100,250), C = [300,500): slot 249 is
found in B, and slot 250, which lies in the gap, is not found. -/
theorem search_returns_containing_witness :
    treeABC.search 249 = some (mkPart 2 100 250) ∧ treeABC.search 250 = none ∧
    (((∃ p, treeABC.search 249 = some p) ↔
        ∃ p ∈ treeABC.items, PartitionItem.Contains p 249 = true) ∧
      (∀ p, treeABC.search 249 = some p ↔
        (p ∈ treeABC.items ∧ PartitionItem.Contains p 249 = true))) :=
  ⟨by decide, by decide,
    search_returns_containing treeABC (by unfold PartitionTree.ordered; decide)
      (by unfold PartitionTree.nonEmpty; decide) (by unfold PartitionTree.disjoint; decide) 249⟩

/-- C4, as stated, fails for a count that `make` cannot allocate: `multipleSearch`
allocates its result with capacity `n` whatever the tree holds, so with the count 2^62,
above every capacity the Go runtime accepts, it panics on every tree and slot and on
every machine, the routing example included. -/
theorem multipleSearch_huge_counterexample :
    treeABC.multipleSearch (2 ^ 45) 50 (2 ^ 62) = .error "makeslice: cap out of range" ∧
    (∀ (capLimit : Nat) (t : PartitionTree) (q : Nat),
      t.multipleSearch capLimit q (2 ^ 62) = .error "makeslice: cap out of range") ∧
    ¬ ∃ l, treeABC.multipleSearch (2 ^ 45) 50 (2 ^ 62) = .ok l := by
  have hgen : ∀ (capLimit : Nat) (t : PartitionTree) (q : Nat),
      t.multipleSearch capLimit q (2 ^ 62) = .error "makeslice: cap out of range" := by
    intro capLimit t q
    apply multipleSearch_panics
    unfold makePanics maxSliceCap
    rw [decide_eq_true_iff]
    right
    left
    norm_num
  refine ⟨hgen _ _ _, hgen, ?_⟩
  rintro ⟨l, hl⟩
  rw [hgen _ _ _] at hl
  cases hl

/-- C4, amended: in a tree with non-empty pairwise-disjoint intervals, for every slot
`q` and every count `n ≥ 1` that `make` can allocate as a slice capacity (at most 2^45
and at most what the machine has the memory for),
`multipleSearch q n` returns a list that is empty when no partition contains `q`;
otherwise it starts with the partition containing `q`, each later element starts at the
end slot of the one before, start slots increase, and the list has fewer than `n`
elements only if no partition of the tree starts at the end slot of its last element. -/
theorem multipleSearch_contiguous (t : PartitionTree) (ho : t.ordered) (hne : t.nonEmpty)
    (hd : t.disjoint) (capLimit : Nat) (q : Nat) (n : Int) (hn : 1 ≤ n)
    (hmax : n ≤ 2 ^ 45) (hcap : n ≤ capLimit) :
    ∃ l, t.multipleSearch capLimit q n = .ok l ∧
      ((¬ ∃ p ∈ t.items, PartitionItem.Contains p q = true) → l = []) ∧
      (∀ p ∈ t.items, PartitionItem.Contains p q = true → l.head? = some p) ∧
      l.Chain' (fun a b => b.StartSlot = a.EndSlot) ∧
      l.Pairwise (fun a b => a.StartSlot < b.StartSlot) ∧
      (∀ x ∈ l, x ∈ t.items) ∧
      ((l.length : Int) < n → ∀ last, l.getLast? = some last →
        ¬ ∃ x ∈ t.items, x.StartSlot = last.EndSlot) := by
  refine ⟨_, multipleSearch_pos t capLimit q n hn hmax hcap, ?_⟩
  cases hfind : t.find (slotProbe q) with
  | none =>
    refine ⟨fun _ => rfl, ?_, List.chain'_nil, List.Pairwise.nil, ?_, ?_⟩
    · intro p hp hc
      have := find_of_contains t ho hne hd (slotProbe q) p hp hc
      rw [hfind] at this; cases this
    · intro x hx; cases hx
    · intro _ last hl; simp at hl
  | some f =>
    have hfm := find_mem t (slotProbe q) f hfind
    obtain ⟨tl, hD⟩ := descend_head t ho f hfm.1
    have hk : n.toNat = (n.toNat - 1) + 1 := by omega
    have hpre := contigPrefix_initial
      ((btDescendLessOrEqual PartitionItem.Less t.items f).take n.toNat) none
    have hsub : (contigPrefix none
        ((btDescendLessOrEqual PartitionItem.Less t.items f).take n.toNat)).Sublist
        (btDescendLessOrEqual PartitionItem.Less t.items f) :=
      hpre.sublist.trans (List.take_sublist _ _)
    refine ⟨?_, ?_, (contigPrefix_chain _ none).1, (descend_pairwise t ho f).sublist hsub, ?_, ?_⟩
    · intro hno
      exact absurd ⟨f, hfm.1, (contains_iff f q).2 ⟨hfm.2.1, hfm.2.2⟩⟩ hno
    · intro p hp hc
      have := find_of_contains t ho hne hd (slotProbe q) p hp hc
      rw [hfind] at this
      cases this
      show (contigPrefix none
        ((btDescendLessOrEqual PartitionItem.Less t.items f).take n.toNat)).head? = some f
      rw [hD, hk, List.take_succ_cons]
      exact contigPrefix_head_none _ _
    · intro x hx
      exact ((mem_descend t.items f x).1 (hsub.subset hx)).1
    · intro hlen last hlast
      obtain ⟨suf, hsuf⟩ := hpre
      by_cases hs : suf = []
      · subst hs
        rw [List.append_nil] at hsuf
        have hlen2 : ((btDescendLessOrEqual PartitionItem.Less t.items f).take n.toNat).length
            < n.toNat := by
          rw [← hsuf]
          have : ((contigPrefix none
            ((btDescendLessOrEqual PartitionItem.Less t.items f).take n.toNat)).length : Int)
              < n := hlen
          omega
        have hall : (btDescendLessOrEqual PartitionItem.Less t.items f).take n.toNat
            = btDescendLessOrEqual PartitionItem.Less t.items f := by
          apply List.take_of_length_le
          rw [List.length_take] at hlen2
          omega
        refine no_successor t ho hne hd f _ [] last ?_ hlast ?_
        · rw [List.append_nil]
          show _ = contigPrefix none
            ((btDescendLessOrEqual PartitionItem.Less t.items f).take n.toNat)
          rw [hsuf, hall]
        · intro r rest h; cases h
      · obtain ⟨r, rest, rfl⟩ := List.exists_cons_of_ne_nil hs
        have hmax := contigPrefix_maximal _ none r rest hsuf.symm last.EndSlot
          (lastEnd_getLast _ none last hlast)
        refine no_successor t ho hne hd f _
          (r :: rest ++ (btDescendLessOrEqual PartitionItem.Less t.items f).drop n.toNat)
          last ?_ hlast ?_
        · show _ = contigPrefix none
            ((btDescendLessOrEqual PartitionItem.Less t.items f).take n.toNat) ++ _
          rw [← List.append_assoc, hsuf, List.take_append_drop]
        · intro r2 rest2 h
          simp only [List.cons_append, List.cons.injEq] at h
          rw [← h.1]; exact hmax

/-- C4, amended, at the routing example on a machine that allocates up to 1024
pointers: with A = [0,100), B = [100,250), C = [300,500), `multipleSearch 50 10` is
`[A, B]`. -/
theorem multipleSearch_contiguous_witness :
    treeABC.multipleSearch 1024 50 10 = .ok [mkPart 1 0 100, mkPart 2 100 250] ∧
    treeABC.ordered ∧ treeABC.nonEmpty ∧ treeABC.disjoint ∧
    ∃ l, treeABC.multipleSearch 1024 50 10 = .ok l ∧
      ((¬ ∃ p ∈ treeABC.items, PartitionItem.Contains p 50 = true) → l = []) ∧
      (∀ p ∈ treeABC.items, PartitionItem.Contains p 50 = true → l.head? = some p) ∧
      l.Chain' (fun a b => b.StartSlot = a.EndSlot) ∧
      l.Pairwise (fun a b => a.StartSlot < b.StartSlot) ∧
      (∀ x ∈ l, x ∈ treeABC.items) ∧
      ((l.length : Int) < 10 → ∀ last, l.getLast? = some last →
        ¬ ∃ x ∈ treeABC.items, x.StartSlot = last.EndSlot) :=
  ⟨rfl, by unfold PartitionTree.ordered; decide,
    by unfold PartitionTree.nonEmpty; decide,
    by unfold PartitionTree.disjoint; decide,
    multipleSearch_contiguous treeABC (by unfold PartitionTree.ordered; decide)
      (by unfold PartitionTree.nonEmpty; decide) (by unfold PartitionTree.disjoint; decide)
      1024 50 10 (by decide) (by decide) (by decide)⟩

/-- C5, as stated, fails at both ends of the counts. For the count 0 the scan stops when
its counter EQUALS the count, which never happens, so `multipleSearch 50 0` on the tree
A = [0,100), B = [100,250), C = [300,500) returns the two partitions A and B. For a
count that `make` cannot allocate, such as 2^62, the call panics and returns no list. -/
theorem multipleSearch_zero_counterexample :
    treeABC.multipleSearch 1024 50 0 = .ok [mkPart 1 0 100, mkPart 2 100 250] ∧
    (¬ ∃ l, treeABC.multipleSearch 1024 50 0 = .ok l ∧ (l.length : Int) ≤ 0) ∧
    treeABC.multipleSearch (2 ^ 45) 50 (2 ^ 62) = .error "makeslice: cap out of range" ∧
    ¬ ∃ l, treeABC.multipleSearch (2 ^ 45) 50 (2 ^ 62) = .ok l ∧
      (l.length : Int) ≤ 2 ^ 62 := by
  have h : treeABC.multipleSearch 1024 50 0 = .ok [mkPart 1 0 100, mkPart 2 100 250] := rfl
  have h2 : treeABC.multipleSearch (2 ^ 45) 50 (2 ^ 62)
      = .error "makeslice: cap out of range" := by
    apply multipleSearch_panics
    unfold makePanics maxSliceCap
    rw [decide_eq_true_iff]
    right
    left
    norm_num
  refine ⟨h, ?_, h2, ?_⟩
  · rintro ⟨l, hl, hlen⟩
    rw [h] at hl
    cases hl
    simp at hlen
  · rintro ⟨l, hl, _⟩
    rw [h2] at hl
    cases hl

/-- C5, amended: for every partition tree, every slot and every count `n ≥ 1` that
`make` can allocate as a slice capacity (at most 2^45 and at most what the machine has
the memory for), `multipleSearch slot n` returns at most `n` partitions; and `GetRoute`, which calls it with the count 10, never answers with more
than 10 routes, and does answer wherever `make` allocates 10 pointers. -/
theorem multipleSearch_length_le (t : PartitionTree) (capLimit : Nat) (q : Nat) (n : Int)
    (hn : 1 ≤ n) (hmax : n ≤ 2 ^ 45) (hcap : n ≤ capLimit) :
    (∃ l, t.multipleSearch capLimit q n = .ok l ∧ (l.length : Int) ≤ n) ∧
    (∀ (findDbById : Nat → Option (Nat → Option PartitionTree))
        (findServerById : Nat → Option Node) (db space slot : Nat),
      (∀ resp, GetRoute capLimit findDbById findServerById db space slot = .ok resp →
        resp.Routes.length ≤ 10) ∧
      (10 ≤ capLimit →
        ∃ resp, GetRoute capLimit findDbById findServerById db space slot = .ok resp ∧
          resp.Routes.length ≤ 10)) := by
  have key : ∀ (t : PartitionTree) (q : Nat) (n : Int), 1 ≤ n → n ≤ 2 ^ 45 → n ≤ capLimit →
      ∃ l, t.multipleSearch capLimit q n = .ok l ∧ (l.length : Int) ≤ n := by
    intro t q n hn hmax hcap
    refine ⟨_, multipleSearch_pos t capLimit q n hn hmax hcap, ?_⟩
    cases hfind : t.find (slotProbe q) with
    | none => simp; omega
    | some f =>
      have h1 := (contigPrefix_initial
        ((btDescendLessOrEqual PartitionItem.Less t.items f).take n.toNat) none).length_le
      have h2 := List.length_take_le n.toNat (btDescendLessOrEqual PartitionItem.Less t.items f)
      show ((contigPrefix none
        ((btDescendLessOrEqual PartitionItem.Less t.items f).take n.toNat)).length : Int) ≤ n
      omega
  have route : ∀ (findDbById : Nat → Option (Nat → Option PartitionTree))
      (findServerById : Nat → Option Node) (db space slot : Nat), 10 ≤ capLimit →
      ∃ resp, GetRoute capLimit findDbById findServerById db space slot = .ok resp ∧
        resp.Routes.length ≤ 10 := by
    intro findDbById findServerById db space slot h10
    unfold GetRoute
    cases h1 : findDbById db with
    | none => exact ⟨⟨.ErrDbNotExists, []⟩, rfl, by simp⟩
    | some spaceCache =>
      dsimp only
      cases h2 : spaceCache space with
      | none => exact ⟨⟨.ErrSpaceNotExists, []⟩, rfl, by simp⟩
      | some searchTree =>
        obtain ⟨l, hl, hlen⟩ := key searchTree slot 10 (by decide) (by norm_num)
          (by exact_mod_cast h10)
        dsimp only
        simp only [hl]
        by_cases h0 : l.length = 0
        · exact ⟨⟨.ErrRouteNotFound, []⟩, by simp [h0], by simp⟩
        · simp only [h0, if_false]
          refine ⟨_, rfl, ?_⟩
          simp only [List.length_map]
          omega
  refine ⟨key t q n hn hmax hcap, ?_⟩
  intro findDbById findServerById db space slot
  refine ⟨?_, route findDbById findServerById db space slot⟩
  intro resp hresp
  by_cases h10 : 10 ≤ capLimit
  · obtain ⟨resp2, h2, hlen⟩ := route findDbById findServerById db space slot h10
    rw [h2] at hresp
    cases hresp
    exact hlen
  · have hp : makePanics capLimit 10 = true := by
      unfold makePanics
      rw [decide_eq_true_iff]
      right
      right
      omega
    unfold GetRoute at hresp
    cases h1 : findDbById db with
    | none =>
      rw [h1] at hresp
      cases hresp
      simp
    | some spaceCache =>
      rw [h1] at hresp
      dsimp only at hresp
      cases h2 : spaceCache space with
      | none =>
        rw [h2] at hresp
        cases hresp
        simp
      | some searchTree =>
        rw [h2] at hresp
        dsimp only at hresp
        have herr : searchTree.multipleSearch capLimit slot 10
            = .error "makeslice: cap out of range" :=
          multipleSearch_panics searchTree capLimit slot 10 hp
        rw [herr] at hresp
        cases hresp

/-- C5, amended, at the routing example with the count 1 on a machine that allocates up
to 1024 pointers. -/
theorem multipleSearch_length_le_witness :
    (1 : Int) ≤ 1 ∧ (1 : Int) ≤ 2 ^ 45 ∧ (1 : Int) ≤ (1024 : Nat) ∧
    treeABC.multipleSearch 1024 50 1 = .ok [mkPart 1 0 100] ∧
    ((∃ l, treeABC.multipleSearch 1024 50 1 = .ok l ∧ (l.length : Int) ≤ 1) ∧
    (∀ (findDbById : Nat → Option (Nat → Option PartitionTree))
        (findServerById : Nat → Option Node) (db space slot : Nat),
      (∀ resp, GetRoute 1024 findDbById findServerById db space slot = .ok resp →
        resp.Routes.length ≤ 10) ∧
      (10 ≤ 1024 →
        ∃ resp, GetRoute 1024 findDbById findServerById db space slot = .ok resp ∧
          resp.Routes.length ≤ 10))) :=
  ⟨by decide, by decide, by decide, rfl,
    multipleSearch_length_le treeABC 1024 50 1 (by decide) (by decide) (by decide)⟩

/-- C6: in a tree with non-empty pairwise-disjoint intervals, after `update p` for a
partition `p` with `StartSlot < EndSlot` the tree contains `p`, contains no other
partition overlapping `p`, still contains every earlier partition that does not overlap
`p`, and `search s` returns `p` for every slot `s` of `p`. -/
theorem update_replaces_overlaps (t : PartitionTree) (ho : t.ordered) (hne : t.nonEmpty)
    (hd : t.disjoint) (p : Partition) (hp : p.StartSlot < p.EndSlot) :
    p ∈ (t.update p).items ∧
    (∀ x ∈ (t.update p).items, x ≠ p → ¬ x.overlaps p) ∧
    (∀ x ∈ t.items, ¬ x.overlaps p → x ∈ (t.update p).items) ∧
    (∀ s, p.StartSlot ≤ s → s < p.EndSlot → (t.update p).search s = some p) := by
  have hs := separated_of_disjoint t hne hd
  have ho2 := update_ordered t ho p
  have hs2 := update_separated t ho hs p (le_of_lt hp)
  have hd2 := disjoint_of_separated _ ho2 hs2
  have hpm : p ∈ (t.update p).items := (mem_update t ho p p).2 (Or.inl rfl)
  refine ⟨hpm, ?_, ?_, ?_⟩
  · intro x hx hxp
    exact hd2 x hx p hpm hxp
  · intro x hx hno
    rw [overlaps_def] at hno
    have hxne := hne x hx
    refine (mem_update t ho p x).2 (Or.inr ⟨hx, by omega, ?_⟩)
    rintro ⟨h1, h2⟩
    have hxlt : x.StartSlot < p.StartSlot := by omega
    unfold scanStart at h1
    cases hfind : t.find p with
    | none => rw [hfind] at h1; simp only at h1; omega
    | some f =>
      rw [hfind] at h1
      simp only at h1
      obtain ⟨hft, hf1, hf2⟩ := find_mem t p f hfind
      by_cases hxf : x = f
      · subst hxf; omega
      · apply hd x hx f hft hxf
        rw [overlaps_def]
        have := hne f hft
        omega
  · intro s h1 h2
    exact find_of_contains_sep _ ho2 hs2 (slotProbe s) p hpm
      ((contains_iff p s).2 ⟨h1, h2⟩)

/-- C6 at the routing example: updating A = [0,100), B = [100,250), C = [300,500) with
[50,120) leaves that partition and C. -/
theorem update_replaces_overlaps_witness :
    (treeABC.update (mkPart 4 50 120)).items = [mkPart 3 300 500, mkPart 4 50 120] ∧
    (mkPart 4 50 120 ∈ (treeABC.update (mkPart 4 50 120)).items ∧
    (∀ x ∈ (treeABC.update (mkPart 4 50 120)).items, x ≠ mkPart 4 50 120 →
      ¬ x.overlaps (mkPart 4 50 120)) ∧
    (∀ x ∈ treeABC.items, ¬ x.overlaps (mkPart 4 50 120) →
      x ∈ (treeABC.update (mkPart 4 50 120)).items) ∧
    (∀ s, (mkPart 4 50 120).StartSlot ≤ s → s < (mkPart 4 50 120).EndSlot →
      (treeABC.update (mkPart 4 50 120)).search s = some (mkPart 4 50 120))) :=
  ⟨by decide,
    update_replaces_overlaps treeABC (by unfold PartitionTree.ordered; decide)
      (by unfold PartitionTree.nonEmpty; decide) (by unfold PartitionTree.disjoint; decide)
      (mkPart 4 50 120) (by decide)⟩

/-- A remark on `update` outside slot intervals: it does not check its argument, and
after `update [0,10)`, `update [5,0)`, `update [6,20)` the tree holds both [0,10) and
[6,20), which share the slots 6 to 9, although the comment of `update` says that it
"finds and deletes all the overlapped regions first". The partition [5,0), with its end
before its start, is not scanned away and then hides [0,10) from `find`. -/
theorem update_inverted_overlap :
    (applyOps NewPartitionTree
      [.update (mkPart 1 0 10), .update (mkPart 2 5 0), .update (mkPart 3 6 20)]).items
      = [mkPart 3 6 20, mkPart 2 5 0, mkPart 1 0 10] ∧
    (mkPart 1 0 10).overlaps (mkPart 3 6 20) ∧
    ¬ (applyOps NewPartitionTree
      [.update (mkPart 1 0 10), .update (mkPart 2 5 0), .update (mkPart 3 6 20)]).disjoint := by
  refine ⟨by decide, by decide, ?_⟩
  unfold PartitionTree.disjoint
  decide

/-- C7: every tree reached from the empty tree by a finite sequence of `remove` calls
and of `update` calls, each `update` on a slot interval `[StartSlot, EndSlot)`, that is
a partition with `StartSlot ≤ EndSlot`, holds partitions whose slot intervals are
pairwise disjoint and whose start slots are pairwise distinct. -/
theorem reachable_disjoint (ops : List TreeOp)
    (hops : ∀ p, TreeOp.update p ∈ ops → p.StartSlot ≤ p.EndSlot) :
    (∀ a ∈ (applyOps NewPartitionTree ops).items, ∀ b ∈ (applyOps NewPartitionTree ops).items,
      a ≠ b → ¬ ∃ s : Nat, PartitionItem.Contains a s = true ∧ PartitionItem.Contains b s = true) ∧
    (applyOps NewPartitionTree ops).items.Pairwise (fun a b => a.StartSlot ≠ b.StartSlot) := by
  have hnil_o : NewPartitionTree.ordered := List.Pairwise.nil
  have hnil_s : NewPartitionTree.separated := by intro a ha; cases ha
  obtain ⟨ho, hs⟩ := applyOps_invariant ops NewPartitionTree hnil_o hnil_s hops
  refine ⟨?_, ?_⟩
  · intro a ha b hb hab
    rw [← overlaps_iff]
    exact disjoint_of_separated _ ho hs a ha b hb hab
  · exact List.Pairwise.imp (fun {a b} h => by rw [less_iff] at h; omega) ho

/-- C7 at a run with an empty interval and a `remove`. -/
theorem reachable_disjoint_witness :
    (applyOps NewPartitionTree
      [.update (mkPart 1 0 10), .update (mkPart 2 5 5), .update (mkPart 3 6 20),
        .remove (mkPart 3 6 20)]).items = [mkPart 2 5 5] ∧
    ((∀ a ∈ (applyOps NewPartitionTree
        [.update (mkPart 1 0 10), .update (mkPart 2 5 5), .update (mkPart 3 6 20),
          .remove (mkPart 3 6 20)]).items,
      ∀ b ∈ (applyOps NewPartitionTree
        [.update (mkPart 1 0 10), .update (mkPart 2 5 5), .update (mkPart 3 6 20),
          .remove (mkPart 3 6 20)]).items,
      a ≠ b → ¬ ∃ s : Nat, PartitionItem.Contains a s = true ∧ PartitionItem.Contains b s = true) ∧
    (applyOps NewPartitionTree
      [.update (mkPart 1 0 10), .update (mkPart 2 5 5), .update (mkPart 3 6 20),
        .remove (mkPart 3 6 20)]).items.Pairwise (fun a b => a.StartSlot ≠ b.StartSlot)) :=
  ⟨by decide,
    reachable_disjoint _ (by
      intro p hp
      simp only [List.mem_cons, TreeOp.update.injEq, List.mem_singleton, reduceCtorEq,
        or_false, List.not_mem_nil] at hp
      rcases hp with e | e | e <;> subst e <;> decide)⟩

/-- C2: if a known partition has no leader or a leader whose ID is the ID of one of its
replicas, then after `PSHeartbeat` has processed a partition info for it (whatever the
info, the clock and the store's answer) the partition again has no leader or a leader
whose ID is the ID of one of its replicas. -/
theorem heartbeat_keeps_leader_among_replicas (marshal : MetaPartition → Option (List Nat))
    (s : HbState) (info : PartitionInfo) (now : Int) (putOk : Bool)
    (h : s.partition.Leader = none ∨
      ∃ l, s.partition.Leader = some l ∧ l.ID ∈ s.partition.meta.Replicas.map (fun r => r.ID)) :
    (heartbeatKnown marshal s info now putOk).state.partition.Leader = none ∨
      ∃ l, (heartbeatKnown marshal s info now putOk).state.partition.Leader = some l ∧
        l.ID ∈ (heartbeatKnown marshal s info now putOk).state.partition.meta.Replicas.map
          (fun r => r.ID) := by
  have hin : s.partition.leaderAmongReplicas := by
    intro l hl
    rcases h with h0 | ⟨l2, h1, h2⟩
    · rw [h0] at hl; cases hl
    · rw [h1] at hl; cases hl; exact h2
  have hout := (heartbeatKnown_keeps marshal s info now putOk).2 hin
  cases hL : (heartbeatKnown marshal s info now putOk).state.partition.Leader with
  | none => exact Or.inl rfl
  | some l => exact Or.inr ⟨l, rfl, hout l hL⟩

/-- C2 at an example: the partition with epoch 4, replicas R1, R2 and leader R1 takes a
heartbeat of epoch 5 from the leader R2 with follower R3; afterwards its replicas are
R2, R3 and its leader is R2. -/
theorem heartbeat_keeps_leader_among_replicas_witness :
    (heartbeatKnown exampleMarshal exampleState exampleInfo (10 * Second) true).state.partition.Leader
      = some (mkReplica 2) ∧
    (heartbeatKnown exampleMarshal exampleState exampleInfo (10 * Second)
      true).state.partition.meta.Replicas = [mkReplica 2, mkReplica 3] ∧
    ((heartbeatKnown exampleMarshal exampleState exampleInfo (10 * Second)
        true).state.partition.Leader = none ∨
      ∃ l, (heartbeatKnown exampleMarshal exampleState exampleInfo (10 * Second)
          true).state.partition.Leader = some l ∧
        l.ID ∈ (heartbeatKnown exampleMarshal exampleState exampleInfo (10 * Second)
          true).state.partition.meta.Replicas.map (fun r => r.ID)) :=
  ⟨by decide, by decide,
    heartbeat_keeps_leader_among_replicas exampleMarshal exampleState exampleInfo (10 * Second)
      true (Or.inr ⟨mkReplica 1, rfl, by decide⟩)⟩

theorem heartbeatTrace_head (marshal : MetaPartition → Option (List Nat)) (s : HbState)
    (rounds : List HbRound) : (heartbeatTrace marshal s rounds).head? = some s := by
  cases rounds <;> rfl

/-- C3: along every finite sequence of heartbeat partition infos that `PSHeartbeat`
processes for a known partition, whatever their epochs, leader flags, clock readings and
store outcomes, the partition's `Epoch.ConfVersion` never decreases from one state to the
next. -/
theorem heartbeat_confVersion_monotone (marshal : MetaPartition → Option (List Nat))
    (s : HbState) (rounds : List HbRound) :
    (heartbeatTrace marshal s rounds).Chain'
      (fun a b => a.partition.meta.Epoch.ConfVersion ≤ b.partition.meta.Epoch.ConfVersion) := by
  induction rounds generalizing s with
  | nil => simp [heartbeatTrace]
  | cons r rest ih =>
    simp only [heartbeatTrace]
    rw [List.chain'_cons']
    refine ⟨?_, ih _⟩
    intro y hy
    rw [heartbeatTrace_head] at hy
    cases hy
    exact (heartbeatKnown_keeps marshal s r.info r.now r.putOk).1

/-- C8: with the clock as an input, `takeChangeMemberTask` answers true iff the latch
flag is clear or at least 30 s have passed since the stored latch time; on true it sets
the flag and stores the clock reading, on false it changes nothing. Hence from a free
latch, a call at `t1`, a call at `t2` less than 30 s later and a call at `t3` at least
30 s after `t1` answer true, false, true. -/
theorem takeChangeMemberTask_latch (p : Partition) (t1 t2 t3 : Int)
    (hfree : p.taskFlag = false) (h12 : t2 - t1 < 30 * Second) (h13 : t3 - t1 ≥ 30 * Second) :
    (∀ (q : Partition) (now : Int),
      ((q.takeChangeMemberTask now).2 = true ↔
        (q.taskFlag = false ∨ now - q.taskTimeout ≥ 30 * Second)) ∧
      ((q.takeChangeMemberTask now).2 = true →
        (q.takeChangeMemberTask now).1 = { q with taskFlag := true, taskTimeout := now }) ∧
      ((q.takeChangeMemberTask now).2 = false → (q.takeChangeMemberTask now).1 = q)) ∧
    (p.takeChangeMemberTask t1).2 = true ∧
    ((p.takeChangeMemberTask t1).1.takeChangeMemberTask t2).2 = false ∧
    (((p.takeChangeMemberTask t1).1.takeChangeMemberTask t2).1.takeChangeMemberTask t3).2
      = true := by
  have gen : ∀ (q : Partition) (now : Int),
      ((q.takeChangeMemberTask now).2 = true ↔
        (q.taskFlag = false ∨ now - q.taskTimeout ≥ 30 * Second)) ∧
      ((q.takeChangeMemberTask now).2 = true →
        (q.takeChangeMemberTask now).1 = { q with taskFlag := true, taskTimeout := now }) ∧
      ((q.takeChangeMemberTask now).2 = false → (q.takeChangeMemberTask now).1 = q) := by
    intro q now
    have hiff := timeSub_ge_iff now q.taskTimeout
    unfold Partition.takeChangeMemberTask
    by_cases hc : q.taskFlag = false ∨ timeSub now q.taskTimeout ≥ 30 * Second
    · have hc2 : q.taskFlag = false ∨ now - q.taskTimeout ≥ 30 * Second :=
        hc.imp (fun h => h) hiff.1
      rw [if_pos hc]
      exact ⟨⟨fun _ => hc2, fun _ => rfl⟩, fun _ => rfl, fun h => (by cases h)⟩
    · have hc2 : ¬ (q.taskFlag = false ∨ now - q.taskTimeout ≥ 30 * Second) :=
        fun h => hc (h.imp (fun h => h) hiff.2)
      rw [if_neg hc]
      exact ⟨⟨fun h => (by cases h), fun h => absurd h hc2⟩, fun h => (by cases h), fun _ => rfl⟩
  refine ⟨gen, ?_⟩
  have s1 : (p.takeChangeMemberTask t1).2 = true := ((gen p t1).1).2 (Or.inl hfree)
  have e1 := (gen p t1).2.1 s1
  have s2 : ((p.takeChangeMemberTask t1).1.takeChangeMemberTask t2).2 = false := by
    rw [e1]
    cases hb : (({ p with taskFlag := true, taskTimeout := t1 } : Partition).takeChangeMemberTask
      t2).2 with
    | false => rfl
    | true =>
      have := ((gen _ t2).1).1 hb
      simp only [Bool.true_eq_false, false_or] at this
      omega
  have e2 := (gen _ t2).2.2 s2
  refine ⟨s1, s2, ?_⟩
  rw [e2, e1]
  exact ((gen _ t3).1).2 (Or.inr h13)

/-- C8 at an example: from a free latch, calls at 0 s, 10 s and 30 s answer true,
false, true. -/
theorem takeChangeMemberTask_latch_witness :
    (∀ (q : Partition) (now : Int),
      ((q.takeChangeMemberTask now).2 = true ↔
        (q.taskFlag = false ∨ now - q.taskTimeout ≥ 30 * Second)) ∧
      ((q.takeChangeMemberTask now).2 = true →
        (q.takeChangeMemberTask now).1 = { q with taskFlag := true, taskTimeout := now }) ∧
      ((q.takeChangeMemberTask now).2 = false → (q.takeChangeMemberTask now).1 = q)) ∧
    ((mkPart 1 0 100).takeChangeMemberTask 0).2 = true ∧
    ((((mkPart 1 0 100).takeChangeMemberTask 0).1).takeChangeMemberTask (10 * Second)).2 = false ∧
    (((((mkPart 1 0 100).takeChangeMemberTask 0).1).takeChangeMemberTask
      (10 * Second)).1.takeChangeMemberTask (30 * Second)).2 = true :=
  takeChangeMemberTask_latch (mkPart 1 0 100) 0 (10 * Second) (30 * Second) rfl
    (by decide) (by decide)

/-- What `UpdateReplicaGroupByCond` does when the heartbeat is not stale. -/
theorem update_fresh (marshal : MetaPartition → Option (List Nat)) (p : Partition)
    (store : Store) (putOk : Bool) (now : Int) (info : PartitionInfo)
    (leaderReplica : Option Replica)
    (hc : ¬ (info.Epoch.ConfVersion < p.meta.Epoch.ConfVersion ∨
      (info.Epoch.ConfVersion = p.meta.Epoch.ConfVersion ∧ p.Leader ≠ none))) :
    p.UpdateReplicaGroupByCond marshal store putOk now info leaderReplica =
      match info.RaftStatus with
      | none => .error "nil pointer dereference"
      | some raftStatus =>
        match doMetaMarshal marshal
            { p.meta with
              Epoch := info.Epoch
              Status := info.Status
              Replicas := raftStatus.Replica ::
                raftStatus.Followers.map (fun follower => follower.Replica) } with
        | none => .ok ⟨p, store, false, false⟩
        | some (key, val) =>
          match store.Put key val putOk with
          | none => .ok ⟨p, store, false, false⟩
          | some store2 =>
            .ok ⟨{ meta :=
                    { p.meta with
                      Epoch := info.Epoch
                      Status := info.Status
                      Replicas := raftStatus.Replica ::
                        raftStatus.Followers.map (fun follower => follower.Replica) }
                   taskFlag := false, taskTimeout := zeroTime,
                   LastHeartbeat := now, Leader := leaderReplica }, store2, false, true⟩ := by
  unfold Partition.UpdateReplicaGroupByCond
  rw [if_neg hc]

/-- C9: `UpdateReplicaGroupByCond` returns `verExpired = true` iff the heartbeat
`ConfVersion` is lower than the master's, or equal to it while a leader is already
known; whenever it does, `updateOk` is false, the store is as before (nothing written)
and the partition, with its record, leader, last heartbeat and task latch, is unchanged. -/
theorem update_verExpired_iff (marshal : MetaPartition → Option (List Nat)) (p : Partition)
    (store : Store) (putOk : Bool) (now : Int) (info : PartitionInfo)
    (leaderReplica : Option Replica) :
    ((∃ r, p.UpdateReplicaGroupByCond marshal store putOk now info leaderReplica = .ok r ∧
        r.verExpired = true) ↔
      (info.Epoch.ConfVersion < p.meta.Epoch.ConfVersion ∨
        (info.Epoch.ConfVersion = p.meta.Epoch.ConfVersion ∧ p.Leader ≠ none))) ∧
    (∀ r, p.UpdateReplicaGroupByCond marshal store putOk now info leaderReplica = .ok r →
      r.verExpired = true → r.updateOk = false ∧ r.store = store ∧ r.partition = p) := by
  by_cases hc : info.Epoch.ConfVersion < p.meta.Epoch.ConfVersion ∨
      (info.Epoch.ConfVersion = p.meta.Epoch.ConfVersion ∧ p.Leader ≠ none)
  · have hU : p.UpdateReplicaGroupByCond marshal store putOk now info leaderReplica =
        .ok ⟨p, store, true, false⟩ := by
      unfold Partition.UpdateReplicaGroupByCond
      rw [if_pos hc]
    refine ⟨⟨fun _ => hc, fun _ => ⟨_, hU, rfl⟩⟩, ?_⟩
    intro r hr _
    rw [hU] at hr
    cases hr
    exact ⟨rfl, rfl, rfl⟩
  · have hnot : ∀ r, p.UpdateReplicaGroupByCond marshal store putOk now info leaderReplica
        = .ok r → r.verExpired = false := by
      intro r hr
      rw [update_fresh marshal p store putOk now info leaderReplica hc] at hr
      cases hrs : info.RaftStatus with
      | none => rw [hrs] at hr; cases hr
      | some rs =>
        rw [hrs] at hr
        dsimp only at hr
        split at hr
        · cases hr; rfl
        · split at hr
          · cases hr; rfl
          · cases hr; rfl
    refine ⟨⟨?_, fun h => absurd h hc⟩, ?_⟩
    · rintro ⟨r, hr, hexp⟩
      rw [hnot r hr] at hexp
      cases hexp
    · intro r hr hexp
      rw [hnot r hr] at hexp
      cases hexp

/-- C10: when `UpdateReplicaGroupByCond` is not rejected, the info carries a raft status
and both the encoding and the store write succeed, it returns `(false, true)`;
afterwards the replicas are the reported replica followed by the followers' replicas in
order, epoch and status are those of the info, the leader is the given replica, the task
latch is cleared, the last heartbeat is the clock reading, ID, DB, space and slots are
unchanged, and the store has one more pair, written under the key
"schema partition <ID>" with the encoding of exactly the new record. -/
theorem update_success (marshal : MetaPartition → Option (List Nat)) (p : Partition)
    (store : Store) (now : Int) (info : PartitionInfo) (leaderReplica : Option Replica)
    (rs : RaftStatus) (val : List Nat)
    (hc : ¬ (info.Epoch.ConfVersion < p.meta.Epoch.ConfVersion ∨
      (info.Epoch.ConfVersion = p.meta.Epoch.ConfVersion ∧ p.Leader ≠ none)))
    (hrs : info.RaftStatus = some rs)
    (hval : marshal
      { p.meta with
        Epoch := info.Epoch
        Status := info.Status
        Replicas := rs.Replica :: rs.Followers.map (fun follower => follower.Replica) }
      = some val) :
    ∃ r, p.UpdateReplicaGroupByCond marshal store true now info leaderReplica = .ok r ∧
      r.verExpired = false ∧ r.updateOk = true ∧
      r.partition.meta.Replicas = rs.Replica :: rs.Followers.map (fun follower => follower.Replica) ∧
      r.partition.meta.Epoch = info.Epoch ∧
      r.partition.meta.Status = info.Status ∧
      r.partition.Leader = leaderReplica ∧
      r.partition.taskFlag = false ∧ r.partition.taskTimeout = zeroTime ∧
      r.partition.LastHeartbeat = now ∧
      r.partition.meta.ID = p.meta.ID ∧ r.partition.meta.DB = p.meta.DB ∧
      r.partition.meta.Space = p.meta.Space ∧
      r.partition.meta.StartSlot = p.meta.StartSlot ∧
      r.partition.meta.EndSlot = p.meta.EndSlot ∧
      marshal r.partition.meta = some val ∧
      r.store.puts = ("schema partition " ++ toString p.meta.ID, val) :: store.puts := by
  rw [update_fresh marshal p store true now info leaderReplica hc, hrs]
  simp only [doMetaMarshal, hval, Store.Put, if_true]
  exact ⟨_, rfl, rfl, rfl, rfl, rfl, rfl, rfl, rfl, rfl, rfl, rfl, rfl, rfl, rfl, rfl, hval, rfl⟩

/-- C10 at an example: the partition 7 with epoch 4 takes the info of epoch 5 reported by
R2 with follower R3; the store receives the pair under "schema partition 7". -/
theorem update_success_witness :
    ∃ r, examplePartition.UpdateReplicaGroupByCond exampleMarshal ⟨[]⟩ true (10 * Second)
        exampleInfo (some (mkReplica 2)) = .ok r ∧
      r.verExpired = false ∧ r.updateOk = true ∧
      r.partition.meta.Replicas = [mkReplica 2, mkReplica 3] ∧
      r.partition.meta.Epoch = exampleInfo.Epoch ∧
      r.partition.meta.Status = exampleInfo.Status ∧
      r.partition.Leader = some (mkReplica 2) ∧
      r.partition.taskFlag = false ∧ r.partition.taskTimeout = zeroTime ∧
      r.partition.LastHeartbeat = 10 * Second ∧
      r.partition.meta.ID = examplePartition.meta.ID ∧
      r.partition.meta.DB = examplePartition.meta.DB ∧
      r.partition.meta.Space = examplePartition.meta.Space ∧
      r.partition.meta.StartSlot = examplePartition.meta.StartSlot ∧
      r.partition.meta.EndSlot = examplePartition.meta.EndSlot ∧
      exampleMarshal r.partition.meta = some [7, 5, 1, 2, 3] ∧
      r.store.puts = [("schema partition 7", [7, 5, 1, 2, 3])] :=
  update_success exampleMarshal examplePartition ⟨[]⟩ (10 * Second) exampleInfo
    (some (mkReplica 2)) ⟨mkReplica 2, [⟨mkReplica 3⟩]⟩ [7, 5, 1, 2, 3]
    (by decide) rfl rfl

/-- C12: for a leader-reported info, after `PSHeartbeat` has successfully updated the
partition (by `UpdateReplicaGroupByCond` or by `ValidateAndUpdateLeaderByCond`) the round
goes on with the replica count check on the updated partition; and that check, on a
partition with `c` replicas and target `T = FIXED_REPLICA_NUM`, pushes exactly one Delete
event when `c > T` and the task latch is acquired — addressed to the node of the
partition's leader, for the first reported follower whose replica ID differs from the
reported leader's, else for the reported leader —, pushes exactly one Create event for the
partition when `c < T` and the latch is acquired, and pushes nothing and changes nothing
when `c = T` or the latch is not acquired. -/
theorem heartbeat_cardinality_events (marshal : MetaPartition → Option (List Nat))
    (s : HbState) (info : PartitionInfo) (now : Int) (putOk : Bool) (rs : RaftStatus)
    (hl : info.IsLeader = true) (hrs : info.RaftStatus = some rs) :
    (∀ r, (s.partition.meta.Epoch.ConfVersion < info.Epoch.ConfVersion ∨
          (info.Epoch.ConfVersion = s.partition.meta.Epoch.ConfVersion ∧
            s.partition.Leader = none)) →
        s.partition.UpdateReplicaGroupByCond marshal s.store putOk now info (some rs.Replica)
          = .ok r →
        r.updateOk = true →
        heartbeatKnown marshal s info now putOk =
          checkReplicasCount { s with partition := r.partition, store := r.store } info now) ∧
    (∀ v, s.partition.ValidateAndUpdateLeaderByCond now info (some rs.Replica) = .ok v →
        v.updateOk = true →
        heartbeatKnown marshal s info now putOk =
          checkReplicasCount { s with partition := v.partition } info now) ∧
    (∀ u : HbState,
      (u.partition.countReplicas > FIXED_REPLICA_NUM →
        (u.partition.takeChangeMemberTask now).2 = true →
        (checkReplicasCount u info now).panicked = false ∧
        (checkReplicasCount u info now).state.partition = u.partition.latched now ∧
        (checkReplicasCount u info now).state.store = u.store ∧
        pushedOnce u.pm (checkReplicasCount u info now).state.pm
          { typ := EVENT_TYPE_PARTITION_DELETE
            body := .deleteBody
              { partitionId := info.ID
                leaderNodeId := ((u.partition.Leader.map (fun l => l.NodeID)).getD 0)
                replicaRpcAddr := ""
                replica := (some (firstOtherFollower rs)) } }) ∧
      (u.partition.countReplicas < FIXED_REPLICA_NUM →
        (u.partition.takeChangeMemberTask now).2 = true →
        (checkReplicasCount u info now).panicked = false ∧
        (checkReplicasCount u info now).state.partition = u.partition.latched now ∧
        (checkReplicasCount u info now).state.store = u.store ∧
        pushedOnce u.pm (checkReplicasCount u info now).state.pm
          { typ := EVENT_TYPE_PARTITION_CREATE, body := .partition (u.partition.latched now) }) ∧
      ((u.partition.countReplicas = FIXED_REPLICA_NUM ∨
          (u.partition.takeChangeMemberTask now).2 = false) →
        checkReplicasCount u info now = ⟨u, false⟩)) := by
  have hpl := pickLeaderReplica_leader info rs hl hrs
  have hpd := pickReplicaToDelete_leader info rs hl hrs
  refine ⟨?_, ?_, ?_⟩
  · intro r hcase hU hok
    rcases hcase with hgt | ⟨heq, hnone⟩
    · rw [heartbeatKnown_newer marshal s info now putOk rs.Replica (by omega) hpl]
      exact updateGroupThenCheck_ok marshal s info now putOk rs.Replica r hU hok
    · rw [heartbeatKnown_equal marshal s info now putOk rs.Replica heq hpl, if_pos hnone]
      exact updateGroupThenCheck_ok marshal s info now putOk rs.Replica r hU hok
  · intro v hV hok
    rw [validate_eq] at hV
    have hV2 := Except.ok.inj hV
    by_cases h1 : info.Epoch.ConfVersion ≠ s.partition.meta.Epoch.ConfVersion
    · rw [if_pos h1] at hV2; rw [← hV2] at hok; cases hok
    · rw [if_neg h1] at hV2
      by_cases h2 : s.partition.Leader = none
      · rw [if_pos h2] at hV2; rw [← hV2] at hok; cases hok
      · rw [if_neg h2] at hV2
        by_cases h3 : rs.Replica.ID ∈ s.partition.meta.Replicas.map (fun r => r.ID)
        · rw [if_pos h3] at hV2
          rw [heartbeatKnown_equal marshal s info now putOk rs.Replica (not_not.1 h1) hpl,
            if_neg h2, if_pos h3, ← hV2]
        · rw [if_neg h3] at hV2; rw [← hV2] at hok; cases hok
  · intro u
    refine ⟨?_, ?_, ?_⟩
    · intro hc ht
      rw [check_gt u info now hc, pushDelete_taken u info now _ (firstOtherFollower rs) ht hpd]
      refine ⟨rfl, rfl, rfl, ?_⟩
      rw [← pickLeaderNodeId_eq u.partition]
      exact pushedOnce_delete u.pm _ _ _
    · intro hc ht
      rw [check_lt u info now hc, if_pos ht]
      exact ⟨rfl, rfl, rfl, pushedOnce_create u.pm _⟩
    · rintro (hc | ht)
      · exact check_eq u info now hc
      · by_cases hgt : u.partition.countReplicas > FIXED_REPLICA_NUM
        · rw [check_gt u info now hgt]
          exact pushDelete_not_taken u info now _ ht
        · by_cases hlt : u.partition.countReplicas < FIXED_REPLICA_NUM
          · rw [check_lt u info now hlt, if_neg (by simp [ht])]
          · exact check_eq u info now (by omega)

/-- C12 at the over-count scenario: the partition has the replicas R1, R2 and the target
is 1; the heartbeat of the same epoch from the leader R1 with follower R2 queues one
Delete event for R2 addressed to node 1, and the same heartbeat 10 s later queues
nothing more. -/
theorem heartbeat_cardinality_events_witness :
    (heartbeatKnown exampleMarshal twoReplicaState (sameEpochInfo (mkReplica 1) [mkReplica 2])
      (10 * Second) true).state.pm.eventCh
      = [{ typ := EVENT_TYPE_PARTITION_DELETE
           body := .deleteBody
             { partitionId := 7
               leaderNodeId := 1
               replicaRpcAddr := ""
               replica := (some (mkReplica 2)) } }] ∧
    (heartbeatKnown exampleMarshal
      (heartbeatKnown exampleMarshal twoReplicaState (sameEpochInfo (mkReplica 1) [mkReplica 2])
        (10 * Second) true).state
      (sameEpochInfo (mkReplica 1) [mkReplica 2]) (20 * Second) true).state.pm.eventCh
      = [{ typ := EVENT_TYPE_PARTITION_DELETE
           body := .deleteBody
             { partitionId := 7
               leaderNodeId := 1
               replicaRpcAddr := ""
               replica := (some (mkReplica 2)) } }] ∧
    ((∀ r, (twoReplicaState.partition.meta.Epoch.ConfVersion < (sameEpochInfo (mkReplica 1) [mkReplica 2]).Epoch.ConfVersion ∨
          ((sameEpochInfo (mkReplica 1) [mkReplica 2]).Epoch.ConfVersion = twoReplicaState.partition.meta.Epoch.ConfVersion ∧
            twoReplicaState.partition.Leader = none)) →
        twoReplicaState.partition.UpdateReplicaGroupByCond exampleMarshal twoReplicaState.store true (10 * Second) (sameEpochInfo (mkReplica 1) [mkReplica 2]) (some (⟨mkReplica 1, [⟨mkReplica 2⟩]⟩ : RaftStatus).Replica)
          = .ok r →
        r.updateOk = true →
        heartbeatKnown exampleMarshal twoReplicaState (sameEpochInfo (mkReplica 1) [mkReplica 2]) (10 * Second) true =
          checkReplicasCount { twoReplicaState with partition := r.partition, store := r.store } (sameEpochInfo (mkReplica 1) [mkReplica 2]) (10 * Second)) ∧
    (∀ v, twoReplicaState.partition.ValidateAndUpdateLeaderByCond (10 * Second) (sameEpochInfo (mkReplica 1) [mkReplica 2]) (some (⟨mkReplica 1, [⟨mkReplica 2⟩]⟩ : RaftStatus).Replica) = .ok v →
        v.updateOk = true →
        heartbeatKnown exampleMarshal twoReplicaState (sameEpochInfo (mkReplica 1) [mkReplica 2]) (10 * Second) true =
          checkReplicasCount { twoReplicaState with partition := v.partition } (sameEpochInfo (mkReplica 1) [mkReplica 2]) (10 * Second)) ∧
    (∀ u : HbState,
      (u.partition.countReplicas > FIXED_REPLICA_NUM →
        (u.partition.takeChangeMemberTask (10 * Second)).2 = true →
        (checkReplicasCount u (sameEpochInfo (mkReplica 1) [mkReplica 2]) (10 * Second)).panicked = false ∧
        (checkReplicasCount u (sameEpochInfo (mkReplica 1) [mkReplica 2]) (10 * Second)).state.partition = u.partition.latched (10 * Second) ∧
        (checkReplicasCount u (sameEpochInfo (mkReplica 1) [mkReplica 2]) (10 * Second)).state.store = u.store ∧
        pushedOnce u.pm (checkReplicasCount u (sameEpochInfo (mkReplica 1) [mkReplica 2]) (10 * Second)).state.pm
          { typ := EVENT_TYPE_PARTITION_DELETE
            body := .deleteBody
              { partitionId := (sameEpochInfo (mkReplica 1) [mkReplica 2]).ID
                leaderNodeId := ((u.partition.Leader.map (fun l => l.NodeID)).getD 0)
                replicaRpcAddr := ""
                replica := (some (firstOtherFollower (⟨mkReplica 1, [⟨mkReplica 2⟩]⟩ : RaftStatus))) } }) ∧
      (u.partition.countReplicas < FIXED_REPLICA_NUM →
        (u.partition.takeChangeMemberTask (10 * Second)).2 = true →
        (checkReplicasCount u (sameEpochInfo (mkReplica 1) [mkReplica 2]) (10 * Second)).panicked = false ∧
        (checkReplicasCount u (sameEpochInfo (mkReplica 1) [mkReplica 2]) (10 * Second)).state.partition = u.partition.latched (10 * Second) ∧
        (checkReplicasCount u (sameEpochInfo (mkReplica 1) [mkReplica 2]) (10 * Second)).state.store = u.store ∧
        pushedOnce u.pm (checkReplicasCount u (sameEpochInfo (mkReplica 1) [mkReplica 2]) (10 * Second)).state.pm
          { typ := EVENT_TYPE_PARTITION_CREATE, body := .partition (u.partition.latched (10 * Second)) }) ∧
      ((u.partition.countReplicas = FIXED_REPLICA_NUM ∨
          (u.partition.takeChangeMemberTask (10 * Second)).2 = false) →
        checkReplicasCount u (sameEpochInfo (mkReplica 1) [mkReplica 2]) (10 * Second) = ⟨u, false⟩))) :=
  ⟨by decide, by decide,
    heartbeat_cardinality_events exampleMarshal twoReplicaState
      (sameEpochInfo (mkReplica 1) [mkReplica 2]) (10 * Second) true
      ⟨mkReplica 1, [⟨mkReplica 2⟩]⟩ rfl rfl⟩

/-- C11, as stated, fails: when the heartbeat's `ConfVersion` differs from the master's,
`ValidateAndUpdateLeaderByCond` returns before it looks at the replicas. The partition
of epoch 4 with replicas R1, R2 and an info of epoch 5 give `illegal = false` for the
reported leader R9, whose ID is not among the replicas. -/
theorem validate_illegal_counterexample :
    examplePartition.ValidateAndUpdateLeaderByCond 0 exampleInfo (some (mkReplica 9))
      = .ok ⟨examplePartition, true, false, false⟩ ∧
    (mkReplica 9).ID ∉ examplePartition.meta.Replicas.map (fun r => r.ID) ∧
    ¬ ∀ v, examplePartition.ValidateAndUpdateLeaderByCond 0 exampleInfo (some (mkReplica 9))
        = .ok v →
      (v.illegal = true ↔ (mkReplica 9).ID ∉ examplePartition.meta.Replicas.map (fun r => r.ID)) := by
  have h : examplePartition.ValidateAndUpdateLeaderByCond 0 exampleInfo (some (mkReplica 9))
      = .ok ⟨examplePartition, true, false, false⟩ := rfl
  have hn : (mkReplica 9).ID ∉ examplePartition.meta.Replicas.map (fun r => r.ID) := by decide
  refine ⟨h, hn, ?_⟩
  intro hall
  have := (hall _ h).2 hn
  cases this

/-- C11, amended: `ValidateAndUpdateLeaderByCond` returns, and it returns
`illegal = true` iff the heartbeat's `ConfVersion` equals the master's, a leader is
already known, and the reported leader's replica ID is not among the partition's
current replicas. -/
theorem validate_illegal_iff (p : Partition) (now : Int) (info : PartitionInfo)
    (leader : Replica) :
    ∃ v, p.ValidateAndUpdateLeaderByCond now info (some leader) = .ok v ∧
      (v.illegal = true ↔
        (info.Epoch.ConfVersion = p.meta.Epoch.ConfVersion ∧ p.Leader ≠ none ∧
          leader.ID ∉ p.meta.Replicas.map (fun r => r.ID))) := by
  refine ⟨_, validate_eq p now info leader, ?_⟩
  by_cases h1 : info.Epoch.ConfVersion ≠ p.meta.Epoch.ConfVersion
  · rw [if_pos h1]
    constructor
    · intro h; cases h
    · rintro ⟨h, _⟩; exact absurd h h1
  · rw [if_neg h1]
    by_cases h2 : p.Leader = none
    · rw [if_pos h2]
      constructor
      · intro h; cases h
      · rintro ⟨_, h, _⟩; exact absurd h2 h
    · rw [if_neg h2]
      by_cases h3 : leader.ID ∈ p.meta.Replicas.map (fun r => r.ID)
      · rw [if_pos h3]
        constructor
        · intro h; cases h
        · rintro ⟨_, _, h⟩; exact absurd h3 h
      · rw [if_neg h3]
        exact ⟨fun _ => ⟨not_not.1 h1, h2, h3⟩, fun _ => rfl⟩

/-- C13: for a heartbeat info whose `ConfVersion` is lower than the master's, the round
leaves the partition's record, leader and last heartbeat and the store as they were; if
the task latch is acquired and `pickReplicaToDelete` yields a replica `r`, exactly one
Delete event (the info's partition ID, the node of the master-known leader, `r`) is
pushed; if the latch is not acquired nothing is pushed and nothing changes. -/
theorem heartbeat_stale_epoch (marshal : MetaPartition → Option (List Nat)) (s : HbState)
    (info : PartitionInfo) (now : Int) (putOk : Bool)
    (h : info.Epoch.ConfVersion < s.partition.meta.Epoch.ConfVersion) :
    (heartbeatKnown marshal s info now putOk).state.partition.meta = s.partition.meta ∧
    (heartbeatKnown marshal s info now putOk).state.partition.Leader = s.partition.Leader ∧
    (heartbeatKnown marshal s info now putOk).state.partition.LastHeartbeat
      = s.partition.LastHeartbeat ∧
    (heartbeatKnown marshal s info now putOk).state.store = s.store ∧
    ((s.partition.takeChangeMemberTask now).2 = true →
      ∀ r, pickReplicaToDelete (some info) = .ok (some r) →
        (heartbeatKnown marshal s info now putOk).panicked = false ∧
        (heartbeatKnown marshal s info now putOk).state.partition = s.partition.latched now ∧
        pushedOnce s.pm (heartbeatKnown marshal s info now putOk).state.pm
          { typ := EVENT_TYPE_PARTITION_DELETE
            body := .deleteBody
              { partitionId := info.ID
                leaderNodeId := ((s.partition.Leader.map (fun l => l.NodeID)).getD 0)
                replicaRpcAddr := ""
                replica := (some r) } }) ∧
    ((s.partition.takeChangeMemberTask now).2 = false →
      heartbeatKnown marshal s info now putOk = ⟨s, false⟩) := by
  rw [heartbeatKnown_stale marshal s info now putOk h]
  have hf := pushDelete_frame s info now (fun p => p.pickLeaderNodeId)
  refine ⟨hf.1, hf.2.1, ?_, hf.2.2, ?_, ?_⟩
  · cases ht : (s.partition.takeChangeMemberTask now).2 with
    | false => rw [pushDelete_not_taken s info now _ ht]
    | true =>
      have hm := take_meta s.partition now
      unfold pushDelete
      split
      · next p1 heq => rw [heq] at hm; exact hm.2.2
      · next p1 heq =>
        rw [heq] at hm
        split <;> exact hm.2.2
  · intro ht r hr
    rw [pushDelete_taken s info now _ r ht hr]
    refine ⟨rfl, rfl, ?_⟩
    rw [← pickLeaderNodeId_eq s.partition]
    exact pushedOnce_delete s.pm _ _ _
  · intro ht
    exact pushDelete_not_taken s info now _ ht

/-- C13 at the stale-epoch scenario: the known partition is at epoch 5 with leader R1 on
node 1; the heartbeat reports epoch 3 with the replica R7; one Delete event for R7
addressed to node 1 is queued and the record stays as it was. -/
theorem heartbeat_stale_epoch_witness :
    (heartbeatKnown exampleMarshal epoch5State staleInfo (10 * Second) true).state.pm.eventCh
      = [{ typ := EVENT_TYPE_PARTITION_DELETE
           body := .deleteBody
             { partitionId := 7
               leaderNodeId := 1
               replicaRpcAddr := ""
               replica := (some (mkReplica 7)) } }] ∧
    ((heartbeatKnown exampleMarshal epoch5State staleInfo (10 * Second) true).state.partition.meta
        = epoch5State.partition.meta ∧
      (heartbeatKnown exampleMarshal epoch5State staleInfo (10 * Second) true).state.partition.Leader
        = epoch5State.partition.Leader ∧
      (heartbeatKnown exampleMarshal epoch5State staleInfo (10 * Second)
        true).state.partition.LastHeartbeat = epoch5State.partition.LastHeartbeat ∧
      (heartbeatKnown exampleMarshal epoch5State staleInfo (10 * Second) true).state.store
        = epoch5State.store ∧
      ((epoch5State.partition.takeChangeMemberTask (10 * Second)).2 = true →
        ∀ r, pickReplicaToDelete (some staleInfo) = .ok (some r) →
          (heartbeatKnown exampleMarshal epoch5State staleInfo (10 * Second) true).panicked
            = false ∧
          (heartbeatKnown exampleMarshal epoch5State staleInfo (10 * Second) true).state.partition
            = epoch5State.partition.latched (10 * Second) ∧
          pushedOnce epoch5State.pm
            (heartbeatKnown exampleMarshal epoch5State staleInfo (10 * Second) true).state.pm
            { typ := EVENT_TYPE_PARTITION_DELETE
              body := .deleteBody
                { partitionId := staleInfo.ID
                  leaderNodeId := ((epoch5State.partition.Leader.map (fun l => l.NodeID)).getD 0)
                  replicaRpcAddr := ""
                  replica := (some r) } }) ∧
      ((epoch5State.partition.takeChangeMemberTask (10 * Second)).2 = false →
        heartbeatKnown exampleMarshal epoch5State staleInfo (10 * Second) true
          = ⟨epoch5State, false⟩)) :=
  ⟨by decide, heartbeat_stale_epoch exampleMarshal epoch5State staleInfo (10 * Second) true
    (by decide)⟩

/-- C14, as stated, fails at its own example: the known partition has epoch 4, leader R1
and replicas R1, R2, its task latch is free and the target is 1 replica; the heartbeat of
epoch 4 from the leader R2 with follower R1 sets the leader to R2, and the replica count
check that follows queues a Delete event for R1. -/
theorem handover_event_counterexample :
    twoReplicaState.partition.Leader = some (mkReplica 1) ∧
    (sameEpochInfo (mkReplica 2) [mkReplica 1]).Epoch.ConfVersion
      = twoReplicaState.partition.meta.Epoch.ConfVersion ∧
    (mkReplica 2).ID ∈ twoReplicaState.partition.meta.Replicas.map (fun r => r.ID) ∧
    (heartbeatKnown exampleMarshal twoReplicaState (sameEpochInfo (mkReplica 2) [mkReplica 1])
      (10 * Second) true).state.partition.Leader = some (mkReplica 2) ∧
    (heartbeatKnown exampleMarshal twoReplicaState (sameEpochInfo (mkReplica 2) [mkReplica 1])
      (10 * Second) true).state.pm.eventCh
      = [{ typ := EVENT_TYPE_PARTITION_DELETE
           body := .deleteBody
             { partitionId := 7
               leaderNodeId := 2
               replicaRpcAddr := ""
               replica := (some (mkReplica 1)) } }] ∧
    (heartbeatKnown exampleMarshal twoReplicaState (sameEpochInfo (mkReplica 2) [mkReplica 1])
      (10 * Second) true).state.pm ≠ twoReplicaState.pm := by
  decide

/-- C14, amended: for a known partition with a known leader and a leader-reported info
of the same `ConfVersion` whose leader `L` has a replica ID among the known replicas,
the round sets the partition's leader to `L`, leaves record and store alone, and pushes
no event when the partition has exactly `FIXED_REPLICA_NUM` replicas or the task latch
is not acquired; with another replica count and the latch acquired it pushes exactly one
Delete event, addressed to the node of `L`. -/
theorem heartbeat_leader_handover (marshal : MetaPartition → Option (List Nat)) (s : HbState)
    (info : PartitionInfo) (now : Int) (putOk : Bool) (rs : RaftStatus)
    (hl : info.IsLeader = true) (hrs : info.RaftStatus = some rs)
    (heq : info.Epoch.ConfVersion = s.partition.meta.Epoch.ConfVersion)
    (hknown : s.partition.Leader ≠ none)
    (hmem : rs.Replica.ID ∈ s.partition.meta.Replicas.map (fun r => r.ID)) :
    (heartbeatKnown marshal s info now putOk).panicked = false ∧
    (heartbeatKnown marshal s info now putOk).state.partition.Leader = some rs.Replica ∧
    (heartbeatKnown marshal s info now putOk).state.partition.meta = s.partition.meta ∧
    (heartbeatKnown marshal s info now putOk).state.store = s.store ∧
    ((s.partition.countReplicas = FIXED_REPLICA_NUM ∨
        (s.partition.takeChangeMemberTask now).2 = false) →
      (heartbeatKnown marshal s info now putOk).state.pm = s.pm) ∧
    (s.partition.countReplicas ≠ FIXED_REPLICA_NUM →
      (s.partition.takeChangeMemberTask now).2 = true →
      pushedOnce s.pm (heartbeatKnown marshal s info now putOk).state.pm
        { typ := EVENT_TYPE_PARTITION_DELETE
          body := .deleteBody
            { partitionId := info.ID
              leaderNodeId := rs.Replica.NodeID
              replicaRpcAddr := ""
              replica := (some (firstOtherFollower rs)) } }) := by
  rw [heartbeatKnown_valid marshal s info now putOk rs hl hrs heq hknown hmem]
  have hf := checkReplicasCount_frame
    { s with partition := { s.partition with LastHeartbeat := now, Leader := some rs.Replica } }
    info now
  have hpos : 1 ≤ s.partition.countReplicas := by
    unfold Partition.countReplicas
    obtain ⟨x, hx, _⟩ := List.mem_map.1 hmem
    exact List.length_pos_of_mem hx
  have hti := take_indep s.partition now now (some rs.Replica)
  obtain ⟨h1, h2, h3⟩ := check_with_replicas
    { s with partition := { s.partition with LastHeartbeat := now, Leader := some rs.Replica } }
    info now rs hl hrs hpos
  refine ⟨h1, hf.2.1, hf.1, hf.2.2, ?_, ?_⟩
  · intro hc
    rw [h2 (hc.imp (fun h => h) (fun h => hti.trans h))]
  · intro hc ht
    exact (h3 hc (hti.trans ht)).2

/-- C14, amended, at the handover example with the task latch held: known epoch 4,
leader R1, replicas R1, R2; the heartbeat of epoch 4 from the leader R2 with follower R1
sets the leader to R2 and queues nothing. -/
theorem heartbeat_leader_handover_witness :
    (heartbeatKnown exampleMarshal exampleState (sameEpochInfo (mkReplica 2) [mkReplica 1])
      (10 * Second) true).state.pm.eventCh = [] ∧
    ((heartbeatKnown exampleMarshal exampleState (sameEpochInfo (mkReplica 2) [mkReplica 1])
        (10 * Second) true).panicked = false ∧
      (heartbeatKnown exampleMarshal exampleState (sameEpochInfo (mkReplica 2) [mkReplica 1])
        (10 * Second) true).state.partition.Leader = some (mkReplica 2) ∧
      (heartbeatKnown exampleMarshal exampleState (sameEpochInfo (mkReplica 2) [mkReplica 1])
        (10 * Second) true).state.partition.meta = exampleState.partition.meta ∧
      (heartbeatKnown exampleMarshal exampleState (sameEpochInfo (mkReplica 2) [mkReplica 1])
        (10 * Second) true).state.store = exampleState.store ∧
      ((exampleState.partition.countReplicas = FIXED_REPLICA_NUM ∨
          (exampleState.partition.takeChangeMemberTask (10 * Second)).2 = false) →
        (heartbeatKnown exampleMarshal exampleState (sameEpochInfo (mkReplica 2) [mkReplica 1])
          (10 * Second) true).state.pm = exampleState.pm) ∧
      (exampleState.partition.countReplicas ≠ FIXED_REPLICA_NUM →
        (exampleState.partition.takeChangeMemberTask (10 * Second)).2 = true →
        pushedOnce exampleState.pm
          (heartbeatKnown exampleMarshal exampleState
            (sameEpochInfo (mkReplica 2) [mkReplica 1]) (10 * Second) true).state.pm
          { typ := EVENT_TYPE_PARTITION_DELETE
            body := .deleteBody
              { partitionId := (sameEpochInfo (mkReplica 2) [mkReplica 1]).ID
                leaderNodeId := (mkReplica 2).NodeID
                replicaRpcAddr := ""
                replica := (some (firstOtherFollower ⟨mkReplica 2, [⟨mkReplica 1⟩]⟩)) } })) :=
  ⟨by decide,
    heartbeat_leader_handover exampleMarshal exampleState
      (sameEpochInfo (mkReplica 2) [mkReplica 1]) (10 * Second) true
      ⟨mkReplica 2, [⟨mkReplica 1⟩]⟩ rfl rfl rfl (by decide) (by decide)⟩

/-- C15: for a known partition with a known leader and a leader-reported info of the
same `ConfVersion` whose leader `L` has a replica ID not among the known replicas,
`ValidateAndUpdateLeaderByCond` reports `illegal = true` and changes nothing; the round
leaves record, leader, last heartbeat and store as they were; when the task latch is
acquired exactly one Delete event is pushed, for the replica `pickReplicaToDelete` picks
(`L` itself when the info lists no follower with another ID); when the latch is not
acquired nothing is pushed and nothing changes. -/
theorem heartbeat_illegal_leader (marshal : MetaPartition → Option (List Nat)) (s : HbState)
    (info : PartitionInfo) (now : Int) (putOk : Bool) (rs : RaftStatus)
    (hl : info.IsLeader = true) (hrs : info.RaftStatus = some rs)
    (heq : info.Epoch.ConfVersion = s.partition.meta.Epoch.ConfVersion)
    (hknown : s.partition.Leader ≠ none)
    (hnot : rs.Replica.ID ∉ s.partition.meta.Replicas.map (fun r => r.ID)) :
    s.partition.ValidateAndUpdateLeaderByCond now info (some rs.Replica)
      = .ok ⟨s.partition, false, true, false⟩ ∧
    (heartbeatKnown marshal s info now putOk).state.partition.meta = s.partition.meta ∧
    (heartbeatKnown marshal s info now putOk).state.partition.Leader = s.partition.Leader ∧
    (heartbeatKnown marshal s info now putOk).state.store = s.store ∧
    pickReplicaToDelete (some info) = .ok (some (firstOtherFollower rs)) ∧
    ((∀ f ∈ rs.Followers, f.Replica.ID = rs.Replica.ID) → firstOtherFollower rs = rs.Replica) ∧
    ((s.partition.takeChangeMemberTask now).2 = true →
      (heartbeatKnown marshal s info now putOk).panicked = false ∧
      (heartbeatKnown marshal s info now putOk).state.partition = s.partition.latched now ∧
      pushedOnce s.pm (heartbeatKnown marshal s info now putOk).state.pm
        { typ := EVENT_TYPE_PARTITION_DELETE
          body := .deleteBody
            { partitionId := info.ID
              leaderNodeId := rs.Replica.NodeID
              replicaRpcAddr := ""
              replica := (some (firstOtherFollower rs)) } }) ∧
    ((s.partition.takeChangeMemberTask now).2 = false →
      heartbeatKnown marshal s info now putOk = ⟨s, false⟩) := by
  have hpd := pickReplicaToDelete_leader info rs hl hrs
  have hV : s.partition.ValidateAndUpdateLeaderByCond now info (some rs.Replica)
      = .ok ⟨s.partition, false, true, false⟩ := by
    rw [validate_eq, if_neg (by simp [heq]), if_neg hknown, if_neg hnot]
  rw [heartbeatKnown_equal marshal s info now putOk rs.Replica heq
    (pickLeaderReplica_leader info rs hl hrs), if_neg hknown, if_neg hnot]
  have hf := pushDelete_frame s info now (fun _ => rs.Replica.NodeID)
  refine ⟨hV, hf.1, hf.2.1, hf.2.2, hpd, firstOtherFollower_alone rs, ?_, ?_⟩
  · intro ht
    rw [pushDelete_taken s info now _ _ ht hpd]
    exact ⟨rfl, rfl, pushedOnce_delete s.pm _ _ _⟩
  · intro ht
    exact pushDelete_not_taken s info now _ ht

/-- C15 at the illegal-leader scenario: known epoch 4 with the replica R1; the heartbeat
of epoch 4 comes from the leader R9 alone; one Delete event for R9 is queued and the
partition's record and leader stay as they were. -/
theorem heartbeat_illegal_leader_witness :
    (heartbeatKnown exampleMarshal oneReplicaState (sameEpochInfo (mkReplica 9) [])
      (10 * Second) true).state.pm.eventCh
      = [{ typ := EVENT_TYPE_PARTITION_DELETE
           body := .deleteBody
             { partitionId := 7
               leaderNodeId := 9
               replicaRpcAddr := ""
               replica := (some (mkReplica 9)) } }] ∧
    (heartbeatKnown exampleMarshal oneReplicaState (sameEpochInfo (mkReplica 9) [])
      (10 * Second) true).state.partition.meta = oneReplicaState.partition.meta ∧
    (heartbeatKnown exampleMarshal oneReplicaState (sameEpochInfo (mkReplica 9) [])
      (10 * Second) true).state.partition.Leader = some (mkReplica 1) ∧
    oneReplicaState.partition.ValidateAndUpdateLeaderByCond (10 * Second)
        (sameEpochInfo (mkReplica 9) []) (some (mkReplica 9))
      = .ok ⟨oneReplicaState.partition, false, true, false⟩ :=
  ⟨by decide, by decide, by decide,
    (heartbeat_illegal_leader exampleMarshal oneReplicaState (sameEpochInfo (mkReplica 9) [])
      (10 * Second) true ⟨mkReplica 9, []⟩ rfl rfl rfl (by decide) (by decide)).1⟩

/-- C16, as stated, fails when the round acquires the task latch. The known partition
has epoch 4, leader R1, replicas R1, R2 and a free task latch; the heartbeat of epoch 4
from the same leader R1 with follower R2 leaves the leader, but the replica count check
that follows takes the task latch and queues a Delete event, so more than
`LastHeartbeat` has changed. The same happens with the right replica count when the
known leader is not among the replicas: with the replica R1, the leader R9 and a free
latch, the heartbeat from R9 takes the latch. -/
theorem same_leader_latch_counterexample :
    twoReplicaState.partition.Leader = some (mkReplica 1) ∧
    (sameEpochInfo (mkReplica 1) [mkReplica 2]).Epoch.ConfVersion
      = twoReplicaState.partition.meta.Epoch.ConfVersion ∧
    pickLeaderReplica (some (sameEpochInfo (mkReplica 1) [mkReplica 2]))
      = .ok (some (mkReplica 1)) ∧
    twoReplicaState.partition.taskFlag = false ∧
    (heartbeatKnown exampleMarshal twoReplicaState (sameEpochInfo (mkReplica 1) [mkReplica 2])
      (10 * Second) true).state.partition.taskFlag = true ∧
    (heartbeatKnown exampleMarshal twoReplicaState (sameEpochInfo (mkReplica 1) [mkReplica 2])
      (10 * Second) true).state.partition.taskTimeout = 10 * Second ∧
    (heartbeatKnown exampleMarshal twoReplicaState (sameEpochInfo (mkReplica 1) [mkReplica 2])
      (10 * Second) true).state.partition
      ≠ { twoReplicaState.partition with LastHeartbeat := 10 * Second } ∧
    strayLeaderState.partition.Leader = some (mkReplica 9) ∧
    pickLeaderReplica (some (sameEpochInfo (mkReplica 9) [])) = .ok (some (mkReplica 9)) ∧
    strayLeaderState.partition.countReplicas = FIXED_REPLICA_NUM ∧
    strayLeaderState.partition.taskFlag = false ∧
    (heartbeatKnown exampleMarshal strayLeaderState (sameEpochInfo (mkReplica 9) [])
      (10 * Second) true).state.partition.taskFlag = true :=
  ⟨rfl, rfl, rfl, rfl, by decide, by decide, by decide, rfl, rfl, by decide, rfl, by decide⟩

/-- C16, amended: for a known partition and a leader-reported info whose `ConfVersion`
equals the master's and whose leader is identical to the known leader, the round writes
nothing to the store and changes neither the record (replicas, epoch, status) nor the
leader. It changes no field of the partition other than `LastHeartbeat`, and pushes no
event, when the task latch is not acquired, and when the partition has exactly
`FIXED_REPLICA_NUM` replicas with the leader's ID among them; in the remaining cases it
takes the task latch. -/
theorem heartbeat_same_leader (marshal : MetaPartition → Option (List Nat)) (s : HbState)
    (info : PartitionInfo) (now : Int) (putOk : Bool) (rs : RaftStatus)
    (hl : info.IsLeader = true) (hrs : info.RaftStatus = some rs)
    (heq : info.Epoch.ConfVersion = s.partition.meta.Epoch.ConfVersion)
    (hsame : s.partition.Leader = some rs.Replica) :
    (heartbeatKnown marshal s info now putOk).state.store = s.store ∧
    (heartbeatKnown marshal s info now putOk).state.partition.meta = s.partition.meta ∧
    (heartbeatKnown marshal s info now putOk).state.partition.Leader = s.partition.Leader ∧
    (rs.Replica.ID ∈ s.partition.meta.Replicas.map (fun r => r.ID) →
      (s.partition.countReplicas = FIXED_REPLICA_NUM ∨
        (s.partition.takeChangeMemberTask now).2 = false) →
      heartbeatKnown marshal s info now putOk
        = ⟨{ s with partition := { s.partition with LastHeartbeat := now } }, false⟩) ∧
    (rs.Replica.ID ∉ s.partition.meta.Replicas.map (fun r => r.ID) →
      (s.partition.takeChangeMemberTask now).2 = false →
      heartbeatKnown marshal s info now putOk = ⟨s, false⟩) ∧
    ((s.partition.takeChangeMemberTask now).2 = true →
      (rs.Replica.ID ∉ s.partition.meta.Replicas.map (fun r => r.ID) ∨
        s.partition.countReplicas ≠ FIXED_REPLICA_NUM) →
      (heartbeatKnown marshal s info now putOk).state.partition.taskFlag = true ∧
      (heartbeatKnown marshal s info now putOk).state.partition.taskTimeout = now) := by
  have hknown : s.partition.Leader ≠ none := by rw [hsame]; simp
  have hpd := pickReplicaToDelete_leader info rs hl hrs
  rw [heartbeatKnown_equal marshal s info now putOk rs.Replica heq
    (pickLeaderReplica_leader info rs hl hrs), if_neg hknown]
  by_cases hmem : rs.Replica.ID ∈ s.partition.meta.Replicas.map (fun r => r.ID)
  · rw [if_pos hmem]
    have hf := checkReplicasCount_frame
      { s with partition := { s.partition with LastHeartbeat := now, Leader := some rs.Replica } }
      info now
    have hpos : 1 ≤ s.partition.countReplicas := by
      unfold Partition.countReplicas
      obtain ⟨x, hx, _⟩ := List.mem_map.1 hmem
      exact List.length_pos_of_mem hx
    have hti := take_indep s.partition now now (some rs.Replica)
    obtain ⟨_, h2, h3⟩ := check_with_replicas
      { s with partition := { s.partition with LastHeartbeat := now, Leader := some rs.Replica } }
      info now rs hl hrs hpos
    refine ⟨hf.2.2, hf.1, ?_, ?_, fun h => absurd hmem h, ?_⟩
    · rw [hf.2.1, hsame]
    · intro _ hc
      rw [h2 (hc.imp (fun h => h) (fun h => hti.trans h)), ← hsame]
    · intro ht hc
      rcases hc with hc | hc
      · exact absurd hmem hc
      · rw [(h3 hc (hti.trans ht)).1]
        exact ⟨rfl, rfl⟩
  · rw [if_neg hmem]
    have hf := pushDelete_frame s info now (fun _ => rs.Replica.NodeID)
    refine ⟨hf.2.2, hf.1, hf.2.1, fun h => absurd h hmem, ?_, ?_⟩
    · intro _ ht
      exact pushDelete_not_taken s info now _ ht
    · intro ht _
      rw [pushDelete_taken s info now _ _ ht hpd]
      exact ⟨rfl, rfl⟩

/-- C16, amended, at two examples: with known epoch 4, replica R1 and leader R1, the
heartbeat of epoch 4 from the leader R1 at 10 s changes `LastHeartbeat` and nothing
else; so does, with the replicas R1, R2 and the task latch held, the heartbeat from the
leader R1 with follower R2. -/
theorem heartbeat_same_leader_witness :
    heartbeatKnown exampleMarshal oneReplicaState (sameEpochInfo (mkReplica 1) [])
        (10 * Second) true
      = ⟨{ oneReplicaState with
          partition := { oneReplicaState.partition with LastHeartbeat := 10 * Second } },
        false⟩ ∧
    exampleState.partition.countReplicas ≠ FIXED_REPLICA_NUM ∧
    heartbeatKnown exampleMarshal exampleState (sameEpochInfo (mkReplica 1) [mkReplica 2])
        (10 * Second) true
      = ⟨{ exampleState with
          partition := { exampleState.partition with LastHeartbeat := 10 * Second } },
        false⟩ :=
  ⟨(heartbeat_same_leader exampleMarshal oneReplicaState (sameEpochInfo (mkReplica 1) [])
      (10 * Second) true ⟨mkReplica 1, []⟩ rfl rfl rfl rfl).2.2.2.1 (by decide)
      (Or.inl (by decide)),
    by decide,
    (heartbeat_same_leader exampleMarshal exampleState
      (sameEpochInfo (mkReplica 1) [mkReplica 2])
      (10 * Second) true ⟨mkReplica 1, [⟨mkReplica 2⟩]⟩ rfl rfl rfl rfl).2.2.2.1 (by decide)
      (Or.inr (by decide))⟩

/-- C17: when a heartbeat round meets an info whose partition ID is absent from the
partition cache and `pickReplicaToDelete` yields a replica `r`, exactly one ForceDelete
event (that partition ID, the RPC address of the reporting server, `r`) is pushed, and
the cache and the store are as before: no partition is added or modified. A heartbeat
from a registered server on the leader master runs this round for each of its infos. -/
theorem heartbeat_unknown_partition (marshal : MetaPartition → Option (List Nat))
    (rpcAddr : String) (z : ZMState) (r : HbRound) (replica : Replica)
    (hunknown : z.PartitionCache.FindPartitionById r.info.ID = none)
    (hpick : pickReplicaToDelete (some r.info) = .ok (some replica)) :
    (heartbeatInfo marshal rpcAddr z r).panicked = false ∧
    (heartbeatInfo marshal rpcAddr z r).state.PartitionCache = z.PartitionCache ∧
    (heartbeatInfo marshal rpcAddr z r).state.store = z.store ∧
    pushedOnce z.pm (heartbeatInfo marshal rpcAddr z r).state.pm
      { typ := EVENT_TYPE_FORCE_PARTITION_DELETE
        body := .deleteBody
          { partitionId := r.info.ID
            leaderNodeId := 0
            replicaRpcAddr := rpcAddr
            replica := (some replica) } } ∧
    (∀ (findServerById : Nat → Option PartitionServer) (nodeID : Nat) (ps : PartitionServer)
        (rounds : List HbRound),
      findServerById nodeID = some ps →
      PSHeartbeat marshal true findServerById z nodeID (some rounds)
        = (heartbeatLoop marshal ps.getRpcAddr z rounds, .ErrSuc) ∧
      heartbeatLoop marshal ps.getRpcAddr z [r] = heartbeatInfo marshal ps.getRpcAddr z r) := by
  have hI : heartbeatInfo marshal rpcAddr z r =
      ⟨{ z with pm := (z.pm.PushEvent
        (some { typ := EVENT_TYPE_FORCE_PARTITION_DELETE
                body := .deleteBody
                  { partitionId := r.info.ID
                    leaderNodeId := 0
                    replicaRpcAddr := rpcAddr
                    replica := (some replica) } })).1 }, false⟩ := by
    unfold heartbeatInfo
    dsimp only
    rw [hunknown, hpick]
    rfl
  rw [hI]
  refine ⟨rfl, rfl, rfl, pushedOnce_force z.pm _ _ _, ?_⟩
  intro findServerById nodeID ps rounds hps
  refine ⟨?_, heartbeatLoop_single marshal ps.getRpcAddr z r⟩
  unfold PSHeartbeat
  simp [hps]

/-- C17 at an example: the master knows no partition; the server at "10.0.0.1:8000"
reports partition 7 led by R2 with follower R3; one ForceDelete event for R3 at that
address is queued and the cache stays empty. -/
theorem heartbeat_unknown_partition_witness :
    (PSHeartbeat exampleMarshal true (fun id => some ⟨id, "10.0.0.1:8000"⟩) emptyZM 1
      (some [exampleRound])).1.state.pm.eventCh
      = [{ typ := EVENT_TYPE_FORCE_PARTITION_DELETE
           body := .deleteBody
             { partitionId := 7
               leaderNodeId := 0
               replicaRpcAddr := "10.0.0.1:8000"
               replica := (some (mkReplica 3)) } }] ∧
    (PSHeartbeat exampleMarshal true (fun id => some ⟨id, "10.0.0.1:8000"⟩) emptyZM 1
      (some [exampleRound])).1.state.PartitionCache = emptyZM.PartitionCache ∧
    ((heartbeatInfo exampleMarshal "10.0.0.1:8000" emptyZM exampleRound).panicked = false ∧
      (heartbeatInfo exampleMarshal "10.0.0.1:8000" emptyZM exampleRound).state.PartitionCache
        = emptyZM.PartitionCache ∧
      (heartbeatInfo exampleMarshal "10.0.0.1:8000" emptyZM exampleRound).state.store
        = emptyZM.store ∧
      pushedOnce emptyZM.pm
        (heartbeatInfo exampleMarshal "10.0.0.1:8000" emptyZM exampleRound).state.pm
        { typ := EVENT_TYPE_FORCE_PARTITION_DELETE
          body := .deleteBody
            { partitionId := exampleRound.info.ID
              leaderNodeId := 0
              replicaRpcAddr := "10.0.0.1:8000"
              replica := (some (mkReplica 3)) } }) :=
  ⟨by decide, by decide,
    let h := heartbeat_unknown_partition exampleMarshal "10.0.0.1:8000" emptyZM exampleRound
      (mkReplica 3) rfl rfl
    ⟨h.1, h.2.1, h.2.2.1, h.2.2.2.1⟩⟩

/-- C18: when the store refuses the write, `addReplica`, `deleteReplica` and
`UpdateReplicaGroupByCond` leave the in-memory partition and the store entirely
unchanged; `addReplica` returns an error, which is the store's once the copy is encoded;
`deleteReplica` does so whenever its loop does not panic; `UpdateReplicaGroupByCond`
returns `updateOk = false`, and `(false, false)` when it has not rejected the heartbeat,
which it does whenever the info carries a raft status. -/
theorem put_failure_changes_nothing (marshal : MetaPartition → Option (List Nat))
    (p : Partition) (store : Store) (metaReplicas : List Replica) (now : Int)
    (info : PartitionInfo) (leaderReplica : Option Replica) :
    ((p.addReplica marshal store false metaReplicas).partition = p ∧
      (p.addReplica marshal store false metaReplicas).store = store ∧
      (p.addReplica marshal store false metaReplicas).panicked = false ∧
      (p.addReplica marshal store false metaReplicas).err ≠ none ∧
      ((marshal { p.meta with Replicas := p.meta.Replicas ++ metaReplicas }).isSome = true →
        (p.addReplica marshal store false metaReplicas).err = some .putFailed)) ∧
    ((p.deleteReplica marshal store false metaReplicas).partition = p ∧
      (p.deleteReplica marshal store false metaReplicas).store = store ∧
      ((p.deleteReplica marshal store false metaReplicas).panicked = false →
        (p.deleteReplica marshal store false metaReplicas).err ≠ none) ∧
      (∀ replicas,
        deleteOuter p.meta.Replicas.length p.meta.Replicas metaReplicas = .ok replicas →
        (marshal { p.meta with Replicas := replicas }).isSome = true →
        (p.deleteReplica marshal store false metaReplicas).panicked = false ∧
        (p.deleteReplica marshal store false metaReplicas).err = some .putFailed)) ∧
    ((∀ r, p.UpdateReplicaGroupByCond marshal store false now info leaderReplica = .ok r →
        r.partition = p ∧ r.store = store ∧ r.updateOk = false ∧
        (¬ (info.Epoch.ConfVersion < p.meta.Epoch.ConfVersion ∨
            (info.Epoch.ConfVersion = p.meta.Epoch.ConfVersion ∧ p.Leader ≠ none)) →
          r.verExpired = false)) ∧
      (info.RaftStatus ≠ none →
        ∃ r, p.UpdateReplicaGroupByCond marshal store false now info leaderReplica = .ok r)) := by
  refine ⟨?_, ?_, ?_, ?_⟩
  · unfold Partition.addReplica
    dsimp only
    rw [persistCopy_fail]
    refine ⟨rfl, rfl, rfl, by simp, ?_⟩
    intro h
    simp [h]
  · unfold Partition.deleteReplica
    cases hout : deleteOuter p.meta.Replicas.length p.meta.Replicas metaReplicas with
    | error e =>
      refine ⟨rfl, rfl, ?_, ?_⟩
      · intro h; cases h
      · intro replicas h; cases h
    | ok replicas =>
      dsimp only
      rw [persistCopy_fail]
      refine ⟨rfl, rfl, fun _ => by simp, ?_⟩
      intro replicas2 h hm
      cases h
      simp [hm]
  · intro r hr
    by_cases hc : info.Epoch.ConfVersion < p.meta.Epoch.ConfVersion ∨
        (info.Epoch.ConfVersion = p.meta.Epoch.ConfVersion ∧ p.Leader ≠ none)
    · rw [update_stale marshal p store false now info leaderReplica hc] at hr
      cases hr
      exact ⟨rfl, rfl, rfl, fun h => absurd hc h⟩
    · rw [update_fresh marshal p store false now info leaderReplica hc] at hr
      cases hrs : info.RaftStatus with
      | none => rw [hrs] at hr; cases hr
      | some rs =>
        rw [hrs] at hr
        dsimp only at hr
        split at hr
        · cases hr; exact ⟨rfl, rfl, rfl, fun _ => rfl⟩
        · next key val hmar =>
          simp only [Store.Put, Bool.false_eq_true, if_false] at hr
          cases hr; exact ⟨rfl, rfl, rfl, fun _ => rfl⟩
  · intro hrs
    by_cases hc : info.Epoch.ConfVersion < p.meta.Epoch.ConfVersion ∨
        (info.Epoch.ConfVersion = p.meta.Epoch.ConfVersion ∧ p.Leader ≠ none)
    · exact ⟨_, update_stale marshal p store false now info leaderReplica hc⟩
    · rw [update_fresh marshal p store false now info leaderReplica hc]
      cases hrs2 : info.RaftStatus with
      | none => exact absurd hrs2 hrs
      | some rs =>
        dsimp only
        split
        · exact ⟨_, rfl⟩
        · simp only [Store.Put, Bool.false_eq_true, if_false]
          exact ⟨_, rfl⟩

/-- C19, as stated, fails for `deleteReplica`, which never touches the leader: the
partition with the single replica R1 and the leader R1 satisfies the invariant, and after
the successful `deleteReplica(R1)` it has no replica and still the leader R1. -/
theorem deleteReplica_leader_counterexample :
    oneReplicaState.partition.leaderAmongReplicas ∧
    (oneReplicaState.partition.deleteReplica exampleMarshal ⟨[]⟩ true [mkReplica 1]).err = none ∧
    (oneReplicaState.partition.deleteReplica exampleMarshal ⟨[]⟩ true [mkReplica 1]).panicked
      = false ∧
    (oneReplicaState.partition.deleteReplica exampleMarshal ⟨[]⟩ true
      [mkReplica 1]).partition.meta.Replicas = [] ∧
    (oneReplicaState.partition.deleteReplica exampleMarshal ⟨[]⟩ true
      [mkReplica 1]).partition.Leader = some (mkReplica 1) ∧
    ¬ (oneReplicaState.partition.deleteReplica exampleMarshal ⟨[]⟩ true
      [mkReplica 1]).partition.leaderAmongReplicas := by
  refine ⟨?_, by decide, by decide, by decide, by decide, ?_⟩
  · intro l hl
    cases hl
    decide
  · intro h
    have := h (mkReplica 1) (by decide)
    revert this
    decide

/-- C19, amended: if the partition has no leader or a leader whose ID is the ID of one of
its replicas, the same holds after every successful `addReplica`, and after every
successful `deleteReplica` whose list does not name the leader's replica ID. -/
theorem replica_ops_keep_leader (marshal : MetaPartition → Option (List Nat)) (p : Partition)
    (store : Store) (putOk : Bool) (metaReplicas : List Replica)
    (hinv : p.Leader = none ∨
      ∃ l, p.Leader = some l ∧ l.ID ∈ p.meta.Replicas.map (fun r => r.ID)) :
    ((p.addReplica marshal store putOk metaReplicas).err = none →
      ((p.addReplica marshal store putOk metaReplicas).partition.Leader = none ∨
        ∃ l, (p.addReplica marshal store putOk metaReplicas).partition.Leader = some l ∧
          l.ID ∈ (p.addReplica marshal store putOk metaReplicas).partition.meta.Replicas.map
            (fun r => r.ID))) ∧
    ((p.deleteReplica marshal store putOk metaReplicas).err = none →
      (p.deleteReplica marshal store putOk metaReplicas).panicked = false →
      (∀ l, p.Leader = some l → l.ID ∉ metaReplicas.map (fun r => r.ID)) →
      ((p.deleteReplica marshal store putOk metaReplicas).partition.Leader = none ∨
        ∃ l, (p.deleteReplica marshal store putOk metaReplicas).partition.Leader = some l ∧
          l.ID ∈ (p.deleteReplica marshal store putOk metaReplicas).partition.meta.Replicas.map
            (fun r => r.ID))) := by
  refine ⟨?_, ?_⟩
  · intro herr
    rw [addReplica_ok marshal p store putOk metaReplicas herr]
    rcases hinv with h0 | ⟨l, h1, h2⟩
    · exact Or.inl h0
    · refine Or.inr ⟨l, h1, ?_⟩
      show l.ID ∈ (p.meta.Replicas ++ metaReplicas).map (fun r => r.ID)
      rw [List.map_append]
      exact List.mem_append_left _ h2
  · intro herr hpan hnot
    rw [deleteReplica_ok marshal p store putOk metaReplicas herr hpan]
    rcases hinv with h0 | ⟨l, h1, h2⟩
    · exact Or.inl h0
    · refine Or.inr ⟨l, h1, ?_⟩
      show l.ID ∈ (p.meta.Replicas.filter (keptBy metaReplicas)).map (fun r => r.ID)
      obtain ⟨x, hx, hxe⟩ := List.mem_map.1 h2
      refine List.mem_map.2 ⟨x, List.mem_filter.2 ⟨hx, ?_⟩, hxe⟩
      rw [keptBy_iff]
      intro m hm heq
      exact hnot l h1 (List.mem_map.2 ⟨m, hm, by rw [← heq, hxe]⟩)

/-- C19, amended, at an example: the partition with replicas R1, R2 and leader R1 keeps
its invariant when R3 is added and when R2 is deleted. -/
theorem replica_ops_keep_leader_witness :
    (twoReplicaPartition.deleteReplica exampleMarshal ⟨[]⟩ true
      [mkReplica 2]).partition.meta.Replicas = [mkReplica 1] ∧
    (twoReplicaPartition.addReplica exampleMarshal ⟨[]⟩ true
      [mkReplica 3]).partition.meta.Replicas = [mkReplica 1, mkReplica 2, mkReplica 3] ∧
    ((twoReplicaPartition.deleteReplica exampleMarshal ⟨[]⟩ true [mkReplica 2]).partition.Leader
        = none ∨
      ∃ l, (twoReplicaPartition.deleteReplica exampleMarshal ⟨[]⟩ true
          [mkReplica 2]).partition.Leader = some l ∧
        l.ID ∈ (twoReplicaPartition.deleteReplica exampleMarshal ⟨[]⟩ true
          [mkReplica 2]).partition.meta.Replicas.map (fun r => r.ID)) :=
  ⟨by decide, by decide,
    (replica_ops_keep_leader exampleMarshal twoReplicaPartition ⟨[]⟩ true [mkReplica 2]
      (Or.inr ⟨mkReplica 1, rfl, by decide⟩)).2 (by decide) (by decide)
      (by intro l hl; cases hl; decide)⟩

/-- C20, as stated, fails for `addReplica`, which appends whatever it is given: the
partition with the single replica R1 has pairwise distinct replica IDs, and after the
successful `addReplica(R1)` it has the replicas R1, R1. -/
theorem addReplica_duplicate_counterexample :
    oneReplicaState.partition.distinctReplicaIDs ∧
    (oneReplicaState.partition.addReplica exampleMarshal ⟨[]⟩ true [mkReplica 1]).err = none ∧
    (oneReplicaState.partition.addReplica exampleMarshal ⟨[]⟩ true
      [mkReplica 1]).partition.meta.Replicas = [mkReplica 1, mkReplica 1] ∧
    ¬ (oneReplicaState.partition.addReplica exampleMarshal ⟨[]⟩ true
      [mkReplica 1]).partition.distinctReplicaIDs := by
  unfold Partition.distinctReplicaIDs
  decide

/-- C20, amended: for a partition whose replica IDs are pairwise distinct, they are
still pairwise distinct after every successful `deleteReplica`, and after every
successful `addReplica` of replicas whose IDs are pairwise distinct and not yet among the
partition's; after a successful `UpdateReplicaGroupByCond` they are pairwise distinct
when the IDs of the reported replica and of the reported followers are. -/
theorem replica_ops_keep_distinct (marshal : MetaPartition → Option (List Nat)) (p : Partition)
    (store : Store) (putOk : Bool) (metaReplicas : List Replica) (now : Int)
    (info : PartitionInfo) (leaderReplica : Option Replica)
    (hd : p.distinctReplicaIDs) :
    ((p.deleteReplica marshal store putOk metaReplicas).err = none →
      (p.deleteReplica marshal store putOk metaReplicas).panicked = false →
      (p.deleteReplica marshal store putOk metaReplicas).partition.distinctReplicaIDs) ∧
    ((p.addReplica marshal store putOk metaReplicas).err = none →
      (metaReplicas.map (fun r => r.ID)).Nodup →
      (∀ m ∈ metaReplicas, m.ID ∉ p.meta.Replicas.map (fun r => r.ID)) →
      (p.addReplica marshal store putOk metaReplicas).partition.distinctReplicaIDs) ∧
    (∀ r rs, p.UpdateReplicaGroupByCond marshal store putOk now info leaderReplica = .ok r →
      r.updateOk = true → info.RaftStatus = some rs →
      ((rs.Replica :: rs.Followers.map (fun f => f.Replica)).map (fun x => x.ID)).Nodup →
      r.partition.distinctReplicaIDs) := by
  unfold Partition.distinctReplicaIDs at hd ⊢
  refine ⟨?_, ?_, ?_⟩
  · intro herr hpan
    rw [deleteReplica_ok marshal p store putOk metaReplicas herr hpan]
    exact List.Nodup.sublist ((List.filter_sublist _).map _) hd
  · intro herr hnd hnew
    rw [addReplica_ok marshal p store putOk metaReplicas herr]
    show ((p.meta.Replicas ++ metaReplicas).map (fun r => r.ID)).Nodup
    rw [List.map_append, List.nodup_append]
    refine ⟨hd, hnd, ?_⟩
    intro a ha hb
    obtain ⟨m, hm, hme⟩ := List.mem_map.1 hb
    exact hnew m hm (by rw [hme]; exact ha)
  · intro r rs hU hok hrs hnd
    rcases update_cases marshal p store putOk now info leaderReplica r hU with
      ⟨_, _, h3⟩ | ⟨_, _, _, _, _, rs2, hrs2, hrep⟩
    · rw [h3] at hok; cases hok
    · rw [hrs] at hrs2
      cases hrs2
      rw [hrep]
      exact hnd

/-- C20, amended, at an example: the partition with replicas R1, R2 keeps pairwise
distinct replica IDs when R2 is deleted. -/
theorem replica_ops_keep_distinct_witness :
    twoReplicaPartition.distinctReplicaIDs ∧
    (twoReplicaPartition.deleteReplica exampleMarshal ⟨[]⟩ true
      [mkReplica 2]).partition.distinctReplicaIDs :=
  ⟨by unfold Partition.distinctReplicaIDs; decide,
    (replica_ops_keep_distinct exampleMarshal twoReplicaPartition ⟨[]⟩ true [mkReplica 2] 0
      exampleInfo none (by unfold Partition.distinctReplicaIDs; decide)).1
      (by decide) (by decide)⟩

/-- C21, as stated, has no instance: a slot bound is a 32-bit unsigned integer, so no
partition has the end slot 2^32, and the half-open interval of every partition with
32-bit bounds leaves the slot 2^32 − 1 out. The tree holding the widest partition,
[0, 2^32 − 1), answers nothing for `search (2^32 − 1)`, and no single-partition tree
with 32-bit bounds answers its partition there. -/
theorem top_slot_counterexample :
    (⟨[widestPartition]⟩ : PartitionTree).search (2 ^ 32 - 1) = none ∧
    ¬ ∃ p : Partition, p.slots32 ∧ (⟨[p]⟩ : PartitionTree).search (2 ^ 32 - 1) = some p := by
  have key : ∀ p : Partition, p.slots32 →
      (⟨[p]⟩ : PartitionTree).search (2 ^ 32 - 1) ≠ some p := by
    intro p hp h
    have hm := find_mem ⟨[p]⟩ (slotProbe (2 ^ 32 - 1)) p h
    have h2 : (2 ^ 32 - 1 : Nat) < p.EndSlot := hm.2.2
    have h3 : p.EndSlot < 2 ^ 32 := hp.2
    omega
  refine ⟨?_, ?_⟩
  · cases h : (⟨[widestPartition]⟩ : PartitionTree).search (2 ^ 32 - 1) with
    | none => rfl
    | some q =>
      exfalso
      have hm := find_mem ⟨[widestPartition]⟩ (slotProbe (2 ^ 32 - 1)) q h
      have hq : q = widestPartition := by simpa using hm.1
      rw [hq] at h
      exact key widestPartition (by unfold Partition.slots32 slotCount; decide) h
  · rintro ⟨p, hp, h⟩
    exact key p hp h

/-- C21, amended: in a tree holding the single partition with start slot 0 and the
largest 32-bit end slot 2^32 − 1, `search` returns that partition for every slot from 0
to 2^32 − 2, in particular for slot 0, and returns no partition for slot 2^32 − 1. -/
theorem widest_partition_search (p : Partition) (hs : p.StartSlot = 0)
    (he : p.EndSlot = 2 ^ 32 - 1) :
    (⟨[p]⟩ : PartitionTree).search 0 = some p ∧
    (∀ s, s < 2 ^ 32 - 1 → (⟨[p]⟩ : PartitionTree).search s = some p) ∧
    (⟨[p]⟩ : PartitionTree).search (2 ^ 32 - 1) = none := by
  have ho : (⟨[p]⟩ : PartitionTree).ordered := List.pairwise_singleton _ _
  have hsep : (⟨[p]⟩ : PartitionTree).separated := by
    intro a ha b hb hab
    simp only [List.mem_singleton] at ha hb
    subst ha; subst hb; omega
  have hin : ∀ s, s < 2 ^ 32 - 1 → (⟨[p]⟩ : PartitionTree).search s = some p := by
    intro s hlt
    refine find_of_contains_sep ⟨[p]⟩ ho hsep (slotProbe s) p (List.mem_singleton.2 rfl) ?_
    rw [contains_iff]
    show p.StartSlot ≤ s ∧ s < p.EndSlot
    omega
  refine ⟨hin 0 (by decide), hin, ?_⟩
  cases h : (⟨[p]⟩ : PartitionTree).search (2 ^ 32 - 1) with
  | none => rfl
  | some q =>
    exfalso
    have hm := find_mem ⟨[p]⟩ (slotProbe (2 ^ 32 - 1)) q h
    have hq : q = p := by simpa using hm.1
    have h2 : (2 ^ 32 - 1 : Nat) < q.EndSlot := hm.2.2
    rw [hq] at h2
    omega

/-- C21, amended, at the widest example partition. -/
theorem widest_partition_search_witness :
    (⟨[widestPartition]⟩ : PartitionTree).search 0 = some widestPartition ∧
    (∀ s, s < 2 ^ 32 - 1 → (⟨[widestPartition]⟩ : PartitionTree).search s
      = some widestPartition) ∧
    (⟨[widestPartition]⟩ : PartitionTree).search (2 ^ 32 - 1) = none :=
  widest_partition_search widestPartition rfl rfl

/-- C22: with the event queue as state, on a started manager `PushEvent` of a Create,
Delete or ForceDelete event returns `ErrSysBusy` iff the queue holds at least 900 events,
and then leaves the manager unchanged; otherwise it appends the event at the tail and
returns no error. A nil event, a manager that is not started, and any other event type
give `ErrInternalError` and leave the manager unchanged. -/
theorem pushEvent_contract (pm : ProcessorManager) (ev : ProcessorEvent) :
    (pm.isStarted = true →
      (ev.typ = EVENT_TYPE_PARTITION_CREATE ∨ ev.typ = EVENT_TYPE_PARTITION_DELETE ∨
        ev.typ = EVENT_TYPE_FORCE_PARTITION_DELETE) →
      ((pm.PushEvent (some ev)).2 = some .ErrSysBusy ↔ 900 ≤ pm.eventCh.length) ∧
      (900 ≤ pm.eventCh.length → pm.PushEvent (some ev) = (pm, some .ErrSysBusy)) ∧
      (pm.eventCh.length < 900 →
        pm.PushEvent (some ev) = ({ pm with eventCh := pm.eventCh ++ [ev] }, none))) ∧
    pm.PushEvent none = (pm, some .ErrInternalError) ∧
    (pm.isStarted = false → pm.PushEvent (some ev) = (pm, some .ErrInternalError)) ∧
    (¬ (ev.typ = EVENT_TYPE_PARTITION_CREATE ∨ ev.typ = EVENT_TYPE_PARTITION_DELETE ∨
        ev.typ = EVENT_TYPE_FORCE_PARTITION_DELETE) →
      pm.PushEvent (some ev) = (pm, some .ErrInternalError)) := by
  refine ⟨?_, rfl, ?_, ?_⟩
  · intro hs htyp
    have hfull : 900 ≤ pm.eventCh.length → pm.PushEvent (some ev) = (pm, some .ErrSysBusy) := by
      intro h
      unfold ProcessorManager.PushEvent
      have h9 : pm.eventCh.length ≥ PARTITION_CHANNEL_LIMIT * 9 / 10 := by
        unfold PARTITION_CHANNEL_LIMIT; omega
      simp only [hs, Bool.not_true, Bool.false_eq_true, if_false, htyp, if_true, h9]
    have hroom : pm.eventCh.length < 900 →
        pm.PushEvent (some ev) = ({ pm with eventCh := pm.eventCh ++ [ev] }, none) := by
      intro h
      unfold ProcessorManager.PushEvent
      have h9 : ¬ (pm.eventCh.length ≥ PARTITION_CHANNEL_LIMIT * 9 / 10) := by
        unfold PARTITION_CHANNEL_LIMIT; omega
      simp only [hs, Bool.not_true, Bool.false_eq_true, if_false, htyp, if_true, h9]
    refine ⟨⟨?_, fun h => by rw [hfull h]⟩, hfull, hroom⟩
    intro h
    by_contra hlt
    rw [hroom (by omega)] at h
    cases h
  · intro hs
    unfold ProcessorManager.PushEvent
    simp [hs]
  · intro htyp
    unfold ProcessorManager.PushEvent
    by_cases hs : pm.isStarted = true
    · simp only [hs, Bool.not_true, Bool.false_eq_true, if_false, htyp]
    · simp [hs]

/-- C26, the failing input: `deleteReplica` on the partition with the single replica R1,
given the list R1, R2, cuts R1 out and then reads index 0 of the empty list for R2: the
call panics instead of completing. -/
theorem deleteReplica_panics :
    deleteOuter 1 [mkReplica 1] [mkReplica 1, mkReplica 2] = .error "index out of range" ∧
    (oneReplicaState.partition.deleteReplica exampleMarshal ⟨[]⟩ true
      [mkReplica 1, mkReplica 2]).panicked = true ∧
    (oneReplicaState.partition.deleteReplica exampleMarshal ⟨[]⟩ true
      [mkReplica 1, mkReplica 2]).partition = oneReplicaState.partition :=
  ⟨rfl, by decide, by decide⟩

/-- C27, the failing input: for an info with a raft status, `IsLeader = false` and no
followers, `pickReplicaToDelete` reads `followers[0]` of the empty list and panics, and
so do the rounds of `PSHeartbeat` that call it: the one for a partition the master does
not know and the one for a stale epoch. -/
theorem pickReplicaToDelete_panics :
    followerInfo.RaftStatus ≠ none ∧
    pickReplicaToDelete (some followerInfo) = .error "index out of range" ∧
    (heartbeatInfo exampleMarshal "10.0.0.1:8000" emptyZM
      ⟨followerInfo, 10 * Second, true⟩).panicked = true ∧
    (heartbeatKnown exampleMarshal oneReplicaState followerInfo (10 * Second) true).panicked
      = true :=
  ⟨by decide, rfl, by decide, by decide⟩

/-- C29: for 32-bit `start ≤ stop` and `n ≥ 1` with `stop − start + 1 ≥ n`, `SlotSplit`
returns (no division by zero) exactly `n` slots, strictly increasing, all 32-bit, the
first equal to `start` and, for `n ≥ 2`, the last equal to `stop`; for `n ≥ 3` they are
the values `start + i * step` computed without wrap-around, closed by `stop`. It returns
nil when `n = 0` and when the range holds fewer than `n` slots. -/
theorem slotSplit_spec (start stop n : Nat) (hle : start ≤ stop) (hs : stop < 2 ^ 32)
    (hn : 1 ≤ n) (hfit : n ≤ stop - start + 1) :
    (∃ l, SlotSplit start stop n = .ok (some l) ∧
      l.length = n ∧
      l.Pairwise (fun a b => a < b) ∧
      (∀ x ∈ l, x < 2 ^ 32) ∧
      l.head? = some start ∧
      (2 ≤ n → l.getLast? = some stop) ∧
      (3 ≤ n → l = start ::
        ((List.range (n - 2)).map (fun j => start + (j + 1) * ((stop - start) / (n - 1))))
          ++ [stop])) ∧
    SlotSplit start stop 0 = .ok none ∧
    (∀ m, stop - start + 1 < m → m < 2 ^ 64 → SlotSplit start stop m = .ok none) := by
  have hsub := sub32_of_le stop start hle hs
  refine ⟨?_, rfl, ?_⟩
  · by_cases h1 : n = 1
    · subst h1
      refine ⟨[start], ?_, rfl, List.pairwise_singleton _ _, ?_, rfl, fun h => by omega,
        fun h => by omega⟩
      · unfold SlotSplit
        rw [if_neg (by omega), hsub, if_neg (by omega)]
        simp only [if_pos hle, if_true]
      · intro x hx; simp at hx; omega
    · by_cases h2 : n = 2
      · subst h2
        refine ⟨[start, stop], ?_, rfl, ?_, ?_, rfl, fun _ => rfl, fun h => by omega⟩
        · unfold SlotSplit
          rw [if_neg (by omega), hsub, if_neg (by omega)]
          simp only [if_pos hle]
          simp
        · simp; omega
        · intro x hx; simp at hx; omega
      · have h3 : 3 ≤ n := by omega
        have hstep : ∀ j, j < n - 2 →
            start + (j + 1) * ((stop - start) / (n - 1)) < stop ∧
            start < start + (j + 1) * ((stop - start) / (n - 1)) := by
          intro j hj
          have hlt := mul_step_lt (j + 1) (n - 1) (stop - start) (by omega) (by omega)
          have hpos : 1 ≤ (stop - start) / (n - 1) :=
            (Nat.le_div_iff_mul_le (by omega)).2 (by omega)
          have hge : 1 * ((stop - start) / (n - 1)) ≤ (j + 1) * ((stop - start) / (n - 1)) :=
            Nat.mul_le_mul_right _ (by omega)
          omega
        refine ⟨_, slotSplit_many start stop n hle hs h3 hfit, ?_, ?_, ?_, rfl, ?_, fun _ => rfl⟩
        · simp; omega
        · rw [List.cons_append, List.pairwise_cons]
          refine ⟨?_, ?_⟩
          · intro x hx
            rcases List.mem_append.1 hx with hx1 | hx2
            · obtain ⟨j, hj, rfl⟩ := List.mem_map.1 hx1
              exact (hstep j (List.mem_range.1 hj)).2
            · simp at hx2; omega
          · rw [List.pairwise_append]
            refine ⟨?_, List.pairwise_singleton _ _, ?_⟩
            · rw [List.pairwise_map]
              refine List.Pairwise.imp ?_ (List.pairwise_lt_range (n - 2))
              intro a b hab
              have hpos : 1 ≤ (stop - start) / (n - 1) :=
                (Nat.le_div_iff_mul_le (by omega)).2 (by omega)
              have : (a + 1) * ((stop - start) / (n - 1)) < (b + 1) * ((stop - start) / (n - 1)) :=
                Nat.mul_lt_mul_of_lt_of_le (by omega) (le_refl _) (by omega)
              omega
            · intro a ha b hb
              obtain ⟨j, hj, rfl⟩ := List.mem_map.1 ha
              simp at hb
              subst hb
              exact (hstep j (List.mem_range.1 hj)).1
        · intro x hx
          rw [List.cons_append] at hx
          rcases List.mem_cons.1 hx with rfl | hx1
          · omega
          · rcases List.mem_append.1 hx1 with hx2 | hx3
            · obtain ⟨j, hj, rfl⟩ := List.mem_map.1 hx2
              have := (hstep j (List.mem_range.1 hj)).1
              omega
            · simp at hx3; omega
        · intro _
          rw [List.getLast?_append]
          rfl
  · intro m hm hm64
    unfold SlotSplit
    rw [if_neg (by omega), hsub, if_pos (by omega)]

/-- C29 at an example: four slots out of 0..100 are 0, 33, 66, 100. -/
theorem slotSplit_spec_witness :
    SlotSplit 0 100 4 = .ok (some [0, 33, 66, 100]) ∧
    ∃ l, SlotSplit 0 100 4 = .ok (some l) ∧ l.length = 4 ∧
      l.Pairwise (fun a b => a < b) ∧ l.head? = some 0 ∧ l.getLast? = some 100 :=
  ⟨rfl,
    let ⟨l, h1, h2, h3, _, h5, h6, _⟩ :=
      (slotSplit_spec 0 100 4 (by decide) (by decide) (by decide) (by decide)).1
    ⟨l, h1, h2, h3, h5, h6 (by decide)⟩⟩

/-- C30, the failing input: under the directory "/d/" the keys "/d/a", "/d/a-b" and
"/d/a/c" are in ascending byte order ("-" sorts before "/") and all start with the
directory path; `ListDir` compares a name only with the last one added and returns
"a", "a-b", "a": the child "a" appears twice. -/
theorem listDir_duplicate :
    [asciiBytes "/d/a", asciiBytes "/d/a-b", asciiBytes "/d/a/c"].Pairwise
      (fun a b => bytesCompare a b < 0) ∧
    (∀ k ∈ [asciiBytes "/d/a", asciiBytes "/d/a-b", asciiBytes "/d/a/c"],
      bytesHasPrefix k (asciiBytes "/d/") = true) ∧
    ListDir (asciiBytes "/d/") [asciiBytes "/d/a", asciiBytes "/d/a-b", asciiBytes "/d/a/c"]
      = .ok [asciiBytes "a", asciiBytes "a-b", asciiBytes "a"] ∧
    ¬ [asciiBytes "a", asciiBytes "a-b", asciiBytes "a"].Nodup ∧
    ListDir (asciiBytes "/d/") [] = .error .ErrNoNode := by
  refine ⟨by decide, by decide, by rfl, by decide, rfl⟩

/-- C28: with `FIXED_REPLICA_NUM = 1`, for every state of the zone master and every
heartbeat request, the calls of `PushEvent` that `PSHeartbeat` makes are the same for
every processor manager and carry Delete and ForceDelete events only, never a Create
event: the replica count check runs only on a partition with at least one replica. -/
theorem heartbeat_never_creates (marshal : MetaPartition → Option (List Nat))
    (mineIsLeader : Bool) (findServerById : Nat → Option PartitionServer)
    (c : PartitionCache) (st : Store) (nodeID : Nat) (partitions : Option (List HbRound)) :
    FIXED_REPLICA_NUM = 1 ∧
    ∃ evs : List ProcessorEvent,
      (∀ ev ∈ evs, ev.typ ≠ EVENT_TYPE_PARTITION_CREATE ∧
        (ev.typ = EVENT_TYPE_PARTITION_DELETE ∨ ev.typ = EVENT_TYPE_FORCE_PARTITION_DELETE)) ∧
      ∀ pm : ProcessorManager,
        (PSHeartbeat marshal mineIsLeader findServerById ⟨c, st, pm⟩ nodeID partitions).1.state.pm
          = pushAll pm evs := by
  refine ⟨rfl, ?_⟩
  have hnil : ∃ evs : List ProcessorEvent,
      (∀ ev ∈ evs, ev.typ ≠ EVENT_TYPE_PARTITION_CREATE ∧
        (ev.typ = EVENT_TYPE_PARTITION_DELETE ∨ ev.typ = EVENT_TYPE_FORCE_PARTITION_DELETE)) ∧
      ∀ pm : ProcessorManager, pm = pushAll pm evs :=
    ⟨[], (by intro ev h; cases h), fun _ => rfl⟩
  cases hlead : mineIsLeader with
  | false =>
    obtain ⟨evs, hev, hf⟩ := hnil
    exact ⟨evs, hev, fun pm => by unfold PSHeartbeat; simpa using hf pm⟩
  | true =>
    cases hps : findServerById nodeID with
    | none =>
      obtain ⟨evs, hev, hf⟩ := hnil
      exact ⟨evs, hev, fun pm => by unfold PSHeartbeat; simpa [hps] using hf pm⟩
    | some ps =>
      cases partitions with
      | none =>
        obtain ⟨evs, hev, hf⟩ := hnil
        exact ⟨evs, hev, fun pm => by unfold PSHeartbeat; simpa [hps] using hf pm⟩
      | some rounds =>
        obtain ⟨c2, st2, b, evs, hev, hf⟩ := heartbeatLoop_shape marshal ps.getRpcAddr rounds c st
        beta_reduce at hf
        refine ⟨evs, ?_, ?_⟩
        · intro ev h
          rcases hev ev h with h1 | h1
          · exact ⟨by rw [h1]; decide, Or.inl h1⟩
          · exact ⟨by rw [h1]; decide, Or.inr h1⟩
        · intro pm
          unfold PSHeartbeat
          simp only [Bool.not_true, Bool.false_eq_true, if_false, hps]
          rw [hf pm]

/-- C24: for every byte-string prefix, `BytesPrefix` returns the prefix itself as start,
and a byte string `k` lies in the range from start to limit (an empty limit standing for
no upper bound) exactly when `k` begins with the prefix; the limit is not empty when the
prefix has a byte below 0xff and is empty when the prefix is empty or all 0xff. The key
of every partition ID lies in the range that `Recovery` scans, and no byte string without
the prefix "schema partition " does. -/
theorem bytesPrefix_range (pre : List Nat) (hpre : allBytes pre) :
    (BytesPrefix pre).1 = pre ∧
    (∀ k : List Nat, allBytes k →
      (keyInRange (BytesPrefix pre).1 (BytesPrefix pre).2 k ↔ bytesHasPrefix k pre = true)) ∧
    ((∃ b ∈ pre, b < 255) → (BytesPrefix pre).2 ≠ []) ∧
    ((∀ b ∈ pre, b = 255) → (BytesPrefix pre).2 = []) ∧
    (∀ id : Nat, keyInRange recoveryRange.1 recoveryRange.2 (partitionKey id)) ∧
    (∀ k : List Nat, allBytes k → bytesHasPrefix k (asciiBytes PREFIX_PARTITION) = false →
      ¬ keyInRange recoveryRange.1 recoveryRange.2 k) := by
  have hP : allBytes (asciiBytes PREFIX_PARTITION) := by decide
  have hcases := bytesPrefixLimit_cases pre hpre pre.length (le_refl _) (by simp)
  refine ⟨rfl, ?_, ?_, ?_, ?_, ?_⟩
  · intro k hk
    rw [bytesHasPrefix_iff]
    constructor
    · exact extension_of_keyInRange pre k hpre hk
    · rintro ⟨u, hu⟩
      rw [hu]
      exact keyInRange_of_extension pre u hpre
  · rintro ⟨b, hb, hlt⟩
    rcases hcases with ⟨a, c, rest, _, _, _, h4⟩ | ⟨h1, _⟩
    · show bytesPrefixLimit pre pre.length ≠ []
      rw [h4]
      simp
    · have := h1 b hb
      omega
  · intro hall
    rcases hcases with ⟨a, c, rest, h1, h2, _, _⟩ | ⟨_, h2⟩
    · have := hall c (by rw [h1]; simp)
      omega
    · exact h2
  · intro id
    unfold partitionKey recoveryRange
    rw [asciiBytes_append]
    exact keyInRange_of_extension _ _ hP
  · intro k hk hno hin
    obtain ⟨u, hu⟩ := extension_of_keyInRange _ k hP hk hin
    have := (bytesHasPrefix_iff k (asciiBytes PREFIX_PARTITION)).2 ⟨u, hu⟩
    rw [this] at hno
    cases hno

/-- C24, at the prefix "schema partition ": the limit ends in "!" in place of the
space, and the key of partition 7 is in the range. -/
theorem bytesPrefix_range_witness :
    allBytes (asciiBytes PREFIX_PARTITION) ∧
    (BytesPrefix (asciiBytes PREFIX_PARTITION)).2 = asciiBytes "schema partition!" ∧
    keyInRange recoveryRange.1 recoveryRange.2 (partitionKey 7) :=
  ⟨by decide, by decide,
    (bytesPrefix_range (asciiBytes PREFIX_PARTITION) (by decide)).2.2.2.2.1 7⟩

/-- C25, amended: on a store whose pairs are in ascending key order, for all bounds
`start` and `end`, a nil `end` standing for no upper bound, stepping the iterator of
`RangeIterator(start, end)` with `Next` while it is `Valid` visits exactly the pairs with
`start ≤ key` and, when `end` is not nil, `key < end`, each once and in ascending key
order; and `Seek(k)` on it moves the cursor to the first pair with key at least the
larger of `k` and `start`, reads that pair, and is valid exactly when there is such a pair
and its key is below `end` or `end` is nil. -/
theorem rangeIterator_visits (ct : List (List Nat × List Nat)) (start stop : Option (List Nat))
    (hs : sortedKeys ct) :
    (∀ fuel : Nat, ct.length < fuel →
      visit fuel (RangeIterator ct start stop)
        = ct.filter (fun kv => aboveStart start kv.1 && belowStop stop kv.1)) ∧
    sortedKeys (ct.filter (fun kv => aboveStart start kv.1 && belowStop stop kv.1)) ∧
    (∀ k : List Nat,
      (∀ (j : Nat) (kv : List Nat × List Nat),
        j < ((RangeIterator ct start stop).Seek k).iter.pos → ct[j]? = some kv →
          bytesCompare kv.1 (seekTarget start k) < 0) ∧
      (∀ kv : List Nat × List Nat,
        ct[((RangeIterator ct start stop).Seek k).iter.pos]? = some kv →
          bytesCompare (seekTarget start k) kv.1 ≤ 0 ∧
          ((RangeIterator ct start stop).Seek k).key = some kv.1 ∧
          ((RangeIterator ct start stop).Seek k).val = some kv.2 ∧
          ((RangeIterator ct start stop).Seek k).valid = belowStop stop kv.1) ∧
      (ct[((RangeIterator ct start stop).Seek k).iter.pos]? = none →
        ((RangeIterator ct start stop).Seek k).valid = false)) := by
  refine ⟨fun fuel hf => rangeIterator_steps ct start stop hs fuel hf,
    List.Pairwise.sublist (List.filter_sublist _) hs, ?_⟩
  intro k
  rw [rangeIterator_seek]
  generalize hp : ct.findIdx (fun kv => decide (bytesCompare (seekTarget start k) kv.1 ≤ 0)) = p0
  have hpos : (iterAt ct start stop p0).iter.pos = p0 := by
    rw [(iterAt_fields ct start stop p0).1]
  rw [hpos]
  refine ⟨?_, ?_, ?_⟩
  · intro j kv hj hkv
    apply bytesCompare_swap
    have hjlen : j < ct.length := by
      rcases List.getElem?_eq_some_iff.1 hkv with ⟨h, _⟩
      exact h
    have hkv2 : ct[j] = kv := by
      rcases List.getElem?_eq_some_iff.1 hkv with ⟨_, h⟩
      exact h
    have hj2 : j < ct.findIdx
        (fun kv : List Nat × List Nat =>
          decide (bytesCompare (seekTarget start k) kv.1 ≤ 0)) := by
      rw [hp]; exact hj
    have := List.not_of_lt_findIdx hj2
    rw [hkv2] at this
    simpa using this
  · intro kv hkv
    have hP : decide (bytesCompare (seekTarget start k) kv.1 ≤ 0) = true := by
      rw [← hp] at hkv
      exact List.findIdx_of_getElem?_eq_some
        (p := fun kv : List Nat × List Nat =>
          decide (bytesCompare (seekTarget start k) kv.1 ≤ 0)) hkv
    unfold iterAt
    simp only [hkv]
    simpa using hP
  · intro hnone
    unfold iterAt
    simp only [hnone]

/-- C25, counterexample: with a nil end bound the iterator visits the pair with key "a",
which is not below the empty byte string. -/
theorem rangeIterator_nil_end :
    visit 2 (RangeIterator [([97], [1])] none none) = [([97], [1])] ∧
    ¬ bytesCompare [97] [] < 0 := by
  decide

/-- C25, on the keys "a", "b", "c" with the bounds "b" and "c": the pair of "b" is
visited. -/
theorem rangeIterator_visits_witness :
    sortedKeys abcContent ∧
    visit 4 (RangeIterator abcContent (some [98]) (some [99])) = [([98], [2])] :=
  ⟨by unfold sortedKeys; decide,
    (rangeIterator_visits abcContent (some [98]) (some [99])
      (by unfold sortedKeys; decide)).1 4 (by decide)⟩

/-- C23: on a server that is not stopping, a CreatePartition event for a partition ID
whose hosted store has a status other than INVALID leaves the whole state as it was: the
partition map, the resolver, the stores closed and started, the heartbeat triggers. Hence
for a request whose partition status is not INVALID, the store built from it and started
reporting that status, handling the request twice leaves the state of handling it once. -/
theorem createPartition_idempotent {σ : Type} (ops : PartitionStoreOps σ) (s : Server σ)
    (p : MetaPartition) (hstop : s.stopping = false) :
    (∀ st : σ, mapLoad s.partitions p.ID = some st →
      (ops.GetMeta st).Status ≠ PartitionStatus.PA_INVALID →
      doAdminEvent ops s (.CreatePartitionRequest p) = s) ∧
    (p.Status ≠ PartitionStatus.PA_INVALID →
      (ops.GetMeta (ops.Start (ops.build p))).Status = p.Status →
      doAdminEvent ops (doAdminEvent ops s (.CreatePartitionRequest p))
          (.CreatePartitionRequest p)
        = doAdminEvent ops s (.CreatePartitionRequest p)) := by
  refine ⟨fun st h1 h2 => doAdminEvent_hosted ops s p st h1 h2, ?_⟩
  intro hp hkeep
  have hbuilt : (ops.GetMeta (ops.Start (ops.build p))).Status ≠ PartitionStatus.PA_INVALID := by
    rw [hkeep]; exact hp
  have hfree : ∀ s1 : Server σ, mapLoad s1.partitions p.ID = none →
      doAdminEvent ops
        { doPartitionCreate ops s1 p with
          heartbeatTriggers := (doPartitionCreate ops s1 p).heartbeatTriggers + 1 }
        (.CreatePartitionRequest p)
      = { doPartitionCreate ops s1 p with
          heartbeatTriggers := (doPartitionCreate ops s1 p).heartbeatTriggers + 1 } := by
    intro s1 h1
    exact doAdminEvent_hosted ops _ p _ (doPartitionCreate_free ops s1 p h1).1 hbuilt
  cases hload : mapLoad s.partitions p.ID with
  | none =>
    have h1 : doAdminEvent ops s (.CreatePartitionRequest p)
        = { doPartitionCreate ops s p with
            heartbeatTriggers := (doPartitionCreate ops s p).heartbeatTriggers + 1 } := by
      unfold doAdminEvent
      simp only [hstop, hload, Bool.false_eq_true, if_false]
    rw [h1]
    exact hfree s hload
  | some st =>
    by_cases hst : (ops.GetMeta st).Status ≠ PartitionStatus.PA_INVALID
    · rw [doAdminEvent_hosted ops s p st hload hst]
      exact doAdminEvent_hosted ops s p st hload hst
    · have h1 : doAdminEvent ops s (.CreatePartitionRequest p)
          = { doPartitionCreate ops
                { s with closeCalls := s.closeCalls ++ [st]
                         partitions := mapDelete s.partitions p.ID } p with
              heartbeatTriggers := (doPartitionCreate ops
                { s with closeCalls := s.closeCalls ++ [st]
                         partitions := mapDelete s.partitions p.ID } p).heartbeatTriggers + 1 } := by
        unfold doAdminEvent
        simp only [hstop, hload, hst, Bool.false_eq_true, if_false]
      rw [h1]
      exact hfree _ (mapLoad_delete _ _)

/-- C23, on a running server that hosts nothing: the first create request of partition 7
puts its store in the map and triggers a heartbeat, the second changes nothing. -/
theorem createPartition_idempotent_witness :
    emptyServer.stopping = false ∧
    doAdminEvent metaOps
        (doAdminEvent metaOps emptyServer (.CreatePartitionRequest examplePartition.meta))
        (.CreatePartitionRequest examplePartition.meta)
      = doAdminEvent metaOps emptyServer (.CreatePartitionRequest examplePartition.meta) ∧
    (doAdminEvent metaOps emptyServer
      (.CreatePartitionRequest examplePartition.meta)).partitions = [(7, examplePartition.meta)] ∧
    (doAdminEvent metaOps emptyServer
      (.CreatePartitionRequest examplePartition.meta)).heartbeatTriggers = 1 :=
  ⟨rfl,
    (createPartition_idempotent metaOps emptyServer examplePartition.meta rfl).2
      (by decide) rfl,
    rfl, rfl⟩

end Baud
